import Mathlib

/-!
# Shader compilation cache and include finder

A shallow embedding of `IShaderCompiler::CCache` (`find`, `serialize`, `deserialize`), of
`IShaderCompiler::CIncludeFinder` (search paths, generators, include resolution), of
`IIncludeGenerator` (`getInclude`, `parseArgumentsFromPath`) and of
`CFileSystemIncludeLoader::getInclude` from `src/nbl/asset/utils/IShaderCompiler.cpp`,
of `matrix4SIMD::getTranslation` and `getTranslation3D` from `include/matrix4SIMD_impl.h`,
and of `CToneMapper::registerBuiltinGLSLIncludes` from `ext/ToneMapper/CToneMapper.cpp`,
together with the data they work on, followed by the properties established about them.

Conventions of the embedding:
* `std::string` and `system::path` values are `String`; byte buffers are lists of `Byte`.
* sizes and offsets (`size_t`, `uint64_t`) are natural numbers; the one place where a
  64-bit value is written to and read from memory keeps the reduction modulo `2 ^ 64`.
* a C++ call that leaves the bounds of a buffer, that ends in an exception of the JSON
  library, or that fails an `assert`, is an explicit outcome of the embedded function;
  where the bytes found outside a buffer decide how the call goes on, the buffer is
  embedded together with the memory around it (`ByteSpan`).
* a loop that need not terminate takes a bound on the number of its iterations and
  returns `none` when the bound is reached; a function that calls such a loop returns
  `none` when the call does not return.
-/

namespace nbl.asset

/-! ## Data model -/

/-- One `uint8_t`. -/
abbrev Byte := Fin 256

/-- The 256-bit content digest (`std::array<uint64_t, 4>`), read as one number. -/
abbrev Hash256 := Nat

/-- Result of an include resolution, `IIncludeLoader::found_t`. -/
structure found_t where
  absolutePath : String
  contents : String
  hash : Hash256
deriving DecidableEq

/-- Record of one resolved include, `CCache::SEntry::SPreprocessingDependency`. -/
structure SPreprocessingDependency where
  requestingSourceDir : String
  identifier : String
  contents : String
  hash : Hash256
  standardInclude : Bool
deriving DecidableEq

/-- Modelled from the spec: the key fields of `SEntry` (declared in `IShaderCompiler.h`,
which is not among the sources), i.e. the source text and the resolved compile options.
The container's `equal_range` compares exactly these. -/
structure CacheKey where
  mainFileContents : String
  compilerArgs : String
deriving DecidableEq

/-- The compiled artifact, `ICPUShader`, through the four accessors the cache uses:
`getContent()` (the owned bytecode buffer), `getStage()`, `getContentType()` and
`getFilepathHint()`. -/
structure ICPUShader where
  content : List Byte
  stage : Nat
  contentType : Nat
  filepathHint : String
deriving DecidableEq

/-- A cache line, `CCache::SEntry`, as stored in the container. `serialize` dereferences
`entry.value` of every stored entry without a null test, so a stored entry carries an
artifact. -/
structure SEntry where
  key : CacheKey
  dependencies : List SPreprocessingDependency
  value : ICPUShader
deriving DecidableEq

/-- The cache, `CCache`: `m_container` listed in iteration order. -/
structure CCache where
  m_container : List SEntry
deriving DecidableEq

/-- A freshly constructed cache. -/
def CCache.empty : CCache := ⟨[]⟩

/-- Modelled from the spec: `CCache::insert` (defined in `IShaderCompiler.h`, which is not
among the sources) appends the entry; no deduplication. -/
def CCache.insert (c : CCache) (entry : SEntry) : CCache := ⟨c.m_container ++ [entry]⟩

/-- The bucket `m_container.equal_range(mainFile)`: the stored entries whose key equals the
key of the looked-up entry, in iteration order. -/
def CCache.equal_range (c : CCache) (mainFile : CacheKey) : List SEntry :=
  c.m_container.filter (fun e => decide (e.key = mainFile))

/-! ## `CCache::find` -/

/-- What `CCache::find` uses of the `CIncludeFinder` handed to it: its two public resolution
methods, each a function of the requesting directory and the include name. The methods are
total functions, so a value of this type stands for a finder state in which the calls that
`find` makes return. `CCache.findRun` runs `find` on the include finder itself, where a call
of `getIncludeStandard` need not return. -/
structure IncludeResolver where
  getIncludeStandard : String → String → found_t
  getIncludeRelative : String → String → found_t

/-- The inner loop of `find` over `found->dependencies`: `allDependenciesMatch` starts
`true`; the first dependency whose re-resolved header differs in hash or in contents sets it
to `false` and breaks. -/
def allDependenciesMatch (finder : IncludeResolver) : List SPreprocessingDependency → Bool
  | [] => true
  | dependency :: rest =>
    let header :=
      if dependency.standardInclude then
        finder.getIncludeStandard dependency.requestingSourceDir dependency.identifier
      else
        finder.getIncludeRelative dependency.requestingSourceDir dependency.identifier
    if header.hash != dependency.hash || header.contents != dependency.contents then false
    else allDependenciesMatch finder rest

/-- The outer loop of `find` over the bucket: the entry `found` at which the loop returns,
if any. -/
def findEntry (finder : IncludeResolver) : List SEntry → Option SEntry
  | [] => none
  | found :: rest =>
    if allDependenciesMatch finder found.dependencies then some found
    else findEntry finder rest

/-- `CCache::find` for a finder all of whose calls return: `found->value` of the entry the
bucket loop stops at, `nullptr` (`none`) when it runs to the end of the bucket. The
looked-up entry `mainFile` enters only through its key. -/
def CCache.find (c : CCache) (mainFile : CacheKey) (finder : IncludeResolver) :
    Option ICPUShader :=
  (findEntry finder (c.equal_range mainFile)).map (fun found => found.value)

/-! ## The persisted form: `CCache::serialize` and `CCache::deserialize` -/

/-- A `json` value that the code fills with `push_back` and reads back with
`get_to(std::vector<T>&)`. A default-constructed `json` is `null`. -/
inductive JsonArray (α : Type) where
  | null
  | array (items : List α)
deriving DecidableEq

/-- The library's `json::push_back`: on `null` the value first becomes an empty array. -/
def JsonArray.push_back {α : Type} : JsonArray α → α → JsonArray α
  | .null, x => .array [x]
  | .array items, x => .array (items ++ [x])

/-- The library's `get_to` into a `std::vector`: the elements of an array; on any other
value (here `null`) it throws a type error, rendered as `none`. -/
def JsonArray.get_to {α : Type} : JsonArray α → Option (List α)
  | .null => none
  | .array items => some items

/-- Modelled from the spec: the JSON form of an `SEntry` (its `to_json` / `from_json` are in
`shaderCompiler_serialization.h`, which is not among the sources): the full cache line
minus the raw bytecode, i.e. key fields and dependency list. After `get_to` the code holds
such a record as an `SEntry` whose `value` is still unset. -/
structure SEntryJson where
  key : CacheKey
  dependencies : List SPreprocessingDependency
deriving DecidableEq

/-- Modelled from the spec: `to_json` of a stored entry (see `SEntryJson`). -/
def SEntry.to_json (entry : SEntry) : SEntryJson := ⟨entry.key, entry.dependencies⟩

/-- The per-entry record `CPUShaderCreationParams` with the five members `serialize`
assigns. -/
structure CPUShaderCreationParams where
  stage : Nat
  contentType : Nat
  filepathHint : String
  codeByteSize : Nat
  offset : Nat
deriving DecidableEq

/-- The document `containerJson`: an object with the members `entries` and
`shaderCreationParams`. -/
structure ContainerJson where
  entries : JsonArray SEntryJson
  shaderCreationParams : JsonArray CPUShaderCreationParams
deriving DecidableEq

/-- The JSON library as the cache uses it, a parameter of the embedding: `dump` writes the
document as text bytes, `parse` reads one back and is `none` when the library throws
(malformed text, a missing member, an element of the wrong shape). -/
structure JsonCodec where
  dump : ContainerJson → List Byte
  parse : List Byte → Option ContainerJson

/-- The constant `CONTAINER_JSON_SIZE_BYTES`; the source states its value in the comment
"first CONTAINER_JSON_SIZE_BYTES (8) entries are the size of the json". -/
def CONTAINER_JSON_SIZE_BYTES : Nat := 8

/-- The object representation of a `uint64_t` on a little-endian host, the
`CONTAINER_JSON_SIZE_BYTES` bytes that `serialize` copies out of
`&dumpedContainerJsonLength`. -/
def uint64Bytes (n : Nat) : List Byte :=
  (List.range CONTAINER_JSON_SIZE_BYTES).map (fun i => Fin.ofNat (n % 2 ^ 64 / 256 ^ i))

/-- The value of a `uint64_t` whose object representation on a little-endian host is the
given bytes, least significant first. -/
def readUint64 : List Byte → Nat
  | [] => 0
  | b :: rest => b.val + 256 * readUint64 rest

/-- The three values the loop of `serialize` builds up. -/
structure SerializeState where
  shadersBuffer : List Byte
  entries : JsonArray SEntryJson
  shaderCreationParams : JsonArray CPUShaderCreationParams
deriving DecidableEq

/-- One iteration of the loop of `serialize`. -/
def serializeStep (st : SerializeState) (entry : SEntry) : SerializeState :=
  let params : CPUShaderCreationParams :=
    { stage := entry.value.stage
      contentType := entry.value.contentType
      filepathHint := entry.value.filepathHint
      offset := st.shadersBuffer.length
      codeByteSize := entry.value.content.length }
  { entries := st.entries.push_back entry.to_json
    shaderCreationParams := st.shaderCreationParams.push_back params
    shadersBuffer := st.shadersBuffer ++ entry.value.content.take params.codeByteSize }

/-- The loop of `serialize` over `m_container`, started from an empty `shadersBuffer` and
two default-constructed `json` values. -/
def CCache.serializeLoop (c : CCache) : SerializeState :=
  c.m_container.foldl serializeStep ⟨[], .null, .null⟩

/-- The document `containerJson` that `serialize` dumps. -/
def CCache.containerJson (c : CCache) : ContainerJson :=
  ⟨c.serializeLoop.entries, c.serializeLoop.shaderCreationParams⟩

/-- `CCache::serialize`. -/
def CCache.serialize (codec : JsonCodec) (c : CCache) : List Byte :=
  let shadersBuffer := c.serializeLoop.shadersBuffer
  let dumpedContainerJson := codec.dump c.containerJson
  let dumpedContainerJsonLength := dumpedContainerJson.length % 2 ^ 64
  uint64Bytes dumpedContainerJsonLength ++ dumpedContainerJson ++ shadersBuffer

/-- How a call of `deserialize` ends. -/
inductive Outcome (α : Type) where
  /-- the call returns `result` -/
  | ok (result : α)
  /-- the JSON library throws -/
  | jsonException
  /-- the call accesses memory outside the bounds of a buffer or vector (undefined
  behaviour) -/
  | outOfBounds
deriving DecidableEq

/-- A read of `n` bytes at position `pos` of a buffer: the bytes when the range
`[pos, pos + n)` lies inside the buffer, `none` when it does not. -/
def readBytes (buf : List Byte) (pos n : Nat) : Option (List Byte) :=
  if pos + n ≤ buf.length then some ((buf.drop pos).take n) else none

/-- The loop of `deserialize` from index `i` on: `rest` are `entries[i..]`, `retVal` the
cache built so far. `shaderCreationParams[i]` is an unchecked vector access and the
`memcpy` an unchecked read of `serializedCache`. -/
def deserializeLoop (serializedCache : List Byte) (containerJsonSize : Nat)
    (shaderCreationParams : List CPUShaderCreationParams) :
    Nat → List SEntryJson → CCache → Outcome CCache
  | _, [], retVal => .ok retVal
  | i, entry :: rest, retVal =>
    match shaderCreationParams[i]? with
    | none => .outOfBounds
    | some params =>
      match readBytes serializedCache
          (CONTAINER_JSON_SIZE_BYTES + containerJsonSize + params.offset)
          params.codeByteSize with
      | none => .outOfBounds
      | some code =>
        let value : ICPUShader :=
          { content := code
            stage := params.stage
            contentType := params.contentType
            filepathHint := params.filepathHint }
        deserializeLoop serializedCache containerJsonSize shaderCreationParams (i + 1) rest
          (retVal.insert { key := entry.key, dependencies := entry.dependencies, value := value })

/-- `CCache::deserialize` of a span of bytes, followed as long as its reads stay inside the
span. The code makes three kinds of unchecked access: `cacheStart[0]` reads the first eight
bytes, the `string_view` handed to `json::parse` covers `[8, 8 + containerJsonSize)`, and
each `memcpy` reads `[8 + containerJsonSize + offset, … + codeByteSize)`. The first access
that leaves the span ends this embedding in `outOfBounds`; what the call does from there on
depends on the memory around the span and is the subject of `CCache.deserializeSpan`. -/
def CCache.deserialize (codec : JsonCodec) (serializedCache : List Byte) : Outcome CCache :=
  match readBytes serializedCache 0 CONTAINER_JSON_SIZE_BYTES with
  | none => .outOfBounds
  | some cacheStart =>
    let containerJsonSize := readUint64 cacheStart
    match readBytes serializedCache CONTAINER_JSON_SIZE_BYTES containerJsonSize with
    | none => .outOfBounds
    | some containerJsonString =>
      match codec.parse containerJsonString with
      | none => .jsonException
      | some containerJson =>
        match containerJson.entries.get_to, containerJson.shaderCreationParams.get_to with
        | some entries, some shaderCreationParams =>
          deserializeLoop serializedCache containerJsonSize shaderCreationParams 0 entries
            CCache.empty
        | _, _ => .jsonException

/-! ## `CCache::deserialize` with the memory around the span -/

/-- A `std::span<const uint8_t>` together with the memory it points into: `size` is
`size()`, and `memory i` is the byte that a read of the address `data() + i` returns, for
every distance `i` below `2 ^ 64`, inside the span or not. This covers the runs in which
every read returns; a read of an address that is not mapped ends the process and is not
represented. -/
structure ByteSpan where
  memory : Nat → Byte
  size : Nat

/-- The bytes that a read of `n` bytes from the address `data() + pos` on returns. Pointer
arithmetic is modulo `2 ^ 64`; a read of no byte touches no address. -/
def ByteSpan.read (s : ByteSpan) (pos n : Nat) : List Byte :=
  (List.range n).map (fun i => s.memory ((pos + i) % 2 ^ 64))

/-- The loop of `deserialize` from index `i` on, with every `memcpy` reading the memory at
the address it is given. `shaderCreationParams[i]` is an unchecked vector access, which
leaves the vector when there are fewer records than entries. -/
def deserializeSpanLoop (serializedCache : ByteSpan) (containerJsonSize : Nat)
    (shaderCreationParams : List CPUShaderCreationParams) :
    Nat → List SEntryJson → CCache → Outcome CCache
  | _, [], retVal => .ok retVal
  | i, entry :: rest, retVal =>
    match shaderCreationParams[i]? with
    | none => .outOfBounds
    | some params =>
      let code := serializedCache.read
        (CONTAINER_JSON_SIZE_BYTES + containerJsonSize + params.offset) params.codeByteSize
      let value : ICPUShader :=
        { content := code
          stage := params.stage
          contentType := params.contentType
          filepathHint := params.filepathHint }
      deserializeSpanLoop serializedCache containerJsonSize shaderCreationParams (i + 1) rest
        (retVal.insert { key := entry.key, dependencies := entry.dependencies, value := value })

/-- `CCache::deserialize` of a span, with every read returning what the memory holds at its
address: `cacheStart[0]` reads eight bytes at `data()`, the `string_view` handed to
`json::parse` covers the `containerJsonSize` bytes behind them, and each `memcpy` reads
`codeByteSize` bytes at `data() + 8 + containerJsonSize + offset`. The code uses
`serializedCache.size()` for nothing but the construction of `cacheAsChar`, of which it
takes `begin()` only. -/
def CCache.deserializeSpan (codec : JsonCodec) (serializedCache : ByteSpan) :
    Outcome CCache :=
  let containerJsonSize := readUint64 (serializedCache.read 0 CONTAINER_JSON_SIZE_BYTES)
  match codec.parse (serializedCache.read CONTAINER_JSON_SIZE_BYTES containerJsonSize) with
  | none => .jsonException
  | some containerJson =>
    match containerJson.entries.get_to, containerJson.shaderCreationParams.get_to with
    | some entries, some shaderCreationParams =>
      deserializeSpanLoop serializedCache containerJsonSize shaderCreationParams 0 entries
        CCache.empty
    | _, _ => .jsonException

/-- The span over a buffer that is followed in memory by the bytes `behind`, and by zero
bytes behind those. -/
def ByteSpan.ofBuffer (buffer behind : List Byte) : ByteSpan :=
  ⟨fun i => (buffer ++ behind).getD i 0, buffer.length⟩

/-! ## Closed form of the records written by `serialize` -/

/-- The creation-parameter records that the loop of `serialize` writes for a run of
entries when `shadersBuffer` already holds `base` bytes on entering the run. -/
def recordsFrom (base : Nat) : List SEntry → List CPUShaderCreationParams
  | [] => []
  | entry :: rest =>
    { stage := entry.value.stage
      contentType := entry.value.contentType
      filepathHint := entry.value.filepathHint
      offset := base
      codeByteSize := entry.value.content.length } ::
      recordsFrom (base + entry.value.content.length) rest

/-! ## A concrete document codec

Every property of `serialize` and `deserialize` below is stated for an arbitrary
`JsonCodec`. The closed examples need one to compute with; `binCodec` writes a
`ContainerJson` in a plain length-prefixed binary form and reads it back. -/

/-- Writer of a number: eight bytes, least significant first. -/
def putNat (n : Nat) : List Byte := uint64Bytes n

/-- Writer of a truth value: one byte. -/
def putBool (b : Bool) : List Byte := [if b then 1 else 0]

/-- Writer of a string: its length, then one byte per character. -/
def putString (s : String) : List Byte :=
  putNat s.length ++ s.toList.map (fun ch => Fin.ofNat ch.toNat)

/-- Writer of a list: the number of elements, then the elements. -/
def putList {α : Type} (put : α → List Byte) (xs : List α) : List Byte :=
  putNat xs.length ++ (xs.map put).flatten

/-- Writer of a value used as an array: tag 0 for `null`, tag 1 and the elements for an
array. -/
def putJsonArray {α : Type} (put : α → List Byte) : JsonArray α → List Byte
  | .null => [0]
  | .array items => 1 :: putList put items

/-- Writer of a dependency record. -/
def putDependency (d : SPreprocessingDependency) : List Byte :=
  putString d.requestingSourceDir ++ putString d.identifier ++ putString d.contents ++
    putNat d.hash ++ putBool d.standardInclude

/-- Writer of the JSON form of an entry. -/
def putEntry (e : SEntryJson) : List Byte :=
  putString e.key.mainFileContents ++ putString e.key.compilerArgs ++
    putList putDependency e.dependencies

/-- Writer of a creation-parameters record. -/
def putParams (p : CPUShaderCreationParams) : List Byte :=
  putNat p.stage ++ putNat p.contentType ++ putString p.filepathHint ++
    putNat p.codeByteSize ++ putNat p.offset

/-- A reader consumes a prefix of the input and returns the value read and the rest. -/
abbrev Reader (α : Type) := List Byte → Option (α × List Byte)

/-- Reader of a number. -/
def getNat : Reader Nat := fun bs =>
  if 8 ≤ bs.length then some (readUint64 (bs.take 8), bs.drop 8) else none

/-- Reader of a truth value. -/
def getBool : Reader Bool := fun bs =>
  match bs with
  | [] => none
  | b :: rest => if b.val = 0 then some (false, rest) else if b.val = 1 then some (true, rest)
    else none

/-- Reader of a string. -/
def getString : Reader String := fun bs =>
  match getNat bs with
  | none => none
  | some (n, rest) =>
    if n ≤ rest.length then
      some (String.mk ((rest.take n).map (fun b => Char.ofNat b.val)), rest.drop n)
    else none

/-- Reader of `n` consecutive elements. -/
def getMany {α : Type} (get : Reader α) : Nat → Reader (List α)
  | 0, bs => some ([], bs)
  | n + 1, bs =>
    match get bs with
    | none => none
    | some (x, rest) =>
      match getMany get n rest with
      | none => none
      | some (xs, rest') => some (x :: xs, rest')

/-- Reader of a list. The count is checked against the remaining input first, every
element taking at least one byte. -/
def getList {α : Type} (get : Reader α) : Reader (List α) := fun bs =>
  match getNat bs with
  | none => none
  | some (n, rest) => if n ≤ rest.length then getMany get n rest else none

/-- Reader of a value used as an array. -/
def getJsonArray {α : Type} (get : Reader α) : Reader (JsonArray α) := fun bs =>
  match bs with
  | [] => none
  | tag :: rest =>
    if tag.val = 0 then some (.null, rest)
    else if tag.val = 1 then
      match getList get rest with
      | none => none
      | some (items, rest') => some (.array items, rest')
    else none

/-- Reader of a dependency record. -/
def getDependency : Reader SPreprocessingDependency := fun bs => do
  let (requestingSourceDir, bs) ← getString bs
  let (identifier, bs) ← getString bs
  let (contents, bs) ← getString bs
  let (hash, bs) ← getNat bs
  let (standardInclude, bs) ← getBool bs
  pure ({ requestingSourceDir, identifier, contents, hash, standardInclude }, bs)

/-- Reader of the JSON form of an entry. -/
def getEntry : Reader SEntryJson := fun bs => do
  let (mainFileContents, bs) ← getString bs
  let (compilerArgs, bs) ← getString bs
  let (dependencies, bs) ← getList getDependency bs
  pure ({ key := { mainFileContents, compilerArgs }, dependencies }, bs)

/-- Reader of a creation-parameters record. -/
def getParams : Reader CPUShaderCreationParams := fun bs => do
  let (stage, bs) ← getNat bs
  let (contentType, bs) ← getNat bs
  let (filepathHint, bs) ← getString bs
  let (codeByteSize, bs) ← getNat bs
  let (offset, bs) ← getNat bs
  pure ({ stage, contentType, filepathHint, codeByteSize, offset }, bs)

/-- The binary codec: `dump` writes the two members in turn, `parse` reads them back and
rejects input with bytes left over. -/
def binCodec : JsonCodec where
  dump doc := putJsonArray putEntry doc.entries ++ putJsonArray putParams doc.shaderCreationParams
  parse bs :=
    match getJsonArray getEntry bs with
    | none => none
    | some (entries, rest) =>
      match getJsonArray getParams rest with
      | some (shaderCreationParams, []) => some { entries, shaderCreationParams }
      | _ => none

/-! ## Include loaders, include generators and the include finder -/

/-- Modelled from the spec: the `explicit operator bool` of `found_t` (declared in
`IShaderCompiler.h`, which is not among the sources): empty contents signal "not found". -/
def found_t.toBool (f : found_t) : Bool := f.contents != ""

/-- The value-initialised `found_t` that the code writes as `{}`. -/
def found_t.notFound : found_t := { absolutePath := "", contents := "", hash := 0 }

/-- An include loader, `IIncludeLoader`, through its one virtual method
`getInclude(searchPath, includeName)`. -/
structure IIncludeLoader where
  getInclude : String → String → found_t

/-- An include generator, `IIncludeGenerator`, through its two pure virtual methods:
`getPrefix()` and `getBuiltinNamesToFunctionMapping()`. A `std::regex` enters through
`std::regex_match` only and is the predicate "matches the whole name"; a `HandleFunc_t`
is a function from the include name to the produced text. -/
structure IIncludeGenerator where
  getPrefix : String
  getBuiltinNamesToFunctionMapping : List ((String → Bool) × (String → String))

/-- The loop of `IIncludeGenerator::getInclude` over the mapping. The
`_NBL_DEBUG_BREAK_IF(true)` in front of the `return` is a debugger break of debug builds
and takes no part in the value returned. -/
def IIncludeGenerator.getIncludeFrom (includeName : String) :
    List ((String → Bool) × (String → String)) → found_t
  | [] => found_t.notFound
  | pattern :: rest =>
    if pattern.1 includeName then
      let contents := pattern.2 includeName
      if contents != "" then { absolutePath := includeName, contents := contents, hash := 0 }
      else IIncludeGenerator.getIncludeFrom includeName rest
    else IIncludeGenerator.getIncludeFrom includeName rest

/-- `IIncludeGenerator::getInclude`. -/
def IIncludeGenerator.getInclude (g : IIncludeGenerator) (includeName : String) : found_t :=
  IIncludeGenerator.getIncludeFrom includeName g.getBuiltinNamesToFunctionMapping

/-- An element of `m_loaders`, `LoaderSearchPath`. -/
structure LoaderSearchPath where
  loader : IIncludeLoader
  searchPath : String

/-- The include finder, `CIncludeFinder`. The smart pointers stored in its members are
never null: `addSearchPath` and `addGenerator` return early on a null argument and the
constructor creates the default loader itself. -/
structure CIncludeFinder where
  m_loaders : List LoaderSearchPath
  m_generators : List IIncludeGenerator
  m_defaultFileSystemLoader : IIncludeLoader

/-- `CIncludeFinder::addSearchPath`; a null `loader` is `none`. -/
def CIncludeFinder.addSearchPath (f : CIncludeFinder) (searchPath : String)
    (loader : Option IIncludeLoader) : CIncludeFinder :=
  match loader with
  | none => f
  | some loader => { f with m_loaders := f.m_loaders ++ [⟨loader, searchPath⟩] }

/-- The constructor of `CIncludeFinder`, given the default file system loader it creates:
no generator, and the search path list after `addSearchPath("", m_defaultFileSystemLoader)`. -/
def CIncludeFinder.construct (defaultFileSystemLoader : IIncludeLoader) : CIncludeFinder :=
  CIncludeFinder.addSearchPath
    { m_loaders := [], m_generators := [], m_defaultFileSystemLoader := defaultFileSystemLoader }
    "" (some defaultFileSystemLoader)

/-- The test `a.compare(b) > 0` of `std::string` and `std::string_view`, on the characters
of the two strings: `a` comes after `b` in the lexicographic order. -/
def compareGt : List Char → List Char → Bool
  | [], _ => false
  | _ :: _, [] => true
  | x :: xs, y :: ys => if y < x then true else if x < y then false else compareGt xs ys

/-- The bisection that the standard library runs for `std::lower_bound` and
`std::upper_bound` on the range of `len` elements from index `first` on: halve the range,
continue right of the middle element when `goRight` holds for it and left of it otherwise.
`fuel` bounds the number of halvings; `len` of it is enough. -/
def bisect {α : Type} (goRight : α → Bool) (xs : List α) : Nat → Nat → Nat → Nat
  | 0, first, _ => first
  | fuel + 1, first, len =>
    if len = 0 then first
    else
      match xs[first + len / 2]? with
      | none => first
      | some middle =>
        if goRight middle then bisect goRight xs fuel (first + len / 2 + 1) (len - len / 2 - 1)
        else bisect goRight xs fuel first (len / 2)

/-- `std::lower_bound(first, last, value, comp)` on indices: the bisection goes right while
`comp(element, value)`. -/
def lower_bound {α β : Type} (xs : List α) (first last : Nat) (value : β)
    (comp : α → β → Bool) : Nat :=
  bisect (fun element => comp element value) xs (last - first) first (last - first)

/-- `std::upper_bound(first, last, value, comp)` on indices: the bisection goes right until
`comp(value, element)`. -/
def upper_bound {α β : Type} (xs : List α) (first last : Nat) (value : β)
    (comp : β → α → Bool) : Nat :=
  bisect (fun element => !comp value element) xs (last - first) first (last - first)

/-- The insertion `m_generators.insert(found, generatorToAdd)` before index `found`. -/
def insertBefore {α : Type} (xs : List α) (found : Nat) (x : α) : List α :=
  xs.take found ++ x :: xs.drop found

/-- `CIncludeFinder::addGenerator`; a null `generatorToAdd` is `none`. -/
def CIncludeFinder.addGenerator (f : CIncludeFinder)
    (generatorToAdd : Option IIncludeGenerator) : CIncludeFinder :=
  match generatorToAdd with
  | none => f
  | some generatorToAdd =>
    let found := lower_bound f.m_generators 0 f.m_generators.length generatorToAdd.getPrefix
      (fun generator value => compareGt generator.getPrefix.toList value.toList)
    { f with m_generators := insertBefore f.m_generators found generatorToAdd }

/-- `CIncludeFinder::trySearchPaths`, as the loop over `m_loaders`. -/
def trySearchPathsFrom (includeName : String) : List LoaderSearchPath → found_t
  | [] => found_t.notFound
  | itr :: rest =>
    let contents := itr.loader.getInclude itr.searchPath includeName
    if contents.toBool then contents else trySearchPathsFrom includeName rest

/-- `CIncludeFinder::trySearchPaths`. -/
def CIncludeFinder.trySearchPaths (f : CIncludeFinder) (includeName : String) : found_t :=
  trySearchPathsFrom includeName f.m_loaders

/-- `CIncludeFinder::getIncludeRelative`. The digest `XXHash_256` (declared in
`nbl/core/xxHash256.h`, which is not among the sources) is a parameter. -/
def CIncludeFinder.getIncludeRelative (XXHash_256 : String → Hash256) (f : CIncludeFinder)
    (requestingSourceDir includeName : String) : found_t :=
  let contents := f.m_defaultFileSystemLoader.getInclude requestingSourceDir includeName
  let retVal := if contents.toBool then contents else f.trySearchPaths includeName
  { retVal with hash := XXHash_256 retVal.contents }

/-! ### Paths

`system::path` is `std::filesystem::path`. The embedding follows the POSIX rules of the
library: `/` is the only directory separator and no path has a root name. -/

/-- The lambda `removeExtension` of `tryIncludeGenerators`:
`str.substr(0, str.find_last_of('.'))`, the whole string when it has no `.`. -/
def removeExtension (str : String) : String :=
  match str.toList.reverse.dropWhile (fun ch => ch != '.') with
  | [] => str
  | _ :: before => String.mk before.reverse

/-- The lambda `standardizePrefix` of `tryIncludeGenerators`: one trailing `/` is removed
from a prefix of more than one character. On an empty prefix the source reads
`*ret.rbegin()` before it tests the size; the size test fails whatever was read and the
prefix is returned as it is. -/
def standardizePrefix (p : String) : String :=
  if p.toList.getLast? = some '/' ∧ p.length > 1 then String.mk p.toList.dropLast else p

/-- `path::parent_path()`. A path without a file name part (empty, or separators only) is
its own parent. Otherwise the last file name and the separators before it are removed;
what is left of an absolute path is at least the root directory `/`. A path that ends in
a separator ends in an empty file name, so only its trailing separators are removed. -/
def system.path.parent_path (p : String) : String :=
  let afterName := p.toList.reverse.dropWhile (fun ch => ch != '/')
  let stripped := afterName.dropWhile (fun ch => ch == '/')
  if stripped = [] then
    if afterName = [] then ""
    else if p.toList.getLast? = some '/' then p
    else "/"
  else String.mk stripped.reverse

/-- `path::root_name()`: empty for every path under the POSIX rules. -/
def system.path.root_name (_p : String) : String := ""

/-- The `for` loop of `tryIncludeGenerators` over the generators of one run: the generators
whose `getInclude` is called, in call order, and the contents returned by the last of them
when these are not empty. -/
def tryGeneratorRange (includeName : String) :
    List IIncludeGenerator → List IIncludeGenerator × Option found_t
  | [] => ([], none)
  | generator :: rest =>
    let contents := generator.getInclude includeName
    if contents.toBool then ([generator], some contents)
    else
      (generator :: (tryGeneratorRange includeName rest).1,
        (tryGeneratorRange includeName rest).2)

/-- The `while` loop of `tryIncludeGenerators`, entered with the current `path`, the index
`endIt` of the iterator `end` and the generators consulted so far. The result is the list
of all generators consulted, in order, and the value returned; `none` when `fuel`
iterations do not finish the loop. -/
def peelLoop (m_generators : List IIncludeGenerator) (includeName : String) :
    Nat → String → Nat → List IIncludeGenerator → Option (List IIncludeGenerator × found_t)
  | 0, _, _, _ => none
  | fuel + 1, path, endIt, consulted =>
    if path != "" && system.path.root_name path == "" && endIt != m_generators.length then
      let begin := lower_bound m_generators endIt m_generators.length path
        (fun generator value =>
          compareGt (standardizePrefix generator.getPrefix).toList value.toList)
      let endIt := upper_bound m_generators begin m_generators.length path
        (fun value generator =>
          compareGt value.toList (standardizePrefix generator.getPrefix).toList)
      match tryGeneratorRange includeName ((m_generators.drop begin).take (endIt - begin)) with
      | (called, some contents) => some (consulted ++ called, contents)
      | (called, none) =>
        peelLoop m_generators includeName fuel (system.path.parent_path path) endIt
          (consulted ++ called)
    else some (consulted, found_t.notFound)

/-- `CIncludeFinder::tryIncludeGenerators` together with the generators it consults;
`none` when `fuel` iterations of the path peeling loop do not finish it. -/
def CIncludeFinder.tryIncludeGeneratorsRun (fuel : Nat) (f : CIncludeFinder)
    (includeName : String) : Option (List IIncludeGenerator × found_t) :=
  peelLoop f.m_generators includeName fuel
    (system.path.parent_path (removeExtension includeName)) 0 []

/-- `CIncludeFinder::tryIncludeGenerators`: the value returned. -/
def CIncludeFinder.tryIncludeGenerators (fuel : Nat) (f : CIncludeFinder)
    (includeName : String) : Option found_t :=
  (f.tryIncludeGeneratorsRun fuel includeName).map (fun run => run.2)

/-- `CIncludeFinder::getIncludeStandard`; `none` when the call of `tryIncludeGenerators`
does not return within `fuel` iterations. The digest `XXHash_256` is a parameter, as in
`getIncludeRelative`. -/
def CIncludeFinder.getIncludeStandard (XXHash_256 : String → Hash256) (fuel : Nat)
    (f : CIncludeFinder) (requestingSourceDir includeName : String) : Option found_t :=
  match f.tryIncludeGenerators fuel includeName with
  | none => none
  | some fromGenerators =>
    let retVal :=
      if fromGenerators.toBool then fromGenerators
      else
        let fromSearchPaths := f.trySearchPaths includeName
        if fromSearchPaths.toBool then fromSearchPaths
        else f.m_defaultFileSystemLoader.getInclude requestingSourceDir includeName
    some { retVal with hash := XXHash_256 retVal.contents }

/-- A call that changes the state of an include finder after its construction. -/
inductive FinderCall where
  | addSearchPath (searchPath : String) (loader : Option IIncludeLoader)
  | addGenerator (generatorToAdd : Option IIncludeGenerator)

/-- The state of the finder after one call. -/
def CIncludeFinder.call (f : CIncludeFinder) : FinderCall → CIncludeFinder
  | .addSearchPath searchPath loader => f.addSearchPath searchPath loader
  | .addGenerator generatorToAdd => f.addGenerator generatorToAdd

/-! ## `IIncludeGenerator::parseArgumentsFromPath` -/

/-- The call `std::getline(ss, arg, delim)` on the characters left in the stream `ss`: the
characters in front of the first delimiter are stored in `arg` and the delimiter is taken
out of the stream and dropped; without a delimiter all characters left are stored. The
call fails, `none`, when it takes no character out of the stream at all, which is the case
exactly when the stream is at its end. Otherwise the result is `arg` and the characters
left in the stream after the call. -/
def std.getline (ss : List Char) (delim : Char) : Option (String × List Char) :=
  match ss with
  | [] => none
  | _ :: _ =>
    some (String.mk (ss.takeWhile (fun ch => ch != delim)),
      (ss.dropWhile (fun ch => ch != delim)).drop 1)

/-- The loop `while (std::getline(ss, arg, '/')) args.push_back(std::move(arg));` of
`parseArgumentsFromPath`, entered with the characters left in the stream and the vector
`args` built so far; `none` when `fuel` iterations do not finish it. -/
def parseArgumentsLoop : Nat → List Char → List String → Option (List String)
  | 0, _, _ => none
  | fuel + 1, ss, args =>
    match std.getline ss '/' with
    | none => some args
    | some (arg, rest) => parseArgumentsLoop fuel rest (args ++ [arg])

/-- `IIncludeGenerator::parseArgumentsFromPath`; `none` when `fuel` iterations do not
finish its loop. -/
def IIncludeGenerator.parseArgumentsFromPath (fuel : Nat) (_path : String) :
    Option (List String) :=
  parseArgumentsLoop fuel _path.toList []

/-- The arguments that the loop of `parseArgumentsFromPath` stores, character by
character: `extracted` tells whether the running call of `std::getline` has taken a
character out of the stream yet, `arg` holds what it has stored so far. -/
def getlineLoop : Bool → List Char → List Char → List String
  | extracted, arg, [] => if extracted then [String.mk arg] else []
  | _, arg, ch :: ss =>
    if ch = '/' then String.mk arg :: getlineLoop false [] ss
    else getlineLoop true (arg ++ [ch]) ss

/-- The characters of a stream with one delimiter at its very end left out. -/
def withoutFinalDelimiter (ss : List Char) : List Char :=
  if ss.getLast? = some '/' then ss.dropLast else ss

/-! ## `CFileSystemIncludeLoader::getInclude` -/

/-- `operator/` of `system::path` under the POSIX rules: an absolute right operand replaces
the left one; otherwise a separator is put behind a left operand that ends in a file name,
and the right operand follows. -/
def system.path.append (p q : String) : String :=
  if q.toList.head? = some '/' then q
  else if p = "" ∨ p.toList.getLast? = some '/' then p ++ q
  else p ++ "/" ++ q

/-- An open file, `system::IFile`, as `getInclude` uses it: its name, its size, and the
request `read(succ, buffer, offset, sizeToRead)` on a buffer of `sizeToRead` characters,
which answers with the truth value of `succ` and the characters in the buffer afterwards. -/
structure system.IFile where
  getFileName : String
  getSize : Nat
  read : Nat → Nat → Bool × String

/-- The file system as `getInclude` reaches it. `pathExists` is `std::filesystem::exists`
and `canonical` is `std::filesystem::canonical`, both taken as returning. `createFile` is
`m_system->createFile(future, path, ECF_READ)` followed by `future.wait()` and
`future.acquire().move_into(f)`: `none` when the wait fails, `some none` when the file
pointer obtained is null. -/
structure system.ISystem where
  pathExists : String → Bool
  canonical : String → String
  createFile : String → Option (Option system.IFile)

/-- How a call of `CFileSystemIncludeLoader::getInclude` ends: it returns a value, or the
`assert(success)` behind the read fails; `wouldReturn` is the value that a build without
assertions returns in that case. -/
inductive LoadResult where
  | returned (found : found_t)
  | assertionFailed (wouldReturn : found_t)
deriving DecidableEq

/-- The path that `CFileSystemIncludeLoader::getInclude` opens: `searchPath / includeName`,
made canonical when it exists. -/
def CFileSystemIncludeLoader.resolvedPath (m_system : system.ISystem)
    (searchPath includeName : String) : String :=
  let path := system.path.append searchPath includeName
  if m_system.pathExists path then m_system.canonical path else path

/-- `CFileSystemIncludeLoader::getInclude`. -/
def CFileSystemIncludeLoader.getInclude (m_system : system.ISystem)
    (searchPath includeName : String) : LoadResult :=
  match m_system.createFile
      (CFileSystemIncludeLoader.resolvedPath m_system searchPath includeName) with
  | none => .returned found_t.notFound
  | some none => .returned found_t.notFound
  | some (some f) =>
    let size := f.getSize
    let contents := (f.read 0 size).2
    let success := (f.read 0 size).1
    if success then
      .returned { absolutePath := f.getFileName, contents := contents, hash := 0 }
    else .assertionFailed { absolutePath := f.getFileName, contents := contents, hash := 0 }

/-! ## `matrix4SIMD::getTranslation` and `matrix4SIMD::getTranslation3D`

The two functions only move lanes between registers, so a lane is taken as the 32 bits of
its `float`; the zero lane of `_mm_setzero_ps` is the number 0. -/

/-- A register `__m128`, which is also the data of a `vectorSIMDf`: four lanes, `x` the
lowest. -/
structure vectorSIMDf where
  x : Nat
  y : Nat
  z : Nat
  w : Nat
deriving DecidableEq

/-- The intrinsic `_mm_unpackhi_ps(a, b)`: the two upper lanes of `a` and `b`,
interleaved. -/
def _mm_unpackhi_ps (a b : vectorSIMDf) : vectorSIMDf := ⟨a.z, b.z, a.w, b.w⟩

/-- The intrinsic `_mm_movehl_ps(a, b)`: the two upper lanes of `b` in the lower half,
the two upper lanes of `a` in the upper half. -/
def _mm_movehl_ps (a b : vectorSIMDf) : vectorSIMDf := ⟨b.z, b.w, a.z, a.w⟩

/-- The intrinsic `_mm_setzero_ps()`. -/
def _mm_setzero_ps : vectorSIMDf := ⟨0, 0, 0, 0⟩

/-- The matrix `matrix4SIMD`: its member `rows[4]`. -/
structure matrix4SIMD where
  rows : Fin 4 → vectorSIMDf

/-- `matrix4SIMD::getTranslation`. -/
def matrix4SIMD.getTranslation (m : matrix4SIMD) : vectorSIMDf :=
  let tmp1 := _mm_unpackhi_ps (m.rows 0) (m.rows 1)
  let tmp2 := _mm_unpackhi_ps (m.rows 2) (m.rows 3)
  let col3 := _mm_movehl_ps tmp1 tmp2
  col3

/-- `matrix4SIMD::getTranslation3D`. -/
def matrix4SIMD.getTranslation3D (m : matrix4SIMD) : vectorSIMDf :=
  let tmp1 := _mm_unpackhi_ps (m.rows 0) (m.rows 1)
  let tmp2 := _mm_unpackhi_ps (m.rows 2) _mm_setzero_ps
  let transl := _mm_movehl_ps tmp1 tmp2
  transl

/-! ## `CToneMapper::registerBuiltinGLSLIncludes` -/

/-- The state that `registerBuiltinGLSLIncludes` reads and writes: its function-local
`static bool addedBuiltinHeader`, and for every call of `addBuiltinIncludeLoader` it has
made the compiler whose include handler received the loader, in call order. A compiler is
named by a number. -/
structure ToneMapperState where
  addedBuiltinHeader : Bool
  addBuiltinIncludeLoaderCalls : List Nat
deriving DecidableEq

/-- The state at program start: the static is initialised to `false`. -/
def ToneMapperState.initial : ToneMapperState := ⟨false, []⟩

/-- `CToneMapper::registerBuiltinGLSLIncludes`; a null `compilerToAddBuiltinIncludeTo` is
`none`. -/
def CToneMapper.registerBuiltinGLSLIncludes (st : ToneMapperState)
    (compilerToAddBuiltinIncludeTo : Option Nat) : ToneMapperState :=
  if st.addedBuiltinHeader then st
  else
    match compilerToAddBuiltinIncludeTo with
    | none => st
    | some compiler =>
      { addedBuiltinHeader := true
        addBuiltinIncludeLoaderCalls := st.addBuiltinIncludeLoaderCalls ++ [compiler] }

/-- The state after a sequence of calls of `registerBuiltinGLSLIncludes` from program
start. -/
def CToneMapper.afterCalls (calls : List (Option Nat)) : ToneMapperState :=
  calls.foldl CToneMapper.registerBuiltinGLSLIncludes ToneMapperState.initial

/-! ## The variant of `CCache::find` that compares contents only -/

/-- The inner loop of `find` with the comparison of the hashes left out: a dependency
matches when its re-resolved header has the recorded contents. -/
def allDependenciesMatchContents (finder : IncludeResolver) :
    List SPreprocessingDependency → Bool
  | [] => true
  | dependency :: rest =>
    let header :=
      if dependency.standardInclude then
        finder.getIncludeStandard dependency.requestingSourceDir dependency.identifier
      else
        finder.getIncludeRelative dependency.requestingSourceDir dependency.identifier
    if header.contents != dependency.contents then false
    else allDependenciesMatchContents finder rest

/-- The bucket loop of the contents-only variant. -/
def findEntryContents (finder : IncludeResolver) : List SEntry → Option SEntry
  | [] => none
  | found :: rest =>
    if allDependenciesMatchContents finder found.dependencies then some found
    else findEntryContents finder rest

/-- The variant of `CCache::find` that compares only the contents of the dependencies. -/
def CCache.findComparingContents (c : CCache) (mainFile : CacheKey)
    (finder : IncludeResolver) : Option ICPUShader :=
  (findEntryContents finder (c.equal_range mainFile)).map (fun found => found.value)


/-! ## `CCache::find` on an include finder -/

/-- The re-resolution of one recorded dependency in the inner loop of `find`:
`getIncludeStandard` when `standardInclude` is set, `getIncludeRelative` otherwise, at the
recorded directory and identifier; `none` when the call of `getIncludeStandard` does not
return within `fuel` iterations of its path peeling loop. -/
def reresolve (XXHash_256 : String → Hash256) (fuel : Nat) (finder : CIncludeFinder)
    (dependency : SPreprocessingDependency) : Option found_t :=
  if dependency.standardInclude then
    finder.getIncludeStandard XXHash_256 fuel dependency.requestingSourceDir
      dependency.identifier
  else
    some (finder.getIncludeRelative XXHash_256 dependency.requestingSourceDir
      dependency.identifier)

/-- The inner loop of `find` on an include finder: the value of `allDependenciesMatch`
behind the loop, `none` when a re-resolution that the loop makes does not return. -/
def allDependenciesMatchRun (XXHash_256 : String → Hash256) (fuel : Nat)
    (finder : CIncludeFinder) : List SPreprocessingDependency → Option Bool
  | [] => some true
  | dependency :: rest =>
    match reresolve XXHash_256 fuel finder dependency with
    | none => none
    | some header =>
      if header.hash != dependency.hash || header.contents != dependency.contents then
        some false
      else allDependenciesMatchRun XXHash_256 fuel finder rest

/-- The outer loop of `find` on an include finder: the entry at which the loop returns, if
any; `none` when a re-resolution that the loop makes does not return. -/
def findEntryRun (XXHash_256 : String → Hash256) (fuel : Nat) (finder : CIncludeFinder) :
    List SEntry → Option (Option SEntry)
  | [] => some none
  | found :: rest =>
    match allDependenciesMatchRun XXHash_256 fuel finder found.dependencies with
    | none => none
    | some true => some (some found)
    | some false => findEntryRun XXHash_256 fuel finder rest

/-- `CCache::find` on an include finder: `some (some value)` when it returns an artifact,
`some none` when it returns `nullptr`, and `none` when it does not return because a call of
`getIncludeStandard` does not return within `fuel` iterations of its path peeling loop. -/
def CCache.findRun (c : CCache) (mainFile : CacheKey) (XXHash_256 : String → Hash256)
    (fuel : Nat) (finder : CIncludeFinder) : Option (Option ICPUShader) :=
  (findEntryRun XXHash_256 fuel finder (c.equal_range mainFile)).map
    (fun found => found.map (fun entry => entry.value))

/-- The two resolution methods of an include finder as total functions, for finder states
and names on which `getIncludeStandard` returns within `fuel` iterations; where it does not,
the method is given the not-found value. -/
def CIncludeFinder.resolver (XXHash_256 : String → Hash256) (fuel : Nat)
    (f : CIncludeFinder) : IncludeResolver :=
  { getIncludeStandard := fun requestingSourceDir includeName =>
      (f.getIncludeStandard XXHash_256 fuel requestingSourceDir includeName).getD
        found_t.notFound
    getIncludeRelative := fun requestingSourceDir includeName =>
      f.getIncludeRelative XXHash_256 requestingSourceDir includeName }

/-! ## Concrete values for the closed examples -/

/-- A lookup key. -/
def exampleKey : CacheKey := ⟨"void main() {}", "-S frag -O"⟩

/-- A second lookup key. -/
def otherKey : CacheKey := ⟨"void main() { discard; }", "-S frag -O"⟩

/-- A recorded relative include of `foo.glsl` with hash 11. -/
def fooDependency : SPreprocessingDependency :=
  { requestingSourceDir := "shaders"
    identifier := "foo.glsl"
    contents := "#define A 1"
    hash := 11
    standardInclude := false }

/-- An artifact of four bytes. -/
def shaderA : ICPUShader :=
  { content := [3, 2, 35, 7], stage := 16, contentType := 2, filepathHint := "main.frag" }

/-- An artifact of two bytes. -/
def shaderB : ICPUShader :=
  { content := [255, 0], stage := 16, contentType := 2, filepathHint := "main2.frag" }

/-- An artifact of three bytes. -/
def shaderC : ICPUShader :=
  { content := [9, 8, 7], stage := 1, contentType := 0, filepathHint := "" }

/-- A cache line depending on `foo.glsl`. -/
def entryWithFoo : SEntry := ⟨exampleKey, [fooDependency], shaderA⟩

/-- A cache line of the same key without dependencies. -/
def entryNoDeps : SEntry := ⟨exampleKey, [], shaderB⟩

/-- A cache line of another key. -/
def entryOther : SEntry := ⟨otherKey, [], shaderC⟩

/-- A finder state in which `foo.glsl` has been rewritten: it now resolves to other
contents with hash 22; nothing else resolves. -/
def rewrittenFinder : IncludeResolver :=
  { getIncludeStandard := fun _ _ => ⟨"", "", 0⟩
    getIncludeRelative := fun _ name =>
      if name = "foo.glsl" then ⟨"shaders/foo.glsl", "#define A 2", 22⟩ else ⟨"", "", 0⟩ }

/-- A cache of three entries, two of them under the same key. -/
def exampleCache : CCache := ⟨[entryWithFoo, entryOther, entryNoDeps]⟩

/-- A document with two entries whose records address the trailing region out of order
and with a gap: two bytes at offset 3 for the first entry, three bytes at offset 0 for the
second. -/
def gappedDoc : ContainerJson :=
  ⟨.array [entryNoDeps.to_json, entryOther.to_json],
   .array [{ stage := 16, contentType := 2, filepathHint := "main2.frag",
             codeByteSize := 2, offset := 3 },
           { stage := 1, contentType := 0, filepathHint := "",
             codeByteSize := 3, offset := 0 }]⟩

/-- The document `gappedDoc` behind its length prefix, followed by a trailing region of six
bytes. -/
def gappedBuffer : List Byte :=
  uint64Bytes (binCodec.dump gappedDoc).length ++ binCodec.dump gappedDoc ++
    [9, 8, 7, 255, 0, 77]

/-- A finder state in which `foo.glsl` resolves the way `fooDependency` records it. -/
def recordedFinder : IncludeResolver :=
  { getIncludeStandard := fun _ _ => ⟨"", "", 0⟩
    getIncludeRelative := fun _ name =>
      if name = "foo.glsl" then ⟨"shaders/foo.glsl", "#define A 1", 11⟩ else ⟨"", "", 0⟩ }

/-- A later finder state: `foo.glsl` still resolves as recorded, every other include
resolves differently from `recordedFinder`. -/
def laterFinder : IncludeResolver :=
  { getIncludeStandard := fun _ _ => ⟨"builtin", "// generated", 5⟩
    getIncludeRelative := fun _ name =>
      if name = "foo.glsl" then ⟨"shaders/foo.glsl", "#define A 1", 11⟩
      else ⟨"", "// other", 1⟩ }

/-- A loader that resolves nothing. -/
def emptyLoader : IIncludeLoader := ⟨fun _ _ => found_t.notFound⟩

/-- A loader that holds one file: it resolves `name` under the search path `root`. -/
def singleFileLoader (root name contents : String) : IIncludeLoader :=
  ⟨fun searchPath includeName =>
    if searchPath = root ∧ includeName = name then
      { absolutePath := root ++ "/" ++ name, contents := contents, hash := 0 }
    else found_t.notFound⟩

/-- A generator with one pattern that matches every name and always produces `text`. -/
def constantGenerator (pfx text : String) : IIncludeGenerator :=
  ⟨pfx, [(fun _ => true, fun _ => text)]⟩

/-- A digest for the closed examples: the length of the contents. -/
def lengthDigest (contents : String) : Hash256 := contents.length

/-- A finder over an empty file system with one search path entry, whose loader holds
`nbl/common.glsl` under the root `inc`, and one generator at the prefix `nbl`, which
produces nothing. -/
def exampleFinder : CIncludeFinder :=
  ((CIncludeFinder.construct emptyLoader).addSearchPath "inc"
      (some (singleFileLoader "inc" "nbl/common.glsl" "// common"))).addGenerator
    (some (constantGenerator "nbl" ""))

/-- A file system with one file, `inc/a.glsl` of three bytes, which opens and whose read
fails with nothing transferred: the buffer keeps its three NUL characters. -/
def unreadableSystem : system.ISystem :=
  { pathExists := fun path => path = "inc/a.glsl"
    canonical := fun path => path
    createFile := fun path =>
      if path = "inc/a.glsl" then
        some (some
          { getFileName := "inc/a.glsl"
            getSize := 3
            read := fun _ sizeToRead =>
              (false, String.mk (List.replicate sizeToRead (Char.ofNat 0))) })
      else some none }

/-- A file system with one file, `inc/a.glsl`, which holds `abc` and reads without
failure. -/
def readableSystem : system.ISystem :=
  { pathExists := fun path => path = "inc/a.glsl"
    canonical := fun path => path
    createFile := fun path =>
      if path = "inc/a.glsl" then
        some (some
          { getFileName := "inc/a.glsl"
            getSize := 3
            read := fun offset sizeToRead =>
              (true, String.mk ((("abc".toList).drop offset).take sizeToRead)) })
      else some none }

/-- An affine matrix whose last column is (5, 6, 7, 1). -/
def exampleMatrix : matrix4SIMD :=
  ⟨fun i =>
    match i with
    | 0 => ⟨1, 0, 0, 5⟩
    | 1 => ⟨0, 1, 0, 6⟩
    | 2 => ⟨0, 0, 1, 7⟩
    | 3 => ⟨0, 0, 0, 1⟩⟩

/-- A finder to which a generator with the prefix `nbl/` and then a generator with the
prefix `nbl-ext` have been added; each produces a text for every name. -/
def slashFinder : CIncludeFinder :=
  ((CIncludeFinder.construct emptyLoader).addGenerator
      (some (constantGenerator "nbl/" "// nbl"))).addGenerator
    (some (constantGenerator "nbl-ext" "// ext"))

/-- A finder with one generator, at the prefix `.hidden`. -/
def hiddenFinder : CIncludeFinder :=
  (CIncludeFinder.construct emptyLoader).addGenerator
    (some (constantGenerator ".hidden" "// hidden"))

/-- A finder to which two generators with the same prefix `nbl` have been added, first the
one that produces `// first`, then the one that produces `// second`. -/
def twiceFinder : CIncludeFinder :=
  ((CIncludeFinder.construct emptyLoader).addGenerator
      (some (constantGenerator "nbl" "// first"))).addGenerator
    (some (constantGenerator "nbl" "// second"))

/-- A recorded standard include of `nbl/common.glsl`, with the hash that `lengthDigest`
gives its contents. -/
def commonDependency : SPreprocessingDependency :=
  { requestingSourceDir := "shaders"
    identifier := "nbl/common.glsl"
    contents := "// common"
    hash := 9
    standardInclude := true }

/-- A cache with one line, which depends on `nbl/common.glsl`. -/
def commonCache : CCache := ⟨[⟨exampleKey, [commonDependency], shaderA⟩]⟩

/-- The two resolution methods of `exampleFinder` with the digest `lengthDigest`, the
standard one run with ten iterations. -/
def exampleResolver : IncludeResolver :=
  { getIncludeStandard := fun requestingSourceDir includeName =>
      (exampleFinder.getIncludeStandard lengthDigest 10 requestingSourceDir includeName).getD
        found_t.notFound
    getIncludeRelative := fun requestingSourceDir includeName =>
      exampleFinder.getIncludeRelative lengthDigest requestingSourceDir includeName }


/-- A recorded standard include of `/usr/x.glsl`. -/
def usrDependency : SPreprocessingDependency :=
  { requestingSourceDir := "shaders"
    identifier := "/usr/x.glsl"
    contents := "// x"
    hash := 4
    standardInclude := true }

/-- A cache with two lines under one key: the first depends on `/usr/x.glsl`, the second
has no dependency. -/
def hangingCache : CCache := ⟨[⟨exampleKey, [usrDependency], shaderA⟩, entryNoDeps]⟩

/-- A span of four bytes, the first four of the serialized `exampleCache`, which the rest
of the serialization follows in memory. -/
def headSpan : ByteSpan :=
  ByteSpan.ofBuffer ((exampleCache.serialize binCodec).take 4)
    ((exampleCache.serialize binCodec).drop 4)

/-- A span of the same four bytes, which zero bytes follow in memory. -/
def headSpanAlone : ByteSpan :=
  ByteSpan.ofBuffer ((exampleCache.serialize binCodec).take 4) []

/-- A span of twelve bytes, the length prefix and the first four bytes of the metadata of
the serialized `exampleCache`, which the rest of the serialization follows in memory. -/
def cutSpan : ByteSpan :=
  ByteSpan.ofBuffer ((exampleCache.serialize binCodec).take 12)
    ((exampleCache.serialize binCodec).drop 12)

/-- A finder to which two generators with the same prefix `nbl` have been added, first the
one that produces `// first`, then one that produces nothing. -/
def fallbackFinder : CIncludeFinder :=
  ((CIncludeFinder.construct emptyLoader).addGenerator
      (some (constantGenerator "nbl" "// first"))).addGenerator
    (some (constantGenerator "nbl" ""))

/-! ## Properties of `CCache::find` -/

/-- The inner loop answers `true` exactly when every recorded dependency re-resolves, through
the method its flag selects, to the recorded hash and the recorded contents. -/
theorem allDependenciesMatch_iff (finder : IncludeResolver)
    (deps : List SPreprocessingDependency) :
    allDependenciesMatch finder deps = true ↔
      ∀ d ∈ deps,
        (if d.standardInclude then
            finder.getIncludeStandard d.requestingSourceDir d.identifier
          else finder.getIncludeRelative d.requestingSourceDir d.identifier).hash = d.hash ∧
        (if d.standardInclude then
            finder.getIncludeStandard d.requestingSourceDir d.identifier
          else finder.getIncludeRelative d.requestingSourceDir d.identifier).contents
          = d.contents := by
  induction deps with
  | nil => simp [allDependenciesMatch]
  | cons d rest ih =>
    simp only [allDependenciesMatch, List.mem_cons, forall_eq_or_imp, ← ih]
    generalize (if d.standardInclude = true then
        finder.getIncludeStandard d.requestingSourceDir d.identifier
      else finder.getIncludeRelative d.requestingSourceDir d.identifier) = header
    by_cases h1 : header.hash = d.hash <;> by_cases h2 : header.contents = d.contents <;>
      simp [h1, h2]

/-- The entry the bucket loop stops at belongs to the bucket and passed the inner loop. -/
theorem findEntry_some (finder : IncludeResolver) (bucket : List SEntry) (e : SEntry)
    (h : findEntry finder bucket = some e) :
    e ∈ bucket ∧ allDependenciesMatch finder e.dependencies = true := by
  induction bucket with
  | nil => simp [findEntry] at h
  | cons x rest ih =>
    simp only [findEntry] at h
    split at h
    · rename_i hx
      have hxe : x = e := by simpa using h
      subst hxe
      exact ⟨List.mem_cons_self _ _, hx⟩
    · have := ih h
      exact ⟨List.mem_cons_of_mem _ this.1, this.2⟩

/-- The bucket loop runs to the end exactly when no entry of the bucket passes the inner
loop. -/
theorem findEntry_none_iff (finder : IncludeResolver) (bucket : List SEntry) :
    findEntry finder bucket = none ↔
      ∀ e ∈ bucket, allDependenciesMatch finder e.dependencies = false := by
  induction bucket with
  | nil => simp [findEntry]
  | cons x rest ih =>
    simp only [findEntry, List.mem_cons, forall_eq_or_imp]
    split
    · rename_i hx
      simp [hx]
    · rename_i hx
      simp only [Bool.not_eq_true] at hx
      rw [ih]
      exact ⟨fun hr => ⟨hx, hr⟩, fun hr => hr.2⟩

/-- Membership in the bucket of a key. -/
theorem mem_equal_range (c : CCache) (mainFile : CacheKey) (e : SEntry) :
    e ∈ c.equal_range mainFile ↔ e ∈ c.m_container ∧ e.key = mainFile := by
  simp [CCache.equal_range]

/-- Claim C2. When a recorded dependency of a stored entry `e` now re-resolves to contents
other than the recorded ones, `find` for the key of `e` does not stop at `e`: an artifact it
returns is that of another entry of the bucket, all of whose dependencies re-resolve
unchanged. So it is not the artifact of `e` where no other entry of the bucket carries an
equal one, and the lookup is a miss when the bucket holds nothing but `e`. -/
theorem find_skips_entry_with_touched_dependency (c : CCache) (finder : IncludeResolver)
    (e : SEntry) (d : SPreprocessingDependency)
    (_he : e ∈ c.m_container) (hd : d ∈ e.dependencies)
    (htouched :
      (if d.standardInclude then
          finder.getIncludeStandard d.requestingSourceDir d.identifier
        else finder.getIncludeRelative d.requestingSourceDir d.identifier).contents
        ≠ d.contents) :
    findEntry finder (c.equal_range e.key) ≠ some e ∧
    (∀ a, c.find e.key finder = some a →
      ∃ e' ∈ c.equal_range e.key, e' ≠ e ∧ e'.value = a ∧ ∀ d' ∈ e'.dependencies,
        (if d'.standardInclude then
            finder.getIncludeStandard d'.requestingSourceDir d'.identifier
          else finder.getIncludeRelative d'.requestingSourceDir d'.identifier).hash
          = d'.hash ∧
        (if d'.standardInclude then
            finder.getIncludeStandard d'.requestingSourceDir d'.identifier
          else finder.getIncludeRelative d'.requestingSourceDir d'.identifier).contents
          = d'.contents) ∧
    ((∀ e' ∈ c.equal_range e.key, e' ≠ e → e'.value ≠ e.value) →
      c.find e.key finder ≠ some e.value) ∧
    ((∀ e' ∈ c.equal_range e.key, e' = e) → c.find e.key finder = none) := by
  have hfail : allDependenciesMatch finder e.dependencies = false := by
    cases hm : allDependenciesMatch finder e.dependencies with
    | false => rfl
    | true => exact absurd ((allDependenciesMatch_iff finder _).1 hm d hd).2 htouched
  have hret : ∀ a, c.find e.key finder = some a →
      ∃ e' ∈ c.equal_range e.key, e' ≠ e ∧ e'.value = a ∧
        allDependenciesMatch finder e'.dependencies = true := by
    intro a ha
    simp only [CCache.find, Option.map_eq_some'] at ha
    obtain ⟨e', he', hv⟩ := ha
    have h := findEntry_some finder _ e' he'
    refine ⟨e', h.1, ?_, hv, h.2⟩
    intro heq
    rw [heq, hfail] at h
    exact absurd h.2 (by simp)
  refine ⟨?_, ?_, ?_, ?_⟩
  · intro hf
    have h := (findEntry_some finder _ e hf).2
    rw [hfail] at h
    exact absurd h (by simp)
  · intro a ha
    obtain ⟨e', hmem, hne, hv, hall⟩ := hret a ha
    exact ⟨e', hmem, hne, hv, (allDependenciesMatch_iff finder _).1 hall⟩
  · intro hdistinct hf
    obtain ⟨e', hmem, hne, hv, -⟩ := hret _ hf
    exact hdistinct e' hmem hne hv
  · intro honly
    cases hf : c.find e.key finder with
    | none => rfl
    | some a =>
      obtain ⟨e', hmem, hne, -, -⟩ := hret a hf
      exact absurd (honly e' hmem) hne

/-- Scenario for claim C2: one entry under its key, depending on `foo.glsl` recorded with
hash 11; the file is rewritten and now resolves with hash 22; the lookup misses. -/
theorem find_skips_entry_with_touched_dependency_witness :
    (CCache.mk [entryWithFoo, entryOther]).find exampleKey rewrittenFinder = none :=
  (find_skips_entry_with_touched_dependency (CCache.mk [entryWithFoo, entryOther])
    rewrittenFinder entryWithFoo fooDependency (by decide) (by decide) (by decide)).2.2.2
    (by decide)

/-! ## Lemmas on the byte-level helpers -/

/-- The object representation of a `uint64_t` has eight bytes. -/
theorem uint64Bytes_length (n : Nat) : (uint64Bytes n).length = 8 := by
  simp [uint64Bytes, CONTAINER_JSON_SIZE_BYTES]

/-- Reading back the object representation gives the value modulo `2 ^ 64`. -/
theorem readUint64_uint64Bytes (n : Nat) : readUint64 (uint64Bytes n) = n % 2 ^ 64 := by
  have hr : List.range CONTAINER_JSON_SIZE_BYTES = [0, 1, 2, 3, 4, 5, 6, 7] := by decide
  have hlt : n % 2 ^ 64 < 2 ^ 64 := Nat.mod_lt _ (by norm_num)
  simp only [uint64Bytes, hr, List.map, readUint64, Fin.ofNat]
  generalize n % 2 ^ 64 = m at hlt ⊢
  norm_num at hlt ⊢
  omega

/-- The representation only depends on the value modulo `2 ^ 64`. -/
theorem uint64Bytes_mod (n : Nat) : uint64Bytes (n % 2 ^ 64) = uint64Bytes n := by
  simp [uint64Bytes]

/-- A read inside the buffer returns the addressed slice. -/
theorem readBytes_of_le (buf : List Byte) (pos n : Nat) (h : pos + n ≤ buf.length) :
    readBytes buf pos n = some ((buf.drop pos).take n) := by
  simp [readBytes, h]

/-! ## Lemmas on the loop of `serialize` -/

/-- Pushing a run of elements onto an array appends them. -/
theorem foldl_push_back_array {α : Type} (xs ys : List α) :
    xs.foldl JsonArray.push_back (.array ys) = .array (ys ++ xs) := by
  induction xs generalizing ys with
  | nil => simp
  | cons x rest ih => simp [JsonArray.push_back, ih]

/-- Pushing a non-empty run of elements onto `null` gives the array of the run. -/
theorem foldl_push_back_null {α : Type} (x : α) (xs : List α) :
    (x :: xs).foldl JsonArray.push_back .null = .array (x :: xs) := by
  simp [JsonArray.push_back, foldl_push_back_array]

/-- The state after running the loop of `serialize` over a run of entries. -/
theorem foldl_serializeStep (es : List SEntry) (st : SerializeState) :
    es.foldl serializeStep st =
      { shadersBuffer := st.shadersBuffer ++ (es.map (fun e => e.value.content)).flatten
        entries := (es.map SEntry.to_json).foldl JsonArray.push_back st.entries
        shaderCreationParams :=
          (recordsFrom st.shadersBuffer.length es).foldl JsonArray.push_back
            st.shaderCreationParams } := by
  induction es generalizing st with
  | nil => simp [recordsFrom]
  | cons e rest ih =>
    rw [List.foldl_cons, ih]
    simp [serializeStep, recordsFrom, List.append_assoc]

/-- The bytecode region is the concatenation of the entries' bytecode in iteration order. -/
theorem serializeLoop_shadersBuffer (c : CCache) :
    c.serializeLoop.shadersBuffer = (c.m_container.map (fun e => e.value.content)).flatten := by
  simp [CCache.serializeLoop, foldl_serializeStep]

/-- The document of a non-empty cache. -/
theorem containerJson_of_ne_nil (c : CCache) (h : c.m_container ≠ []) :
    c.containerJson =
      ⟨.array (c.m_container.map SEntry.to_json), .array (recordsFrom 0 c.m_container)⟩ := by
  obtain ⟨es⟩ := c
  cases es with
  | nil => exact absurd rfl h
  | cons e rest =>
    simp only [CCache.containerJson, CCache.serializeLoop, foldl_serializeStep]
    simp only [List.map_cons, recordsFrom, foldl_push_back_null, List.length_nil]

/-- The number of records equals the number of entries. -/
theorem recordsFrom_length (base : Nat) (es : List SEntry) :
    (recordsFrom base es).length = es.length := by
  induction es generalizing base with
  | nil => rfl
  | cons e rest ih => simp [recordsFrom, ih]

/-- The record written for the entry at position `i`. -/
theorem recordsFrom_getElem? (base : Nat) (es : List SEntry) (i : Nat) :
    (recordsFrom base es)[i]? = es[i]?.map (fun e =>
      { stage := e.value.stage
        contentType := e.value.contentType
        filepathHint := e.value.filepathHint
        offset := base + ((es.take i).map (fun x => x.value.content.length)).sum
        codeByteSize := e.value.content.length }) := by
  induction es generalizing base i with
  | nil => simp [recordsFrom]
  | cons e rest ih =>
    cases i with
    | zero => simp [recordsFrom]
    | succ k => simp [recordsFrom, ih, Nat.add_assoc]

/-- The slice of a concatenation that starts after the first `i` pieces and has the length
of piece `i` is piece `i`. -/
theorem flatten_drop_take {β : Type} (ls : List (List β)) (i : Nat) (l : List β)
    (h : ls[i]? = some l) :
    ((ls.flatten).drop ((ls.take i).map List.length).sum).take l.length = l := by
  induction ls generalizing i with
  | nil => simp at h
  | cons x rest ih =>
    cases i with
    | zero =>
      simp only [List.getElem?_cons_zero, Option.some.injEq] at h
      subst h
      simp
    | succ k =>
      simp only [List.getElem?_cons_succ] at h
      simp only [List.flatten_cons, List.take_succ_cons, List.map_cons, List.sum_cons]
      rw [List.drop_append]
      exact ih k h

/-! ## Lemmas on `deserialize` -/

/-- When every record the loop uses exists and addresses a range inside the buffer, the
loop returns the cache extended by one rebuilt entry per parsed entry, in order. -/
theorem deserializeLoop_ok (buf : List Byte) (L : Nat) (ps : List CPUShaderCreationParams)
    (entries : List SEntryJson) (i : Nat) (retVal : CCache)
    (hlen : i + entries.length ≤ ps.length)
    (hrange : ∀ j p, j < entries.length → ps[i + j]? = some p →
      CONTAINER_JSON_SIZE_BYTES + L + p.offset + p.codeByteSize ≤ buf.length) :
    ∃ built : List SEntry,
      deserializeLoop buf L ps i entries retVal = .ok ⟨retVal.m_container ++ built⟩ ∧
      built.length = entries.length ∧
      ∀ j entry p, entries[j]? = some entry → ps[i + j]? = some p →
        built[j]? = some
          { key := entry.key
            dependencies := entry.dependencies
            value :=
              { content :=
                  (buf.drop (CONTAINER_JSON_SIZE_BYTES + L + p.offset)).take p.codeByteSize
                stage := p.stage
                contentType := p.contentType
                filepathHint := p.filepathHint } } := by
  induction entries generalizing i retVal with
  | nil => exact ⟨[], by simp [deserializeLoop], rfl, by simp⟩
  | cons entry rest ih =>
    simp only [List.length_cons] at hlen
    have hi : i < ps.length := by omega
    have hget : ps[i]? = some ps[i] := List.getElem?_eq_getElem hi
    have hfit := hrange 0 ps[i] (by simp) (by simp)
    obtain ⟨built, hrun, hblen, hbuilt⟩ := ih (i + 1)
      (retVal.insert
        { key := entry.key
          dependencies := entry.dependencies
          value :=
            { content :=
                (buf.drop (CONTAINER_JSON_SIZE_BYTES + L + ps[i].offset)).take
                  ps[i].codeByteSize
              stage := ps[i].stage
              contentType := ps[i].contentType
              filepathHint := ps[i].filepathHint } })
      (by omega)
      (fun j p hj hp => hrange (j + 1) p (by simp; omega) (by
        have : i + (j + 1) = i + 1 + j := by omega
        rw [this]; exact hp))
    refine ⟨{ key := entry.key
              dependencies := entry.dependencies
              value :=
                { content :=
                    (buf.drop (CONTAINER_JSON_SIZE_BYTES + L + ps[i].offset)).take
                      ps[i].codeByteSize
                  stage := ps[i].stage
                  contentType := ps[i].contentType
                  filepathHint := ps[i].filepathHint } } :: built, ?_, by simp [hblen], ?_⟩
    · simp only [deserializeLoop, hget, readBytes_of_le buf _ _ hfit]
      rw [hrun]
      simp [CCache.insert]
    · intro j e p he hp
      cases j with
      | zero =>
        simp only [List.getElem?_cons_zero, Option.some.injEq] at he
        simp only [Nat.add_zero, hget, Option.some.injEq] at hp
        subst he hp
        simp
      | succ k =>
        simp only [List.getElem?_cons_succ] at he ⊢
        have : i + (k + 1) = i + 1 + k := by omega
        rw [this] at hp
        exact hbuilt k e p he hp

/-- On a buffer that holds the prefix and the metadata range, and whose metadata parses
into two arrays, `deserialize` is the loop over the parsed entries. -/
theorem deserialize_eq_loop (codec : JsonCodec) (buf : List Byte) (L : Nat)
    (doc : ContainerJson) (entries : List SEntryJson) (ps : List CPUShaderCreationParams)
    (hhead : readUint64 (buf.take 8) = L) (hfit : 8 + L ≤ buf.length)
    (hparse : codec.parse ((buf.drop 8).take L) = some doc)
    (hentries : doc.entries = .array entries)
    (hparams : doc.shaderCreationParams = .array ps) :
    CCache.deserialize codec buf = deserializeLoop buf L ps 0 entries CCache.empty := by
  have h8 : 0 + CONTAINER_JSON_SIZE_BYTES ≤ buf.length := by
    simp only [CONTAINER_JSON_SIZE_BYTES]; omega
  have hL : CONTAINER_JSON_SIZE_BYTES + L ≤ buf.length := by
    simp only [CONTAINER_JSON_SIZE_BYTES]; omega
  simp only [CCache.deserialize, readBytes_of_le buf _ _ h8, List.drop_zero]
  simp only [CONTAINER_JSON_SIZE_BYTES] at hL ⊢
  simp only [hhead, readBytes_of_le buf _ _ hL, hparse, hentries, hparams, JsonArray.get_to]

/-- The layout of the output of `serialize`: prefix, dumped document, bytecode region. -/
theorem serialize_eq (codec : JsonCodec) (c : CCache) :
    c.serialize codec =
      uint64Bytes (codec.dump c.containerJson).length ++ codec.dump c.containerJson ++
        (c.m_container.map (fun e => e.value.content)).flatten := by
  simp only [CCache.serialize, uint64Bytes_mod, serializeLoop_shadersBuffer]

/-- The first eight bytes of the output of `serialize`. -/
theorem serialize_take_head (codec : JsonCodec) (c : CCache) :
    (c.serialize codec).take 8 = uint64Bytes (codec.dump c.containerJson).length := by
  rw [serialize_eq, List.append_assoc]
  have h := uint64Bytes_length (codec.dump c.containerJson).length
  rw [← h, List.take_left]

/-- The metadata range of the output of `serialize`. -/
theorem serialize_metadata_range (codec : JsonCodec) (c : CCache) :
    ((c.serialize codec).drop 8).take (codec.dump c.containerJson).length
      = codec.dump c.containerJson := by
  rw [serialize_eq, List.append_assoc]
  have h := uint64Bytes_length (codec.dump c.containerJson).length
  rw [← h, List.drop_left, List.take_left]

/-- The trailing region of the output of `serialize`, from position `k` of the region on. -/
theorem serialize_drop_region (codec : JsonCodec) (c : CCache) (k : Nat) :
    (c.serialize codec).drop (8 + (codec.dump c.containerJson).length + k)
      = ((c.m_container.map (fun e => e.value.content)).flatten).drop k := by
  rw [serialize_eq]
  have h : 8 + (codec.dump c.containerJson).length =
      (uint64Bytes (codec.dump c.containerJson).length ++ codec.dump c.containerJson).length := by
    simp [uint64Bytes_length]
  rw [h, List.drop_append]

/-- The length of the output of `serialize`. -/
theorem serialize_length (codec : JsonCodec) (c : CCache) :
    (c.serialize codec).length =
      8 + (codec.dump c.containerJson).length +
        (c.m_container.map (fun e => e.value.content.length)).sum := by
  rw [serialize_eq]
  simp [uint64Bytes_length, List.length_flatten, Function.comp_def, Nat.add_assoc]

/-- In a list of sizes, the sizes before position `j` and the size at `j` together do not
exceed the total. -/
theorem sum_take_add_le (ns : List Nat) (j n : Nat) (h : ns[j]? = some n) :
    (ns.take j).sum + n ≤ ns.sum := by
  induction ns generalizing j with
  | nil => simp at h
  | cons x rest ih =>
    cases j with
    | zero =>
      simp only [List.getElem?_cons_zero, Option.some.injEq] at h
      subst h
      simp
    | succ k =>
      simp only [List.getElem?_cons_succ] at h
      have := ih k h
      simp only [List.take_succ_cons, List.sum_cons]
      omega

/-- Sums of sizes before a position grow with the position. -/
theorem sum_take_mono (ns : List Nat) (i j : Nat) (h : i ≤ j) :
    (ns.take i).sum ≤ (ns.take j).sum := by
  induction ns generalizing i j with
  | nil => simp
  | cons x rest ih =>
    cases i with
    | zero => simp
    | succ a =>
      cases j with
      | zero => omega
      | succ b =>
        have := ih a b (by omega)
        simp only [List.take_succ_cons, List.sum_cons]
        omega

/-- Claim C3. For every cache with at least one entry, whatever sequence of insertions
produced its entries, `deserialize (serialize cache)` succeeds and returns a cache with the
same entries: same keys, dependency lists, artifact bytes, stages, content types and
filepath hints. The JSON library is assumed to read back the document it dumped, and the
dumped document to be shorter than `2 ^ 64` bytes. -/
theorem deserialize_serialize_roundtrip (codec : JsonCodec) (c : CCache)
    (hne : c.m_container ≠ [])
    (hcodec : codec.parse (codec.dump c.containerJson) = some c.containerJson)
    (hsize : (codec.dump c.containerJson).length < 2 ^ 64) :
    CCache.deserialize codec (c.serialize codec) = .ok c := by
  have hdoc := containerJson_of_ne_nil c hne
  have hhead : readUint64 ((c.serialize codec).take 8)
      = (codec.dump c.containerJson).length := by
    rw [serialize_take_head, readUint64_uint64Bytes, Nat.mod_eq_of_lt hsize]
  have hfit : 8 + (codec.dump c.containerJson).length ≤ (c.serialize codec).length := by
    rw [serialize_length]; omega
  have hparse : codec.parse (((c.serialize codec).drop 8).take
      (codec.dump c.containerJson).length) = some c.containerJson := by
    rw [serialize_metadata_range, hcodec]
  rw [deserialize_eq_loop codec _ _ c.containerJson (c.m_container.map SEntry.to_json)
    (recordsFrom 0 c.m_container) hhead hfit hparse (by rw [hdoc]) (by rw [hdoc])]
  have hrec : ∀ j p, (recordsFrom 0 c.m_container)[0 + j]? = some p →
      ∃ e, c.m_container[j]? = some e ∧
        p = { stage := e.value.stage
              contentType := e.value.contentType
              filepathHint := e.value.filepathHint
              offset := ((c.m_container.take j).map (fun x => x.value.content.length)).sum
              codeByteSize := e.value.content.length } := by
    intro j p hp
    rw [Nat.zero_add, recordsFrom_getElem?] at hp
    cases he : c.m_container[j]? with
    | none => simp [he] at hp
    | some e =>
      refine ⟨e, rfl, ?_⟩
      simp only [he, Option.map_some', Option.some.injEq, Nat.zero_add] at hp
      exact hp.symm
  obtain ⟨built, hrun, hblen, hbuilt⟩ := deserializeLoop_ok (c.serialize codec)
    (codec.dump c.containerJson).length (recordsFrom 0 c.m_container)
    (c.m_container.map SEntry.to_json) 0 CCache.empty
    (by simp [recordsFrom_length])
    (by
      intro j p _ hp
      obtain ⟨e, he, hpe⟩ := hrec j p hp
      have hle := sum_take_add_le (c.m_container.map (fun x => x.value.content.length)) j
        e.value.content.length (by simp [he])
      rw [serialize_length, hpe]
      simp only [CONTAINER_JSON_SIZE_BYTES]
      rw [List.map_take]
      omega)
  rw [hrun]
  have hb : built = c.m_container := by
    apply List.ext_getElem?
    intro j
    cases he : c.m_container[j]? with
    | none =>
      have : c.m_container.length ≤ j := by
        by_contra hlt
        rw [List.getElem?_eq_getElem (Nat.lt_of_not_le hlt)] at he
        exact absurd he (by simp)
      exact List.getElem?_eq_none (by rw [hblen, List.length_map]; exact this)
    | some e =>
      have hp : (recordsFrom 0 c.m_container)[0 + j]? = some
          { stage := e.value.stage
            contentType := e.value.contentType
            filepathHint := e.value.filepathHint
            offset := ((c.m_container.take j).map (fun x => x.value.content.length)).sum
            codeByteSize := e.value.content.length } := by
        rw [Nat.zero_add, recordsFrom_getElem?, he]
        simp
      rw [hbuilt j e.to_json _ (by simp [he]) hp]
      have hslice := flatten_drop_take (c.m_container.map (fun x => x.value.content)) j
        e.value.content (by simp [he])
      simp only [CONTAINER_JSON_SIZE_BYTES, serialize_drop_region]
      rw [← List.map_take, List.map_map] at hslice
      simp only [Function.comp_def] at hslice
      rw [hslice]
      rfl
  simp [CCache.empty, hb]

set_option maxRecDepth 1000000 in
/-- Scenario for claim C3: a cache of three entries, two under one key with different
dependency lists and one under another key, survives the round trip. -/
theorem deserialize_serialize_roundtrip_witness :
    CCache.deserialize binCodec (exampleCache.serialize binCodec) = .ok exampleCache :=
  deserialize_serialize_roundtrip binCodec exampleCache (by decide) (by decide) (by decide)

/-- Claim C6. The output of `serialize` is the eight bytes of `L` in little-endian order,
then the `L` bytes of the dumped metadata document, then the bytecode region, where `L` is
the length of the dumped document (a `uint64_t`); its length is `8 + L` plus the sum of
the entries' bytecode sizes. -/
theorem serialize_layout (codec : JsonCodec) (c : CCache) :
    c.serialize codec =
      (List.range 8).map
          (fun i => (Fin.ofNat ((codec.dump c.containerJson).length % 2 ^ 64 / 256 ^ i) : Byte))
        ++ codec.dump c.containerJson
        ++ (c.m_container.map (fun e => e.value.content)).flatten ∧
    (c.serialize codec).length =
      8 + (codec.dump c.containerJson).length +
        (c.m_container.map (fun e => e.value.content.length)).sum ∧
    readUint64 ((c.serialize codec).take 8) = (codec.dump c.containerJson).length % 2 ^ 64 ∧
    ((c.serialize codec).drop 8).take (codec.dump c.containerJson).length
      = codec.dump c.containerJson ∧
    (c.serialize codec).drop (8 + (codec.dump c.containerJson).length)
      = (c.m_container.map (fun e => e.value.content)).flatten := by
  refine ⟨?_, serialize_length codec c, ?_, serialize_metadata_range codec c, ?_⟩
  · rw [serialize_eq]
    rfl
  · rw [serialize_take_head, readUint64_uint64Bytes]
  · have := serialize_drop_region codec c 0
    simpa using this

set_option maxRecDepth 1000000 in
/-- Claim C7 fails on the empty cache. The two members of the document that `serialize`
writes for it are `null`, not arrays: the loop never runs, so the two default-constructed
`json` values are never pushed to. `deserialize` then throws on the result, for every codec
that reads back what it dumped. -/
theorem serialize_empty_cache_members_null :
    CCache.empty.containerJson = ⟨.null, .null⟩ ∧
    CCache.empty.containerJson.entries.get_to = none ∧
    (∀ codec : JsonCodec,
      codec.parse (codec.dump CCache.empty.containerJson) = some CCache.empty.containerJson →
      (codec.dump CCache.empty.containerJson).length < 2 ^ 64 →
      CCache.deserialize codec (CCache.empty.serialize codec) = .jsonException) ∧
    CCache.deserialize binCodec (CCache.empty.serialize binCodec) = .jsonException := by
  refine ⟨rfl, rfl, ?_, by decide⟩
  intro codec hcodec hsize
  have hhead : readUint64 ((CCache.empty.serialize codec).take 8)
      = (codec.dump CCache.empty.containerJson).length := by
    rw [serialize_take_head, readUint64_uint64Bytes, Nat.mod_eq_of_lt hsize]
  have h0 : 0 + CONTAINER_JSON_SIZE_BYTES ≤ (CCache.empty.serialize codec).length := by
    rw [serialize_length]; simp only [CONTAINER_JSON_SIZE_BYTES]; omega
  have hL : 8 + (codec.dump CCache.empty.containerJson).length
      ≤ (CCache.empty.serialize codec).length := by
    rw [serialize_length]; omega
  simp only [CCache.deserialize, readBytes_of_le _ _ _ h0, List.drop_zero]
  simp only [CONTAINER_JSON_SIZE_BYTES, hhead, readBytes_of_le _ _ _ hL,
    serialize_metadata_range, hcodec]
  rfl

/-- Claim C8. For entries at positions `i ≤ j` of the cache, `serialize` writes records
`p` and `q` at positions `i` and `j` of `shaderCreationParams`; `p.codeByteSize` is the
bytecode size of entry `i`, `p.offset` the sum of the bytecode sizes of the entries before
it, and the trailing region holds the bytecode of entry `i` at
`[p.offset, p.offset + p.codeByteSize)`. Offsets do not decrease with the position, and for
`i < j` the range of `p` ends at or before the start of the range of `q`. -/
theorem serialize_record_offsets (codec : JsonCodec) (c : CCache) (i j : Nat)
    (e e' : SEntry) (hi : c.m_container[i]? = some e) (hj : c.m_container[j]? = some e')
    (hij : i ≤ j) :
    ∃ ps p q, c.containerJson.shaderCreationParams = .array ps ∧
      ps.length = c.m_container.length ∧ ps[i]? = some p ∧ ps[j]? = some q ∧
      p.codeByteSize = e.value.content.length ∧
      p.offset = ((c.m_container.take i).map (fun x => x.value.content.length)).sum ∧
      (((c.serialize codec).drop (8 + (codec.dump c.containerJson).length)).drop
          p.offset).take p.codeByteSize = e.value.content ∧
      p.offset ≤ q.offset ∧
      (i < j → p.offset + p.codeByteSize ≤ q.offset) := by
  have hne : c.m_container ≠ [] := by
    intro hnil
    rw [hnil] at hi
    simp at hi
  refine ⟨recordsFrom 0 c.m_container, _, _, by rw [containerJson_of_ne_nil c hne],
    recordsFrom_length 0 _, by rw [recordsFrom_getElem?, hi]; rfl,
    by rw [recordsFrom_getElem?, hj]; rfl, rfl, by simp, ?_, ?_, ?_⟩
  · have hslice := flatten_drop_take (c.m_container.map (fun x => x.value.content)) i
      e.value.content (by simp [hi])
    rw [← List.map_take, List.map_map] at hslice
    simp only [Function.comp_def] at hslice
    have hreg := serialize_drop_region codec c 0
    simp only [Nat.add_zero, List.drop_zero] at hreg
    simp only [hreg, Nat.zero_add]
    exact hslice
  · simp only [Nat.zero_add]
    rw [List.map_take, List.map_take]
    exact sum_take_mono _ i j hij
  · intro hlt
    simp only [Nat.zero_add]
    have hle := sum_take_add_le
      ((c.m_container.map (fun x => x.value.content.length)).take j) i
      e.value.content.length (by simp [List.getElem?_take, hlt, hi])
    rw [List.take_take, Nat.min_eq_left hij, ← List.map_take, ← List.map_take] at hle
    exact hle

/-- Example for claim C8: the records of the second and third entry of `exampleCache`. -/
theorem serialize_record_offsets_witness :
    ∃ ps p q, exampleCache.containerJson.shaderCreationParams = .array ps ∧
      ps.length = 3 ∧ ps[1]? = some p ∧ ps[2]? = some q ∧
      p.codeByteSize = 3 ∧ p.offset = 4 ∧ p.offset + p.codeByteSize ≤ q.offset := by
  obtain ⟨ps, p, q, h1, h2, h3, h4, h5, h6, -, -, h9⟩ :=
    serialize_record_offsets binCodec exampleCache 1 2 entryOther entryNoDeps
      (by decide) (by decide) (by decide)
  exact ⟨ps, p, q, h1, h2, h3, h4, h5, h6, h9 (by decide)⟩

/-- Claim C9. For every buffer that holds the prefix and the `L` bytes of metadata it
declares, whose metadata parses into arrays `entries` and `shaderCreationParams` of equal
length `n`, every record declaring a range inside the trailing region, `deserialize`
returns a cache of exactly `n` entries; its entry `i` has the key and dependencies of
parsed entry `i`, the `codeByteSize` bytes of the buffer from position `8 + L + offset` of
record `i` as artifact bytes, and the stage, content type and filepath hint of record
`i`. -/
theorem deserialize_well_formed (codec : JsonCodec) (buf : List Byte) (L : Nat)
    (doc : ContainerJson) (entries : List SEntryJson) (ps : List CPUShaderCreationParams)
    (hhead : readUint64 (buf.take 8) = L) (hfit : 8 + L ≤ buf.length)
    (hparse : codec.parse ((buf.drop 8).take L) = some doc)
    (hentries : doc.entries = .array entries)
    (hparams : doc.shaderCreationParams = .array ps)
    (hlen : entries.length = ps.length)
    (hrange : ∀ p ∈ ps, p.offset + p.codeByteSize ≤ buf.length - (8 + L)) :
    ∃ c, CCache.deserialize codec buf = .ok c ∧
      c.m_container.length = entries.length ∧
      ∀ (i : Nat) (entry : SEntryJson) (p : CPUShaderCreationParams),
        entries[i]? = some entry → ps[i]? = some p →
        c.m_container[i]? = some
          ({ key := entry.key
             dependencies := entry.dependencies
             value :=
               { content := (buf.drop (8 + L + p.offset)).take p.codeByteSize
                 stage := p.stage
                 contentType := p.contentType
                 filepathHint := p.filepathHint } } : SEntry) := by
  obtain ⟨built, hrun, hblen, hbuilt⟩ := deserializeLoop_ok buf L ps entries 0 CCache.empty
    (by omega)
    (by
      intro j p _ hp
      rw [Nat.zero_add] at hp
      have := hrange p (List.getElem?_mem hp)
      simp only [CONTAINER_JSON_SIZE_BYTES]
      omega)
  refine ⟨⟨built⟩, ?_, hblen, ?_⟩
  · rw [deserialize_eq_loop codec buf L doc entries ps hhead hfit hparse hentries hparams,
      hrun]
    simp [CCache.empty]
  · intro i entry p he hp
    have := hbuilt i entry p he (show ps[0 + i]? = some p by rw [Nat.zero_add]; exact hp)
    simpa [CONTAINER_JSON_SIZE_BYTES] using this

set_option maxRecDepth 1000000 in
/-- Example for claim C9: `gappedBuffer`, whose two records address the trailing region out
of order; the two entries come back with the bytes their records address. -/
theorem deserialize_well_formed_witness :
    ∃ c, CCache.deserialize binCodec gappedBuffer = .ok c ∧ c.m_container.length = 2 ∧
      c.m_container[0]? = some entryNoDeps ∧ c.m_container[1]? = some entryOther := by
  obtain ⟨c, h1, h2, h3⟩ :=
    deserialize_well_formed binCodec gappedBuffer (binCodec.dump gappedDoc).length gappedDoc
      [entryNoDeps.to_json, entryOther.to_json]
      [⟨16, 2, "main2.frag", 2, 3⟩, ⟨1, 0, "", 3, 0⟩]
      (by decide) (by decide) (by decide) rfl rfl rfl (by decide)
  refine ⟨c, h1, h2, ?_, ?_⟩
  · rw [h3 0 entryNoDeps.to_json ⟨16, 2, "main2.frag", 2, 3⟩ rfl rfl]
    decide
  · rw [h3 1 entryOther.to_json ⟨1, 0, "", 3, 0⟩ rfl rfl]
    decide

/-! ## Further properties of `CCache::find` -/

/-- The inner loop only looks at the hash and the contents of the headers that the
dependencies of the entry re-resolve to. -/
theorem allDependenciesMatch_congr (first second : IncludeResolver)
    (deps : List SPreprocessingDependency)
    (h : ∀ d ∈ deps,
      (if d.standardInclude then
          first.getIncludeStandard d.requestingSourceDir d.identifier
        else first.getIncludeRelative d.requestingSourceDir d.identifier) =
      (if d.standardInclude then
          second.getIncludeStandard d.requestingSourceDir d.identifier
        else second.getIncludeRelative d.requestingSourceDir d.identifier)) :
    allDependenciesMatch first deps = allDependenciesMatch second deps := by
  induction deps with
  | nil => rfl
  | cons d rest ih =>
    have hd := h d (List.mem_cons_self _ _)
    simp only [allDependenciesMatch, hd, ih (fun x hx => h x (List.mem_cons_of_mem _ hx))]

/-- Claim C12. `find` is a function of the cache, the key and the answers of the finder to
the re-resolutions of the bucket's dependencies, and it returns nothing but the artifact:
when the finder answers these re-resolutions at a second call as it did at the first, the
second call on the same cache returns what the first returned; a miss is followed by a
miss. -/
theorem find_deterministic (c : CCache) (mainFile : CacheKey)
    (first second : IncludeResolver)
    (hsame : ∀ e ∈ c.equal_range mainFile, ∀ d ∈ e.dependencies,
      (if d.standardInclude then
          first.getIncludeStandard d.requestingSourceDir d.identifier
        else first.getIncludeRelative d.requestingSourceDir d.identifier) =
      (if d.standardInclude then
          second.getIncludeStandard d.requestingSourceDir d.identifier
        else second.getIncludeRelative d.requestingSourceDir d.identifier)) :
    c.find mainFile first = c.find mainFile second ∧
    (c.find mainFile first = none → c.find mainFile second = none) := by
  have hentry : ∀ bucket : List SEntry,
      (∀ e ∈ bucket, allDependenciesMatch first e.dependencies
        = allDependenciesMatch second e.dependencies) →
      findEntry first bucket = findEntry second bucket := by
    intro bucket
    induction bucket with
    | nil => intro _; rfl
    | cons x rest ih =>
      intro h
      simp only [findEntry, h x (List.mem_cons_self _ _),
        ih (fun y hy => h y (List.mem_cons_of_mem _ hy))]
  have heq : c.find mainFile first = c.find mainFile second := by
    simp only [CCache.find]
    rw [hentry _ (fun e he => allDependenciesMatch_congr first second _ (hsame e he))]
  exact ⟨heq, fun h => heq ▸ h⟩

/-- Example for claim C12: a lookup served from an entry that depends on `foo.glsl`, and
the same lookup in a later finder state that answers as before for `foo.glsl` only. -/
theorem find_deterministic_witness :
    (CCache.mk [entryWithFoo, entryOther]).find exampleKey recordedFinder = some shaderA ∧
    (CCache.mk [entryWithFoo, entryOther]).find exampleKey laterFinder = some shaderA :=
  ⟨by decide,
   (find_deterministic (CCache.mk [entryWithFoo, entryOther]) exampleKey recordedFinder
      laterFinder (by decide)).1 ▸ (by decide)⟩

/-! ## Properties of the search paths of `CIncludeFinder` -/

/-- The loop of `trySearchPaths` returns the result of the first entry that resolves the
name to contents that are not empty. -/
theorem trySearchPathsFrom_append_cons (includeName : String)
    (pre post : List LoaderSearchPath) (entry : LoaderSearchPath)
    (hpre : ∀ e ∈ pre, (e.loader.getInclude e.searchPath includeName).contents = "")
    (hentry : (entry.loader.getInclude entry.searchPath includeName).contents ≠ "") :
    trySearchPathsFrom includeName (pre ++ entry :: post)
      = entry.loader.getInclude entry.searchPath includeName := by
  induction pre with
  | nil => simp [trySearchPathsFrom, found_t.toBool, hentry]
  | cons x rest ih =>
    have hx := hpre x (List.mem_cons_self _ _)
    simp only [List.cons_append, trySearchPathsFrom, found_t.toBool, hx, bne_self_eq_false,
      Bool.false_eq_true, if_false]
    exact ih (fun y hy => hpre y (List.mem_cons_of_mem _ hy))

/-- The loop of `trySearchPaths` returns the not-found value when no entry resolves the
name to contents that are not empty. -/
theorem trySearchPathsFrom_none (includeName : String) (entries : List LoaderSearchPath)
    (h : ∀ e ∈ entries, (e.loader.getInclude e.searchPath includeName).contents = "") :
    trySearchPathsFrom includeName entries = found_t.notFound := by
  induction entries with
  | nil => rfl
  | cons x rest ih =>
    have hx := h x (List.mem_cons_self _ _)
    simp only [trySearchPathsFrom, found_t.toBool, hx, bne_self_eq_false,
      Bool.false_eq_true, if_false]
    exact ih (fun y hy => h y (List.mem_cons_of_mem _ hy))

/-- Claim C18. `trySearchPaths` returns the result of the earliest entry of the search path
list whose loader yields contents that are not empty for its root and the name, and the
not-found value when no entry does. Entries are in registration order, so of two loaders
registered by `addSearchPath` that both resolve a name which no earlier entry resolves,
the one registered first is the one whose result is returned. -/
theorem trySearchPaths_first_registered_wins (f : CIncludeFinder) (includeName : String) :
    (∀ (pre post : List LoaderSearchPath) (entry : LoaderSearchPath),
      f.m_loaders = pre ++ entry :: post →
      (∀ e ∈ pre, (e.loader.getInclude e.searchPath includeName).contents = "") →
      (entry.loader.getInclude entry.searchPath includeName).contents ≠ "" →
      f.trySearchPaths includeName = entry.loader.getInclude entry.searchPath includeName) ∧
    ((∀ e ∈ f.m_loaders, (e.loader.getInclude e.searchPath includeName).contents = "") →
      f.trySearchPaths includeName = found_t.notFound) ∧
    (∀ (root₁ root₂ : String) (loader₁ loader₂ : IIncludeLoader),
      (∀ e ∈ f.m_loaders, (e.loader.getInclude e.searchPath includeName).contents = "") →
      (loader₁.getInclude root₁ includeName).contents ≠ "" →
      ((f.addSearchPath root₁ (some loader₁)).addSearchPath root₂ (some loader₂)).trySearchPaths
        includeName = loader₁.getInclude root₁ includeName) := by
  refine ⟨?_, ?_, ?_⟩
  · intro pre post entry hsplit hpre hentry
    simp only [CIncludeFinder.trySearchPaths, hsplit]
    exact trySearchPathsFrom_append_cons includeName pre post entry hpre hentry
  · intro h
    exact trySearchPathsFrom_none includeName _ h
  · intro root₁ root₂ loader₁ loader₂ hpre hfirst
    simp only [CIncludeFinder.trySearchPaths, CIncludeFinder.addSearchPath,
      List.append_assoc, List.singleton_append]
    exact trySearchPathsFrom_append_cons includeName f.m_loaders [⟨loader₂, root₂⟩]
      ⟨loader₁, root₁⟩ hpre hfirst

/-- Example for claim C18: two loaders hold `common.glsl` with different contents; the
contents of the one registered first are returned. -/
theorem trySearchPaths_first_registered_wins_witness :
    ((((CIncludeFinder.construct emptyLoader).addSearchPath "inc"
        (some (singleFileLoader "inc" "common.glsl" "// first"))).addSearchPath "lib"
        (some (singleFileLoader "lib" "common.glsl" "// second"))).trySearchPaths
      "common.glsl").contents = "// first" := by
  rw [(trySearchPaths_first_registered_wins (CIncludeFinder.construct emptyLoader)
    "common.glsl").2.2 "inc" "lib" (singleFileLoader "inc" "common.glsl" "// first")
    (singleFileLoader "lib" "common.glsl" "// second") (by decide) (by decide)]
  decide

/-- Claim C19. `addSearchPath` with a loader appends the entry made of that loader and the
root to the search path list: the list grows by one, every earlier entry keeps its
position, and the generator list and the default loader stay as they are. With a null
loader the finder state is unchanged. -/
theorem addSearchPath_appends (f : CIncludeFinder) (searchPath : String)
    (loader : IIncludeLoader) :
    (f.addSearchPath searchPath (some loader)).m_loaders
      = f.m_loaders ++ [⟨loader, searchPath⟩] ∧
    (f.addSearchPath searchPath (some loader)).m_loaders.length = f.m_loaders.length + 1 ∧
    (∀ i, i < f.m_loaders.length →
      (f.addSearchPath searchPath (some loader)).m_loaders[i]? = f.m_loaders[i]?) ∧
    (f.addSearchPath searchPath (some loader)).m_generators = f.m_generators ∧
    (f.addSearchPath searchPath (some loader)).m_defaultFileSystemLoader
      = f.m_defaultFileSystemLoader ∧
    f.addSearchPath searchPath none = f := by
  refine ⟨rfl, by simp [CIncludeFinder.addSearchPath], ?_, rfl, rfl, rfl⟩
  intro i hi
  simp [CIncludeFinder.addSearchPath, List.getElem?_append_left hi]

/-- A call after the construction keeps the first entry of the search path list and the
default loader. -/
theorem call_keeps_first_loader (f : CIncludeFinder) (call : FinderCall)
    (first : LoaderSearchPath) (rest : List LoaderSearchPath)
    (h : f.m_loaders = first :: rest) :
    (∃ rest', (f.call call).m_loaders = first :: rest') ∧
    (f.call call).m_defaultFileSystemLoader = f.m_defaultFileSystemLoader := by
  cases call with
  | addSearchPath searchPath loader =>
    cases loader with
    | none => exact ⟨⟨rest, h⟩, rfl⟩
    | some l =>
      exact ⟨⟨rest ++ [⟨l, searchPath⟩], by simp [CIncludeFinder.call,
        CIncludeFinder.addSearchPath, h]⟩, rfl⟩
  | addGenerator g =>
    cases g with
    | none => exact ⟨⟨rest, h⟩, rfl⟩
    | some g => exact ⟨⟨rest, h⟩, rfl⟩

/-- Claim C20. In every state reached from the construction of the finder by a sequence of
`addSearchPath` and `addGenerator` calls, null arguments included, the search path list is
not empty and its first entry is the default file system loader with the empty root; so
`trySearchPaths` returns the result of that entry whenever its contents are not empty. -/
theorem reachable_first_loader_is_default (defaultFileSystemLoader : IIncludeLoader)
    (calls : List FinderCall) :
    ((calls.foldl CIncludeFinder.call
        (CIncludeFinder.construct defaultFileSystemLoader)).m_loaders ≠ []) ∧
    (∃ rest, (calls.foldl CIncludeFinder.call
        (CIncludeFinder.construct defaultFileSystemLoader)).m_loaders
        = ⟨defaultFileSystemLoader, ""⟩ :: rest) ∧
    (calls.foldl CIncludeFinder.call
        (CIncludeFinder.construct defaultFileSystemLoader)).m_defaultFileSystemLoader
      = defaultFileSystemLoader ∧
    (∀ includeName, (defaultFileSystemLoader.getInclude "" includeName).contents ≠ "" →
      (calls.foldl CIncludeFinder.call
        (CIncludeFinder.construct defaultFileSystemLoader)).trySearchPaths includeName
        = defaultFileSystemLoader.getInclude "" includeName) := by
  have key : ∀ (cs : List FinderCall) (f : CIncludeFinder),
      (∃ rest, f.m_loaders = ⟨defaultFileSystemLoader, ""⟩ :: rest) →
      f.m_defaultFileSystemLoader = defaultFileSystemLoader →
      (∃ rest, (cs.foldl CIncludeFinder.call f).m_loaders
        = ⟨defaultFileSystemLoader, ""⟩ :: rest) ∧
      (cs.foldl CIncludeFinder.call f).m_defaultFileSystemLoader
        = defaultFileSystemLoader := by
    intro cs
    induction cs with
    | nil => intro f h1 h2; exact ⟨h1, h2⟩
    | cons c rest ih =>
      intro f h1 h2
      obtain ⟨r, hr⟩ := h1
      have := call_keeps_first_loader f c _ r hr
      exact ih (f.call c) this.1 (this.2.trans h2)
  obtain ⟨⟨rest, hrest⟩, hdef⟩ := key calls (CIncludeFinder.construct defaultFileSystemLoader)
    ⟨[], rfl⟩ rfl
  refine ⟨by rw [hrest]; simp, ⟨rest, hrest⟩, hdef, ?_⟩
  intro includeName hfound
  simp only [CIncludeFinder.trySearchPaths, hrest]
  exact trySearchPathsFrom_append_cons includeName [] rest ⟨defaultFileSystemLoader, ""⟩
    (by simp) hfound

/-! ## Termination of the path peeling loop on relative paths -/

/-- Removing the last file name of a non-empty character sequence, read from its end, and
the separators before it removes at least one character. -/
theorem length_dropWhile_dropWhile_lt (r : List Char) (h : r ≠ []) :
    ((r.dropWhile (fun ch => ch != '/')).dropWhile (fun ch => ch == '/')).length
      < r.length := by
  cases r with
  | nil => exact absurd rfl h
  | cons c rest =>
    by_cases hc : c = '/'
    · subst hc
      rw [List.dropWhile_cons_of_neg (by simp), List.dropWhile_cons_of_pos (by simp)]
      have := (List.dropWhile_suffix (fun ch => ch == '/') (l := rest)).length_le
      simp only [List.length_cons]
      omega
    · rw [List.dropWhile_cons_of_pos (by simpa using hc)]
      have a := (List.dropWhile_suffix (fun ch => ch != '/') (l := rest)).length_le
      have b := (List.dropWhile_suffix (fun ch => ch == '/')
        (l := List.dropWhile (fun ch => ch != '/') rest)).length_le
      simp only [List.length_cons]
      omega

/-- The parent of a non-empty relative path is shorter and relative. -/
theorem parent_path_relative (p : String) (hne : p ≠ "")
    (hrel : p.toList.head? ≠ some '/') :
    (system.path.parent_path p).length < p.length ∧
    (system.path.parent_path p).toList.head? ≠ some '/' := by
  obtain ⟨l⟩ := p
  have hl : l ≠ [] := by
    intro h
    exact hne (by rw [h])
  have hr : l.reverse ≠ [] := by simpa using hl
  simp only [String.toList] at hrel
  have hT := List.takeWhile_append_dropWhile (fun ch => ch != '/') l.reverse
  have hU := List.takeWhile_append_dropWhile (fun ch => ch == '/')
    (l.reverse.dropWhile (fun ch => ch != '/'))
  have hslash : ∀ ch ∈ (l.reverse.dropWhile (fun ch => ch != '/')).takeWhile
      (fun ch => ch == '/'), ch = '/' := by
    intro ch hch
    simpa using List.mem_takeWhile_imp hch
  have hl_eq : l =
      ((l.reverse.dropWhile (fun ch => ch != '/')).dropWhile (fun ch => ch == '/')).reverse ++
        (((l.reverse.dropWhile (fun ch => ch != '/')).takeWhile
            (fun ch => ch == '/')).reverse ++
          (l.reverse.takeWhile (fun ch => ch != '/')).reverse) := by
    have h1 : l.reverse =
        l.reverse.takeWhile (fun ch => ch != '/') ++
          ((l.reverse.dropWhile (fun ch => ch != '/')).takeWhile (fun ch => ch == '/') ++
            (l.reverse.dropWhile (fun ch => ch != '/')).dropWhile (fun ch => ch == '/')) := by
      rw [hU, hT]
    have h2 := congrArg List.reverse h1
    simpa only [List.reverse_reverse, List.reverse_append, List.append_assoc] using h2
  simp only [system.path.parent_path, String.toList]
  by_cases hS : (l.reverse.dropWhile (fun ch => ch != '/')).dropWhile (fun ch => ch == '/') = []
  · by_cases hA : l.reverse.dropWhile (fun ch => ch != '/') = []
    · simp only [hS, hA, if_true]
      refine ⟨?_, by simp⟩
      show (0 : Nat) < l.length
      exact List.length_pos.2 hl
    · exfalso
      rw [hS, List.append_nil] at hU
      have hne' : (l.reverse.dropWhile (fun ch => ch != '/')).takeWhile
          (fun ch => ch == '/') ≠ [] := by rw [hU]; exact hA
      rw [hS, List.reverse_nil, List.nil_append] at hl_eq
      obtain ⟨c, cs, hcs⟩ := List.exists_cons_of_ne_nil
        (show ((l.reverse.dropWhile (fun ch => ch != '/')).takeWhile
          (fun ch => ch == '/')).reverse ≠ [] by simpa using hne')
      have hc : c = '/' := by
        apply hslash
        have : c ∈ ((l.reverse.dropWhile (fun ch => ch != '/')).takeWhile
            (fun ch => ch == '/')).reverse := by rw [hcs]; simp
        simpa using this
      rw [hcs] at hl_eq
      apply hrel
      rw [hl_eq, hc]
      rfl
  · simp only [hS, if_false]
    constructor
    · show ((l.reverse.dropWhile (fun ch => ch != '/')).dropWhile
          (fun ch => ch == '/')).reverse.length < l.length
      have := length_dropWhile_dropWhile_lt l.reverse hr
      simpa using this
    · show (((l.reverse.dropWhile (fun ch => ch != '/')).dropWhile
          (fun ch => ch == '/')).reverse).head? ≠ some '/'
      obtain ⟨c, cs, hcs⟩ := List.exists_cons_of_ne_nil
        (show ((l.reverse.dropWhile (fun ch => ch != '/')).dropWhile
          (fun ch => ch == '/')).reverse ≠ [] by simpa using hS)
      rw [hcs]
      rw [hcs] at hl_eq
      intro hhead
      apply hrel
      rw [hl_eq]
      simpa using hhead

/-- On a relative path the path peeling loop finishes within as many iterations as the
path has characters, and one more to leave the loop. -/
theorem peelLoop_returns (m_generators : List IIncludeGenerator) (includeName : String)
    (fuel : Nat) (path : String) (endIt : Nat) (consulted : List IIncludeGenerator)
    (hrel : path.toList.head? ≠ some '/') (hfuel : path.length < fuel) :
    ∃ run, peelLoop m_generators includeName fuel path endIt consulted = some run := by
  induction fuel generalizing path endIt consulted with
  | zero => omega
  | succ n ih =>
    simp only [peelLoop]
    split
    · rename_i hcond
      have hne : path ≠ "" := by
        intro h
        simp [h] at hcond
      have hparent := parent_path_relative path hne hrel
      split
      · exact ⟨_, rfl⟩
      · exact ih _ _ _ hparent.2 (by omega)
    · exact ⟨_, rfl⟩

/-! ## Properties of `getIncludeStandard` and `getIncludeRelative` -/

/-- The value of `getIncludeStandard` once `tryIncludeGenerators` has returned. -/
theorem getIncludeStandard_of_generators (XXHash_256 : String → Hash256) (fuel : Nat)
    (f : CIncludeFinder) (requestingSourceDir includeName : String) (g : found_t)
    (hg : f.tryIncludeGenerators fuel includeName = some g) :
    f.getIncludeStandard XXHash_256 fuel requestingSourceDir includeName = some
      { absolutePath :=
          (if g.toBool then g
            else if (f.trySearchPaths includeName).toBool then f.trySearchPaths includeName
            else f.m_defaultFileSystemLoader.getInclude requestingSourceDir
              includeName).absolutePath
        contents :=
          (if g.toBool then g
            else if (f.trySearchPaths includeName).toBool then f.trySearchPaths includeName
            else f.m_defaultFileSystemLoader.getInclude requestingSourceDir
              includeName).contents
        hash := XXHash_256
          (if g.toBool then g
            else if (f.trySearchPaths includeName).toBool then f.trySearchPaths includeName
            else f.m_defaultFileSystemLoader.getInclude requestingSourceDir
              includeName).contents } := by
  simp only [CIncludeFinder.getIncludeStandard, hg]

/-- Claim C13. `getIncludeStandard` returns exactly when its call of
`tryIncludeGenerators` returns, which it does on every name whose peeled path is relative,
given one iteration per character of that path and one more. The contents and the resolved
path it returns are those of the generators' result when that has contents; otherwise
those of the result of `trySearchPaths` when that has contents; otherwise those of the
default file system loader for the requesting directory and the name. So the result does
not depend on a later source unless every earlier one came back with empty contents. -/
theorem getIncludeStandard_resolution_order (XXHash_256 : String → Hash256) (fuel : Nat)
    (f : CIncludeFinder) (requestingSourceDir includeName : String) :
    (f.getIncludeStandard XXHash_256 fuel requestingSourceDir includeName = none ↔
      f.tryIncludeGenerators fuel includeName = none) ∧
    (∀ g, f.tryIncludeGenerators fuel includeName = some g →
      ∃ r, f.getIncludeStandard XXHash_256 fuel requestingSourceDir includeName = some r ∧
        (g.contents ≠ "" → r.contents = g.contents ∧ r.absolutePath = g.absolutePath) ∧
        (g.contents = "" → (f.trySearchPaths includeName).contents ≠ "" →
          r.contents = (f.trySearchPaths includeName).contents ∧
          r.absolutePath = (f.trySearchPaths includeName).absolutePath) ∧
        (g.contents = "" → (f.trySearchPaths includeName).contents = "" →
          r.contents =
            (f.m_defaultFileSystemLoader.getInclude requestingSourceDir includeName).contents ∧
          r.absolutePath =
            (f.m_defaultFileSystemLoader.getInclude requestingSourceDir
              includeName).absolutePath)) ∧
    ((system.path.parent_path (removeExtension includeName)).toList.head? ≠ some '/' →
      (system.path.parent_path (removeExtension includeName)).length < fuel →
      ∃ r, f.getIncludeStandard XXHash_256 fuel requestingSourceDir includeName = some r) := by
  have hsome : ∀ g, f.tryIncludeGenerators fuel includeName = some g →
      ∃ r, f.getIncludeStandard XXHash_256 fuel requestingSourceDir includeName = some r ∧
        (g.contents ≠ "" → r.contents = g.contents ∧ r.absolutePath = g.absolutePath) ∧
        (g.contents = "" → (f.trySearchPaths includeName).contents ≠ "" →
          r.contents = (f.trySearchPaths includeName).contents ∧
          r.absolutePath = (f.trySearchPaths includeName).absolutePath) ∧
        (g.contents = "" → (f.trySearchPaths includeName).contents = "" →
          r.contents =
            (f.m_defaultFileSystemLoader.getInclude requestingSourceDir includeName).contents ∧
          r.absolutePath =
            (f.m_defaultFileSystemLoader.getInclude requestingSourceDir
              includeName).absolutePath) := by
    intro g hg
    refine ⟨_, getIncludeStandard_of_generators XXHash_256 fuel f requestingSourceDir
      includeName g hg, ?_, ?_, ?_⟩
    · intro h
      simp [found_t.toBool, h]
    · intro h1 h2
      simp [found_t.toBool, h1, h2]
    · intro h1 h2
      simp [found_t.toBool, h1, h2]
  refine ⟨⟨?_, ?_⟩, hsome, ?_⟩
  · intro h
    cases hg : f.tryIncludeGenerators fuel includeName with
    | none => rfl
    | some g =>
      obtain ⟨r, hr, -⟩ := hsome g hg
      rw [hr] at h
      exact absurd h (by simp)
  · intro h
    simp only [CIncludeFinder.getIncludeStandard, h]
  · intro hrel hfuel
    obtain ⟨run, hrun⟩ := peelLoop_returns f.m_generators includeName fuel
      (system.path.parent_path (removeExtension includeName)) 0 [] hrel hfuel
    obtain ⟨r, hr, -⟩ := hsome run.2
      (by simp [CIncludeFinder.tryIncludeGenerators, CIncludeFinder.tryIncludeGeneratorsRun,
        hrun])
    exact ⟨r, hr⟩

/-- Claim C14. `getIncludeRelative` returns the contents and the resolved path of the
default file system loader's result for the requesting directory and the name when that
has contents, and those of `trySearchPaths` otherwise. The generator list takes no part:
finders that differ in their generators only return the same result. -/
theorem getIncludeRelative_resolution_order (XXHash_256 : String → Hash256)
    (f : CIncludeFinder) (requestingSourceDir includeName : String) :
    ((f.m_defaultFileSystemLoader.getInclude requestingSourceDir includeName).contents ≠ "" →
      (f.getIncludeRelative XXHash_256 requestingSourceDir includeName).contents =
        (f.m_defaultFileSystemLoader.getInclude requestingSourceDir includeName).contents ∧
      (f.getIncludeRelative XXHash_256 requestingSourceDir includeName).absolutePath =
        (f.m_defaultFileSystemLoader.getInclude requestingSourceDir
          includeName).absolutePath) ∧
    ((f.m_defaultFileSystemLoader.getInclude requestingSourceDir includeName).contents = "" →
      (f.getIncludeRelative XXHash_256 requestingSourceDir includeName).contents =
        (f.trySearchPaths includeName).contents ∧
      (f.getIncludeRelative XXHash_256 requestingSourceDir includeName).absolutePath =
        (f.trySearchPaths includeName).absolutePath) ∧
    (∀ generators : List IIncludeGenerator,
      CIncludeFinder.getIncludeRelative XXHash_256
          { m_loaders := f.m_loaders
            m_generators := generators
            m_defaultFileSystemLoader := f.m_defaultFileSystemLoader }
          requestingSourceDir includeName
        = f.getIncludeRelative XXHash_256 requestingSourceDir includeName) ∧
    (∀ generatorToAdd : Option IIncludeGenerator,
      (f.addGenerator generatorToAdd).getIncludeRelative XXHash_256 requestingSourceDir
          includeName
        = f.getIncludeRelative XXHash_256 requestingSourceDir includeName) := by
  refine ⟨?_, ?_, fun _ => rfl, ?_⟩
  · intro h
    simp [CIncludeFinder.getIncludeRelative, found_t.toBool, h]
  · intro h
    simp [CIncludeFinder.getIncludeRelative, found_t.toBool, h]
  · intro g
    cases g with
    | none => rfl
    | some g => rfl

/-- Claim C15. A result returned by `getIncludeStandard` or by `getIncludeRelative` carries
as hash the digest of its own contents. When nothing is found, that is when every source
the call falls through comes back with empty contents, the result has empty contents and
the digest of the empty string as hash. -/
theorem resolution_hash_is_digest (XXHash_256 : String → Hash256) (fuel : Nat)
    (f : CIncludeFinder) (requestingSourceDir includeName : String) :
    (∀ r, f.getIncludeStandard XXHash_256 fuel requestingSourceDir includeName = some r →
      r.hash = XXHash_256 r.contents) ∧
    (f.getIncludeRelative XXHash_256 requestingSourceDir includeName).hash =
      XXHash_256 (f.getIncludeRelative XXHash_256 requestingSourceDir includeName).contents ∧
    (∀ g, f.tryIncludeGenerators fuel includeName = some g → g.contents = "" →
      (f.trySearchPaths includeName).contents = "" →
      (f.m_defaultFileSystemLoader.getInclude requestingSourceDir includeName).contents = "" →
      ∃ r, f.getIncludeStandard XXHash_256 fuel requestingSourceDir includeName = some r ∧
        r.contents = "" ∧ r.hash = XXHash_256 "") ∧
    ((f.m_defaultFileSystemLoader.getInclude requestingSourceDir includeName).contents = "" →
      (f.trySearchPaths includeName).contents = "" →
      (f.getIncludeRelative XXHash_256 requestingSourceDir includeName).contents = "" ∧
      (f.getIncludeRelative XXHash_256 requestingSourceDir includeName).hash
        = XXHash_256 "") := by
  refine ⟨?_, rfl, ?_, ?_⟩
  · intro r hr
    simp only [CIncludeFinder.getIncludeStandard] at hr
    cases hg : f.tryIncludeGenerators fuel includeName with
    | none => simp [hg] at hr
    | some g =>
      simp only [hg, Option.some.injEq] at hr
      rw [← hr]
  · intro g hg h1 h2 h3
    refine ⟨_, getIncludeStandard_of_generators XXHash_256 fuel f requestingSourceDir
      includeName g hg, ?_, ?_⟩
    · simp [found_t.toBool, h1, h2, h3]
    · simp [found_t.toBool, h1, h2, h3]
  · intro h1 h2
    simp [CIncludeFinder.getIncludeRelative, found_t.toBool, h1, h2]

/-! ## The string comparison and the bisection -/

/-- The test `a.compare(b) > 0` holds exactly when `b` comes before `a` in the
lexicographic order of character sequences. -/
theorem compareGt_iff_lex (xs ys : List Char) :
    compareGt xs ys = true ↔ List.Lex (fun a b => a < b) ys xs := by
  induction xs generalizing ys with
  | nil => simp [compareGt, List.Lex.not_nil_right]
  | cons x xs ih =>
    cases ys with
    | nil => simp [compareGt, List.Lex.nil]
    | cons y ys =>
      simp only [compareGt]
      by_cases h1 : y < x
      · simp only [h1, if_true, true_iff]
        exact List.Lex.rel h1
      · by_cases h2 : x < y
        · simp only [h1, h2, if_true, if_false, Bool.false_eq_true, false_iff]
          intro hlex
          cases hlex with
          | cons h => exact lt_irrefl _ h2
          | rel h => exact h1 h
        · have hxy : x = y := le_antisymm (not_lt.1 h1) (not_lt.1 h2)
          subst hxy
          simp only [h1, if_false, ih, List.Lex.cons_iff]

/-- No string is greater than itself. -/
theorem compareGt_self (xs : List Char) : compareGt xs xs = false := by
  cases h : compareGt xs xs with
  | false => rfl
  | true =>
    exact absurd ((compareGt_iff_lex xs xs).1 h) (irrefl_of (List.Lex (fun a b : Char => a < b)) xs)

/-- The comparison is asymmetric. -/
theorem compareGt_asymm (xs ys : List Char) (h : compareGt xs ys = true) :
    compareGt ys xs = false := by
  cases h' : compareGt ys xs with
  | false => rfl
  | true =>
    exact absurd ((compareGt_iff_lex ys xs).1 h')
      (asymm_of (List.Lex (fun a b : Char => a < b)) ((compareGt_iff_lex xs ys).1 h))

/-- What is greater than `ys` is greater than everything that `ys` is not less than. -/
theorem compareGt_of_not_gt (xs ys zs : List Char) (h1 : compareGt xs ys = true)
    (h2 : compareGt xs zs = false) : compareGt zs ys = true := by
  rw [compareGt_iff_lex] at h1 ⊢
  rcases @IsOrderConnected.conn _ (List.Lex (fun a b : Char => a < b)) _ ys zs xs h1 with h | h
  · exact h
  · rw [← compareGt_iff_lex, h2] at h
    exact absurd h (by simp)

/-- Two strings neither of which is greater than the other are equal. -/
theorem eq_of_not_compareGt (a b : String) (h1 : compareGt a.toList b.toList = false)
    (h2 : compareGt b.toList a.toList = false) : a = b := by
  rcases @IsTrichotomous.trichotomous _ (List.Lex (fun x y : Char => x < y)) _
      a.toList b.toList with h | h | h
  · rw [← compareGt_iff_lex, h2] at h
    exact absurd h (by simp)
  · obtain ⟨l⟩ := a
    obtain ⟨m⟩ := b
    simp only [String.toList] at h
    rw [h]
  · rw [← compareGt_iff_lex, h1] at h
    exact absurd h (by simp)

/-- On a range whose elements up to index `k` send the bisection right and whose elements
from `k` on send it left, the bisection returns `k`. -/
theorem bisect_eq {α : Type} (goRight : α → Bool) (xs : List α) (fuel first len k : Nat)
    (hfuel : len ≤ fuel) (hbound : first + len ≤ xs.length)
    (hk1 : first ≤ k) (hk2 : k ≤ first + len)
    (hleft : ∀ i e, first ≤ i → i < k → xs[i]? = some e → goRight e = true)
    (hright : ∀ i e, k ≤ i → i < first + len → xs[i]? = some e → goRight e = false) :
    bisect goRight xs fuel first len = k := by
  induction fuel generalizing first len with
  | zero =>
    have : len = 0 := by omega
    subst this
    simp only [bisect]
    omega
  | succ n ih =>
    simp only [bisect]
    by_cases hlen : len = 0
    · simp only [hlen, if_true]
      omega
    · simp only [hlen, if_false]
      have hmid : first + len / 2 < xs.length := by
        have : len / 2 < len := Nat.div_lt_self (by omega) (by omega)
        omega
      rw [List.getElem?_eq_getElem hmid]
      simp only
      by_cases hgo : goRight xs[first + len / 2] = true
      · simp only [hgo, if_true]
        have hlt : first + len / 2 < k := by
          by_contra hge
          have := hright (first + len / 2) _ (by omega)
            (by have : len / 2 < len := Nat.div_lt_self (by omega) (by omega); omega)
            (List.getElem?_eq_getElem hmid)
          rw [hgo] at this
          exact absurd this (by simp)
        have hhalf : len / 2 < len := Nat.div_lt_self (by omega) (by omega)
        exact ih (first + len / 2 + 1) (len - len / 2 - 1) (by omega) (by omega) (by omega)
          (by omega) (fun i e h1 h2 h3 => hleft i e (by omega) h2 h3)
          (fun i e h1 h2 h3 => hright i e h1 (by omega) h3)
      · simp only [hgo, if_false, Bool.false_eq_true]
        have hge : k ≤ first + len / 2 := by
          by_contra hlt
          have := hleft (first + len / 2) _ (by omega) (by omega)
            (List.getElem?_eq_getElem hmid)
          exact hgo this
        have hhalf : len / 2 < len := Nat.div_lt_self (by omega) (by omega)
        exact ih first (len / 2) (by omega) (by omega) hk1 hge
          (fun i e h1 h2 h3 => hleft i e h1 h2 h3)
          (fun i e h1 h2 h3 => hright i e h1 (by omega) h3)

/-- The bisection over the part of a list behind `pre`, when that part consists of
elements that send it right followed by elements that send it left, returns the index of
the first of the latter. -/
theorem bisect_append {α : Type} (goRight : α → Bool) (pre l r : List α)
    (hl : ∀ e ∈ l, goRight e = true) (hr : ∀ e ∈ r, goRight e = false) :
    bisect goRight (pre ++ (l ++ r)) ((pre ++ (l ++ r)).length - pre.length) pre.length
      ((pre ++ (l ++ r)).length - pre.length) = pre.length + l.length := by
  apply bisect_eq goRight _ _ _ _ _ (Nat.le_refl _)
  · simp
  · omega
  · simp
  · intro i e h1 h2 h3
    rw [List.getElem?_append_right h1, List.getElem?_append_left (by omega)] at h3
    exact hl e (List.getElem?_mem h3)
  · intro i e h1 h2 h3
    rw [List.getElem?_append_right (by omega), List.getElem?_append_right (by omega)] at h3
    exact hr e (List.getElem?_mem h3)

/-! ## Properties of `addGenerator` -/

/-- In a list sorted in non-increasing order of the keys, the elements behind the leading
run of keys greater than `v` have keys not greater than `v`. -/
theorem dropWhile_not_compareGt {α : Type} (key : α → List Char) (v : List Char)
    (xs : List α)
    (hsorted : xs.Pairwise (fun a b => compareGt (key b) (key a) = false)) :
    ∀ e ∈ xs.dropWhile (fun a => compareGt (key a) v), compareGt (key e) v = false := by
  induction xs with
  | nil => simp
  | cons x rest ih =>
    rw [List.pairwise_cons] at hsorted
    by_cases hx : compareGt (key x) v = true
    · rw [List.dropWhile_cons_of_pos (p := fun a => compareGt (key a) v) hx]
      exact ih hsorted.2
    · rw [List.dropWhile_cons_of_neg (p := fun a => compareGt (key a) v) hx]
      intro e he
      rcases List.mem_cons.1 he with h | h
      · rw [h]; simpa using hx
      · cases hev : compareGt (key e) v with
        | false => rfl
        | true =>
          exact absurd (compareGt_of_not_gt (key e) v (key x) hev (hsorted.1 e h)) hx

/-- In a sorted generator list, `addGenerator` puts the new generator behind the leading
run of generators whose prefix is greater than its own, and before all others. -/
theorem addGenerator_some_eq (f : CIncludeFinder) (g : IIncludeGenerator)
    (hsorted : f.m_generators.Pairwise
      (fun a b => compareGt b.getPrefix.toList a.getPrefix.toList = false)) :
    (f.addGenerator (some g)).m_generators =
      f.m_generators.takeWhile
          (fun e => compareGt e.getPrefix.toList g.getPrefix.toList) ++
        g :: f.m_generators.dropWhile
          (fun e => compareGt e.getPrefix.toList g.getPrefix.toList) := by
  have hx := List.takeWhile_append_dropWhile
    (fun e : IIncludeGenerator => compareGt e.getPrefix.toList g.getPrefix.toList)
    f.m_generators
  have hb := bisect_append
    (fun e : IIncludeGenerator => compareGt e.getPrefix.toList g.getPrefix.toList) []
    (f.m_generators.takeWhile (fun e => compareGt e.getPrefix.toList g.getPrefix.toList))
    (f.m_generators.dropWhile (fun e => compareGt e.getPrefix.toList g.getPrefix.toList))
    (fun e he => List.mem_takeWhile_imp
      (p := fun e : IIncludeGenerator => compareGt e.getPrefix.toList g.getPrefix.toList) he)
    (dropWhile_not_compareGt (fun e : IIncludeGenerator => e.getPrefix.toList)
      g.getPrefix.toList f.m_generators hsorted)
  simp only [List.nil_append, List.length_nil, Nat.sub_zero, Nat.zero_add, hx] at hb
  have htake : f.m_generators.take
      (f.m_generators.takeWhile
        (fun e => compareGt e.getPrefix.toList g.getPrefix.toList)).length =
      f.m_generators.takeWhile
        (fun e => compareGt e.getPrefix.toList g.getPrefix.toList) := by
    calc f.m_generators.take _ = (f.m_generators.takeWhile
            (fun e => compareGt e.getPrefix.toList g.getPrefix.toList) ++
          f.m_generators.dropWhile
            (fun e => compareGt e.getPrefix.toList g.getPrefix.toList)).take _ := by rw [hx]
      _ = _ := List.take_left _ _
  have hdrop : f.m_generators.drop
      (f.m_generators.takeWhile
        (fun e => compareGt e.getPrefix.toList g.getPrefix.toList)).length =
      f.m_generators.dropWhile
        (fun e => compareGt e.getPrefix.toList g.getPrefix.toList) := by
    calc f.m_generators.drop _ = (f.m_generators.takeWhile
            (fun e => compareGt e.getPrefix.toList g.getPrefix.toList) ++
          f.m_generators.dropWhile
            (fun e => compareGt e.getPrefix.toList g.getPrefix.toList)).drop _ := by rw [hx]
      _ = _ := List.drop_left _ _
  simp only [CIncludeFinder.addGenerator, lower_bound, Nat.sub_zero, insertBefore, hb, htake,
    hdrop]

/-- `addGenerator` keeps a sorted generator list sorted. -/
theorem addGenerator_sorted (f : CIncludeFinder) (g : Option IIncludeGenerator)
    (hsorted : f.m_generators.Pairwise
      (fun a b => compareGt b.getPrefix.toList a.getPrefix.toList = false)) :
    (f.addGenerator g).m_generators.Pairwise
      (fun a b => compareGt b.getPrefix.toList a.getPrefix.toList = false) := by
  cases g with
  | none => exact hsorted
  | some g =>
    rw [addGenerator_some_eq f g hsorted]
    have hx := List.takeWhile_append_dropWhile
      (fun e : IIncludeGenerator => compareGt e.getPrefix.toList g.getPrefix.toList)
      f.m_generators
    rw [← hx, List.pairwise_append] at hsorted
    rw [List.pairwise_append, List.pairwise_cons]
    refine ⟨hsorted.1, ⟨?_, hsorted.2.1⟩, ?_⟩
    · exact dropWhile_not_compareGt (fun e : IIncludeGenerator => e.getPrefix.toList)
        g.getPrefix.toList f.m_generators (by rw [← hx, List.pairwise_append]; exact hsorted)
    · intro a ha b hb
      rcases List.mem_cons.1 hb with h | h
      · rw [h]
        exact compareGt_asymm _ _ (List.mem_takeWhile_imp
          (p := fun e : IIncludeGenerator => compareGt e.getPrefix.toList g.getPrefix.toList)
          ha)
      · exact hsorted.2.2 a ha b h

/-- `addGenerator` adds the generator it is given, once, and nothing else. -/
theorem addGenerator_perm (f : CIncludeFinder) (g : IIncludeGenerator)
    (hsorted : f.m_generators.Pairwise
      (fun a b => compareGt b.getPrefix.toList a.getPrefix.toList = false)) :
    (f.addGenerator (some g)).m_generators.Perm (g :: f.m_generators) := by
  rw [addGenerator_some_eq f g hsorted]
  have hx := List.takeWhile_append_dropWhile
    (fun e : IIncludeGenerator => compareGt e.getPrefix.toList g.getPrefix.toList)
    f.m_generators
  have := @List.perm_middle _ g
    (f.m_generators.takeWhile (fun e => compareGt e.getPrefix.toList g.getPrefix.toList))
    (f.m_generators.dropWhile (fun e => compareGt e.getPrefix.toList g.getPrefix.toList))
  rw [hx] at this
  exact this

/-- A sequence of `addGenerator` calls on a sorted generator list leaves a sorted list that
holds the generators of before and the non-null generators added. -/
theorem foldl_addGenerator (added : List (Option IIncludeGenerator)) (f : CIncludeFinder)
    (hsorted : f.m_generators.Pairwise
      (fun a b => compareGt b.getPrefix.toList a.getPrefix.toList = false)) :
    (added.foldl CIncludeFinder.addGenerator f).m_generators.Pairwise
      (fun a b => compareGt b.getPrefix.toList a.getPrefix.toList = false) ∧
    (added.foldl CIncludeFinder.addGenerator f).m_generators.Perm
      (f.m_generators ++ added.filterMap id) := by
  induction added generalizing f with
  | nil => simpa using hsorted
  | cons a rest ih =>
    obtain ⟨h1, h2⟩ := ih (f.addGenerator a) (addGenerator_sorted f a hsorted)
    refine ⟨h1, h2.trans ?_⟩
    cases a with
    | none => simp [CIncludeFinder.addGenerator]
    | some g =>
      have hp := addGenerator_perm f g hsorted
      simp only [List.filterMap_cons, id]
      exact (hp.append_right _).trans (List.perm_middle.symm)

/-- In a list with the pairwise relation `R`, an element at a smaller index is related to
an element at a greater index. -/
theorem pairwise_getElem? {α : Type} (R : α → α → Prop) (l : List α) (h : l.Pairwise R)
    (i j : Nat) (a b : α) (hi : l[i]? = some a) (hj : l[j]? = some b) (hij : i < j) :
    R a b := by
  obtain ⟨hi', rfl⟩ := List.getElem?_eq_some.1 hi
  obtain ⟨hj', rfl⟩ := List.getElem?_eq_some.1 hj
  exact List.pairwise_iff_getElem.1 h i j hi' hj' hij

/-- Claim C17. Starting from a finder without generators, after any sequence of
`addGenerator` calls the generator list holds exactly the non-null generators that were
added, each as often as it was added, and no prefix in it is less than a prefix behind it
in the lexicographic order of strings; so whatever lies between two generators of equal
prefix has that prefix too. `addGenerator` with a null generator changes nothing. -/
theorem addGenerator_sequence_sorted (f : CIncludeFinder) (h0 : f.m_generators = [])
    (added : List (Option IIncludeGenerator)) :
    (added.foldl CIncludeFinder.addGenerator f).m_generators.Perm (added.filterMap id) ∧
    (added.foldl CIncludeFinder.addGenerator f).m_generators.Pairwise
      (fun a b => ¬ List.Lex (fun x y => x < y) a.getPrefix.toList b.getPrefix.toList) ∧
    (∀ (i j k : Nat) (gi gj gk : IIncludeGenerator), i ≤ j → j ≤ k →
      (added.foldl CIncludeFinder.addGenerator f).m_generators[i]? = some gi →
      (added.foldl CIncludeFinder.addGenerator f).m_generators[j]? = some gj →
      (added.foldl CIncludeFinder.addGenerator f).m_generators[k]? = some gk →
      gi.getPrefix = gk.getPrefix → gj.getPrefix = gi.getPrefix) ∧
    (∀ f' : CIncludeFinder, f'.addGenerator none = f') := by
  obtain ⟨hsorted, hperm⟩ := foldl_addGenerator added f (by rw [h0]; exact List.Pairwise.nil)
  rw [h0, List.nil_append] at hperm
  refine ⟨hperm, ?_, ?_, fun _ => rfl⟩
  · refine hsorted.imp ?_
    intro a b hab hlex
    rw [← compareGt_iff_lex, hab] at hlex
    exact absurd hlex (by simp)
  · intro i j k gi gj gk hij hjk hi hj hk hik
    by_cases h1 : i = j
    · subst h1
      rw [hi] at hj
      rw [← Option.some.inj hj]
    · by_cases h2 : j = k
      · subst h2
        rw [hj] at hk
        rw [Option.some.inj hk, hik]
      · have r1 := pairwise_getElem? _ _ hsorted i j gi gj hi hj (by omega)
        have r2 := pairwise_getElem? _ _ hsorted j k gj gk hj hk (by omega)
        simp only at r1 r2
        rw [← hik] at r2
        exact eq_of_not_compareGt gj.getPrefix gi.getPrefix r1 r2

/-- Example for claim C17: four calls, one of them with a null generator, on a newly
constructed finder; the three generators are all there and their prefixes decrease. -/
theorem addGenerator_sequence_sorted_witness :
    ([some (constantGenerator "a" "A"), none, some (constantGenerator "b" "B"),
        some (constantGenerator "a/b" "AB")].foldl CIncludeFinder.addGenerator
      (CIncludeFinder.construct emptyLoader)).m_generators.Perm
      [constantGenerator "a" "A", constantGenerator "b" "B", constantGenerator "a/b" "AB"] ∧
    ([some (constantGenerator "a" "A"), none, some (constantGenerator "b" "B"),
        some (constantGenerator "a/b" "AB")].foldl CIncludeFinder.addGenerator
      (CIncludeFinder.construct emptyLoader)).m_generators.map (fun g => g.getPrefix)
      = ["b", "a/b", "a"] :=
  ⟨(addGenerator_sequence_sorted (CIncludeFinder.construct emptyLoader) rfl
      [some (constantGenerator "a" "A"), none, some (constantGenerator "b" "B"),
        some (constantGenerator "a/b" "AB")]).1, by decide⟩

/-! ## The path peeling walk over generators at the prefixes `a/b` and `a` -/

/-- `std::lower_bound` from behind `pre` to the end of a list whose remaining elements are
`l`, for which `comp(element, value)` holds, followed by `r`, for which it does not. -/
theorem lower_bound_eq {α β : Type} (xs pre l r : List α) (value : β) (comp : α → β → Bool)
    (hxs : xs = pre ++ (l ++ r)) (hl : ∀ e ∈ l, comp e value = true)
    (hr : ∀ e ∈ r, comp e value = false) :
    lower_bound xs pre.length xs.length value comp = pre.length + l.length := by
  subst hxs
  exact bisect_append (fun e => comp e value) pre l r hl hr

/-- `std::upper_bound` from behind `pre` to the end of a list whose remaining elements are
`l`, for which `comp(value, element)` does not hold, followed by `r`, for which it does. -/
theorem upper_bound_eq {α β : Type} (xs pre l r : List α) (value : β) (comp : β → α → Bool)
    (hxs : xs = pre ++ (l ++ r)) (hl : ∀ e ∈ l, comp value e = false)
    (hr : ∀ e ∈ r, comp value e = true) :
    upper_bound xs pre.length xs.length value comp = pre.length + l.length := by
  subst hxs
  exact bisect_append (fun e => !comp value e) pre l r
    (fun e he => by simp [hl e he]) (fun e he => by simp [hr e he])

/-- The `for` loop over a run followed by another run. -/
theorem tryGeneratorRange_append (includeName : String) (l₁ l₂ : List IIncludeGenerator) :
    tryGeneratorRange includeName (l₁ ++ l₂) =
      match tryGeneratorRange includeName l₁ with
      | (called, some contents) => (called, some contents)
      | (called, none) =>
        (called ++ (tryGeneratorRange includeName l₂).1,
          (tryGeneratorRange includeName l₂).2) := by
  induction l₁ with
  | nil => simp [tryGeneratorRange]
  | cons g rest ih =>
    simp only [List.cons_append, tryGeneratorRange]
    by_cases hg : (g.getInclude includeName).toBool = true
    · simp [hg]
    · simp only [hg, if_false, Bool.false_eq_true, List.append_eq]
      rw [ih]
      rcases tryGeneratorRange includeName rest with ⟨called, _ | contents⟩ <;> simp

/-- The `for` loop consults the generators of the run from its start on, one after the
other. -/
theorem tryGeneratorRange_isPrefix (includeName : String) (l : List IIncludeGenerator) :
    (tryGeneratorRange includeName l).1 <+: l := by
  induction l with
  | nil => simp [tryGeneratorRange]
  | cons g rest ih =>
    simp only [tryGeneratorRange]
    by_cases hg : (g.getInclude includeName).toBool = true
    · simp only [hg, if_true]
      exact ⟨rest, rfl⟩
    · simp only [hg, if_false, Bool.false_eq_true]
      obtain ⟨t, ht⟩ := ih
      exact ⟨t, by simp [ht]⟩

/-- The `for` loop runs through a whole run exactly when no generator of the run returns
contents, and it consults all of them then. -/
theorem tryGeneratorRange_none_iff (includeName : String) (l : List IIncludeGenerator) :
    ((tryGeneratorRange includeName l).2 = none ↔
      ∀ g ∈ l, (g.getInclude includeName).contents = "") ∧
    ((tryGeneratorRange includeName l).2 = none → (tryGeneratorRange includeName l).1 = l) ∧
    (∀ contents, (tryGeneratorRange includeName l).2 = some contents →
      contents.contents ≠ "") := by
  induction l with
  | nil => simp [tryGeneratorRange]
  | cons g rest ih =>
    simp only [tryGeneratorRange]
    by_cases hg : (g.getInclude includeName).toBool = true
    · have hne : (g.getInclude includeName).contents ≠ "" := by
        simpa [found_t.toBool] using hg
      simp only [hg, if_true]
      refine ⟨⟨fun h => by simp at h, fun h => absurd (h g (List.mem_cons_self _ _)) hne⟩,
        fun h => by simp at h, ?_⟩
      intro contents hc
      simp only [Option.some.injEq] at hc
      rw [← hc]
      exact hne
    · have he : (g.getInclude includeName).contents = "" := by
        simpa [found_t.toBool] using hg
      simp only [hg, if_false, Bool.false_eq_true]
      refine ⟨⟨fun h e hmem => ?_, fun h => ih.1.2 (fun e hmem =>
        h e (List.mem_cons_of_mem _ hmem))⟩, fun h => by rw [ih.2.1 h], ih.2.2⟩
      rcases List.mem_cons.1 hmem with h' | h'
      · rw [h']; exact he
      · exact ih.1.1 h e h'

/-- One iteration of the path peeling loop that is entered. -/
theorem peelLoop_iteration (m_generators : List IIncludeGenerator) (includeName : String)
    (fuel : Nat) (path : String) (endIt : Nat) (consulted : List IIncludeGenerator)
    (begin endNew : Nat) (range : List IIncludeGenerator)
    (hpath : path ≠ "") (hend : endIt ≠ m_generators.length)
    (hbegin : lower_bound m_generators endIt m_generators.length path
      (fun generator value =>
        compareGt (standardizePrefix generator.getPrefix).toList value.toList) = begin)
    (hendNew : upper_bound m_generators begin m_generators.length path
      (fun value generator =>
        compareGt value.toList (standardizePrefix generator.getPrefix).toList) = endNew)
    (hrange : (m_generators.drop begin).take (endNew - begin) = range) :
    peelLoop m_generators includeName (fuel + 1) path endIt consulted =
      match tryGeneratorRange includeName range with
      | (called, some contents) => some (consulted ++ called, contents)
      | (called, none) =>
        peelLoop m_generators includeName fuel (system.path.parent_path path) endNew
          (consulted ++ called) := by
  have hcond : (path != "" && system.path.root_name path == "" &&
      endIt != m_generators.length) = true := by
    simp [hpath, hend, system.path.root_name]
  simp only [peelLoop, hcond, if_true, hbegin, hendNew, hrange]

/-- The path peeling loop is left at once on an empty path or with all generators
passed. -/
theorem peelLoop_exit (m_generators : List IIncludeGenerator) (includeName : String)
    (fuel : Nat) (path : String) (endIt : Nat) (consulted : List IIncludeGenerator)
    (h : path = "" ∨ endIt = m_generators.length) :
    peelLoop m_generators includeName (fuel + 1) path endIt consulted
      = some (consulted, found_t.notFound) := by
  have hcond : (path != "" && system.path.root_name path == "" &&
      endIt != m_generators.length) = false := by
    rcases h with h | h <;> simp [h]
  simp only [peelLoop, hcond, Bool.false_eq_true, if_false]

/-- The walk for `a/b/c/x.glsl` over a generator list that consists of generators at the
prefix `a/b` followed by generators at the prefix `a`: the first iteration, for the path
`a/b/c`, finds an empty run; the second, for `a/b`, the run of the `a/b` generators; the
third, for `a`, the run of the `a` generators. Together the walk consults the list from
its start on until a generator returns contents. -/
theorem peelLoop_two_prefixes (AB A : List IIncludeGenerator)
    (hAB : ∀ g ∈ AB, g.getPrefix = "a/b") (hA : ∀ g ∈ A, g.getPrefix = "a") (fuel : Nat) :
    peelLoop (AB ++ A) "a/b/c/x.glsl" (fuel + 1 + 1 + 1 + 1) "a/b/c" 0 [] =
      some ((tryGeneratorRange "a/b/c/x.glsl" (AB ++ A)).1,
        ((tryGeneratorRange "a/b/c/x.glsl" (AB ++ A)).2).getD found_t.notFound) := by
  by_cases hnil : AB ++ A = []
  · rw [hnil, peelLoop_exit [] "a/b/c/x.glsl" (fuel + 1 + 1 + 1) "a/b/c" 0 [] (Or.inr rfl)]
    simp [tryGeneratorRange]
  · have hlen : (0 : Nat) ≠ (AB ++ A).length := by
      intro h
      exact hnil (List.length_eq_zero.1 h.symm)
    -- first iteration: path `a/b/c`
    have hb1 : lower_bound (AB ++ A) 0 (AB ++ A).length "a/b/c"
        (fun generator value =>
          compareGt (standardizePrefix generator.getPrefix).toList value.toList) = 0 := by
      have := lower_bound_eq (AB ++ A) [] [] (AB ++ A) "a/b/c"
        (fun generator value =>
          compareGt (standardizePrefix generator.getPrefix).toList value.toList) rfl
        (by simp)
        (by
          intro e he
          rcases List.mem_append.1 he with h | h
          · simp only [hAB e h]; decide
          · simp only [hA e h]; decide)
      simpa using this
    have he1 : upper_bound (AB ++ A) 0 (AB ++ A).length "a/b/c"
        (fun value generator =>
          compareGt value.toList (standardizePrefix generator.getPrefix).toList) = 0 := by
      have := upper_bound_eq (AB ++ A) [] [] (AB ++ A) "a/b/c"
        (fun value generator =>
          compareGt value.toList (standardizePrefix generator.getPrefix).toList) rfl
        (by simp)
        (by
          intro e he
          rcases List.mem_append.1 he with h | h
          · simp only [hAB e h]; decide
          · simp only [hA e h]; decide)
      simpa using this
    rw [peelLoop_iteration (AB ++ A) "a/b/c/x.glsl" (fuel + 1 + 1 + 1) "a/b/c" 0 [] 0 0 []
      (by decide) hlen hb1 he1 (by simp)]
    simp only [tryGeneratorRange, List.append_nil]
    have hp1 : system.path.parent_path "a/b/c" = "a/b" := by decide
    rw [hp1]
    -- second iteration: path `a/b`
    have hb2 : lower_bound (AB ++ A) 0 (AB ++ A).length "a/b"
        (fun generator value =>
          compareGt (standardizePrefix generator.getPrefix).toList value.toList) = 0 := by
      have := lower_bound_eq (AB ++ A) [] [] (AB ++ A) "a/b"
        (fun generator value =>
          compareGt (standardizePrefix generator.getPrefix).toList value.toList) rfl
        (by simp)
        (by
          intro e he
          rcases List.mem_append.1 he with h | h
          · simp only [hAB e h]; decide
          · simp only [hA e h]; decide)
      simpa using this
    have he2 : upper_bound (AB ++ A) 0 (AB ++ A).length "a/b"
        (fun value generator =>
          compareGt value.toList (standardizePrefix generator.getPrefix).toList)
        = AB.length := by
      have := upper_bound_eq (AB ++ A) [] AB A "a/b"
        (fun value generator =>
          compareGt value.toList (standardizePrefix generator.getPrefix).toList) rfl
        (by intro e he; simp only [hAB e he]; decide)
        (by intro e he; simp only [hA e he]; decide)
      simpa using this
    rw [peelLoop_iteration (AB ++ A) "a/b/c/x.glsl" (fuel + 1 + 1) "a/b" 0 [] 0 AB.length AB
      (by decide) hlen hb2 he2 (by simp)]
    rw [tryGeneratorRange_append]
    rcases hrun : tryGeneratorRange "a/b/c/x.glsl" AB with ⟨called, _ | contents⟩
    · -- no `a/b` generator returned contents; third iteration: path `a`
      simp only [List.nil_append]
      have hp2 : system.path.parent_path "a/b" = "a" := by decide
      rw [hp2]
      by_cases hAnil : A = []
      · subst hAnil
        rw [peelLoop_exit _ _ _ _ _ _ (Or.inr (by simp))]
        simp [tryGeneratorRange]
      · have hlen3 : AB.length ≠ (AB ++ A).length := by
          have : 0 < A.length := List.length_pos.2 hAnil
          simp only [List.length_append]
          omega
        have hb3 : lower_bound (AB ++ A) AB.length (AB ++ A).length "a"
            (fun generator value =>
              compareGt (standardizePrefix generator.getPrefix).toList value.toList)
            = AB.length := by
          have := lower_bound_eq (AB ++ A) AB [] A "a"
            (fun generator value =>
              compareGt (standardizePrefix generator.getPrefix).toList value.toList)
            (by simp) (by simp)
            (by intro e he; simp only [hA e he]; decide)
          simpa using this
        have he3 : upper_bound (AB ++ A) AB.length (AB ++ A).length "a"
            (fun value generator =>
              compareGt value.toList (standardizePrefix generator.getPrefix).toList)
            = AB.length + A.length := by
          have := upper_bound_eq (AB ++ A) AB A [] "a"
            (fun value generator =>
              compareGt value.toList (standardizePrefix generator.getPrefix).toList)
            (by simp)
            (by intro e he; simp only [hA e he]; decide)
            (by simp)
          simpa using this
        rw [peelLoop_iteration (AB ++ A) "a/b/c/x.glsl" (fuel + 1) "a" AB.length called
          AB.length (AB.length + A.length) A (by decide) hlen3 hb3 he3 (by simp)]
        rcases hrun2 : tryGeneratorRange "a/b/c/x.glsl" A with ⟨called₂, _ | contents₂⟩
        · simp only
          have hp3 : system.path.parent_path "a" = "" := by decide
          rw [hp3, peelLoop_exit _ _ _ _ _ _ (Or.inl rfl)]
          simp
        · simp
    · simp

/-- A sorted generator list all of whose prefixes are `a/b` or `a` consists of the
generators at `a/b` followed by the generators at `a`. -/
theorem generators_split_two_prefixes (gens : List IIncludeGenerator)
    (hsorted : gens.Pairwise
      (fun a b => compareGt b.getPrefix.toList a.getPrefix.toList = false))
    (hpfx : ∀ g ∈ gens, g.getPrefix = "a/b" ∨ g.getPrefix = "a") :
    ∃ AB A, gens = AB ++ A ∧ (∀ g ∈ AB, g.getPrefix = "a/b") ∧
      (∀ g ∈ A, g.getPrefix = "a") := by
  refine ⟨gens.takeWhile (fun g => compareGt g.getPrefix.toList "a".toList),
    gens.dropWhile (fun g => compareGt g.getPrefix.toList "a".toList),
    (List.takeWhile_append_dropWhile _ _).symm, ?_, ?_⟩
  · intro g hg
    have hgt := List.mem_takeWhile_imp
      (p := fun g : IIncludeGenerator => compareGt g.getPrefix.toList "a".toList) hg
    rcases hpfx g ((List.takeWhile_prefix _).subset hg) with h | h
    · exact h
    · simp only [h] at hgt
      exact absurd hgt (by decide)
  · intro g hg
    have hngt := dropWhile_not_compareGt (fun e : IIncludeGenerator => e.getPrefix.toList)
      "a".toList gens hsorted g hg
    rcases hpfx g ((List.dropWhile_suffix _).subset hg) with h | h
    · simp only [h] at hngt
      exact absurd hngt (by decide)
    · exact h

/-- The non-null entries of a list of non-null entries are the entries. -/
theorem filterMap_id_map_some {α : Type} (l : List α) : (l.map some).filterMap id = l := by
  induction l with
  | nil => rfl
  | cons a rest ih => simp only [List.map_cons, List.filterMap_cons, id, ih]

/-- Claim C16. Take a finder without generators and register, in any order, any number of
generators at the prefixes `a/b` and `a`. The generator list then holds the `a/b`
generators `AB` followed by the `a` generators `A`, and `tryIncludeGenerators` for
`a/b/c/x.glsl` consults this list from its start until a generator returns contents: when
some `a/b` generator returns contents, only `a/b` generators are consulted; an `a`
generator is consulted only after every `a/b` generator was consulted and returned empty
contents. Four iterations of the path peeling loop are enough. -/
theorem tryIncludeGenerators_longest_prefix_first (f : CIncludeFinder)
    (h0 : f.m_generators = []) (added : List IIncludeGenerator)
    (hpfx : ∀ g ∈ added, g.getPrefix = "a/b" ∨ g.getPrefix = "a")
    (fuel : Nat) (hfuel : 4 ≤ fuel) :
    ∃ (AB A consulted : List IIncludeGenerator) (result : found_t),
      ((added.map some).foldl CIncludeFinder.addGenerator f).m_generators = AB ++ A ∧
      (AB ++ A).Perm added ∧
      (∀ g ∈ AB, g.getPrefix = "a/b") ∧ (∀ g ∈ A, g.getPrefix = "a") ∧
      ((added.map some).foldl CIncludeFinder.addGenerator f).tryIncludeGeneratorsRun fuel
        "a/b/c/x.glsl" = some (consulted, result) ∧
      ((added.map some).foldl CIncludeFinder.addGenerator f).tryIncludeGenerators fuel
        "a/b/c/x.glsl" = some result ∧
      consulted = (tryGeneratorRange "a/b/c/x.glsl" (AB ++ A)).1 ∧
      result = ((tryGeneratorRange "a/b/c/x.glsl" (AB ++ A)).2).getD found_t.notFound ∧
      ((∃ g ∈ AB, (g.getInclude "a/b/c/x.glsl").contents ≠ "") →
        consulted <+: AB ∧ result.contents ≠ "") ∧
      ((∀ g ∈ AB, (g.getInclude "a/b/c/x.glsl").contents = "") →
        ∃ called, consulted = AB ++ called ∧ called <+: A) := by
  obtain ⟨hsorted, hperm⟩ := foldl_addGenerator (added.map some) f
    (by rw [h0]; exact List.Pairwise.nil)
  have hadded : (added.map some).filterMap id = added := filterMap_id_map_some added
  rw [h0, List.nil_append, hadded] at hperm
  obtain ⟨AB, A, hsplit, hAB, hA⟩ := generators_split_two_prefixes _ hsorted
    (fun g hg => hpfx g (hperm.mem_iff.1 hg))
  obtain ⟨k, rfl⟩ : ∃ k, fuel = k + 1 + 1 + 1 + 1 := ⟨fuel - 4, by omega⟩
  have hstart : system.path.parent_path (removeExtension "a/b/c/x.glsl") = "a/b/c" := by
    decide
  have hrun : ((added.map some).foldl CIncludeFinder.addGenerator f).tryIncludeGeneratorsRun
      (k + 1 + 1 + 1 + 1) "a/b/c/x.glsl" =
      some ((tryGeneratorRange "a/b/c/x.glsl" (AB ++ A)).1,
        ((tryGeneratorRange "a/b/c/x.glsl" (AB ++ A)).2).getD found_t.notFound) := by
    simp only [CIncludeFinder.tryIncludeGeneratorsRun, hstart, hsplit]
    exact peelLoop_two_prefixes AB A hAB hA k
  refine ⟨AB, A, _, _, hsplit, hsplit ▸ hperm, hAB, hA, hrun,
    by simp only [CIncludeFinder.tryIncludeGenerators, hrun, Option.map_some'], rfl, rfl,
    ?_, ?_⟩
  · rintro ⟨g, hg, hne⟩
    have hnone := tryGeneratorRange_none_iff "a/b/c/x.glsl" AB
    rw [tryGeneratorRange_append]
    rcases hr : tryGeneratorRange "a/b/c/x.glsl" AB with ⟨called, _ | contents⟩
    · rw [hr] at hnone
      exact absurd (hnone.1.1 rfl g hg) hne
    · have hp := tryGeneratorRange_isPrefix "a/b/c/x.glsl" AB
      rw [hr] at hnone hp
      exact ⟨hp, by simpa using hnone.2.2 contents rfl⟩
  · intro hall
    have hnone := tryGeneratorRange_none_iff "a/b/c/x.glsl" AB
    have h2 := hnone.1.2 hall
    have h1 := hnone.2.1 h2
    rw [tryGeneratorRange_append]
    rcases hr : tryGeneratorRange "a/b/c/x.glsl" AB with ⟨called, _ | contents⟩
    · rw [hr] at h1
      simp only at h1
      subst h1
      exact ⟨_, rfl, tryGeneratorRange_isPrefix "a/b/c/x.glsl" A⟩
    · rw [hr] at h2
      exact absurd h2 (by simp)

/-- Example for claim C16: an `a/b` generator that produces nothing and an `a` generator
that produces text, registered in either order: the `a/b` generator is consulted first,
the `a` generator second. With an `a/b` generator that produces text, the `a` generator is
not consulted. -/
theorem tryIncludeGenerators_longest_prefix_first_witness :
    (∃ consulted result,
      (([constantGenerator "a" "// from a", constantGenerator "a/b" ""].map some).foldl
          CIncludeFinder.addGenerator
          (CIncludeFinder.construct emptyLoader)).tryIncludeGeneratorsRun 4 "a/b/c/x.glsl"
        = some (consulted, result)) ∧
    ((([constantGenerator "a" "// from a", constantGenerator "a/b" ""].map some).foldl
        CIncludeFinder.addGenerator
        (CIncludeFinder.construct emptyLoader)).tryIncludeGeneratorsRun 4 "a/b/c/x.glsl").map
      (fun run => (run.1.map (fun g => g.getPrefix), run.2.contents))
      = some (["a/b", "a"], "// from a") ∧
    ((([constantGenerator "a/b" "", constantGenerator "a" "// from a"].map some).foldl
        CIncludeFinder.addGenerator
        (CIncludeFinder.construct emptyLoader)).tryIncludeGeneratorsRun 4 "a/b/c/x.glsl").map
      (fun run => (run.1.map (fun g => g.getPrefix), run.2.contents))
      = some (["a/b", "a"], "// from a") ∧
    ((([constantGenerator "a" "// from a", constantGenerator "a/b" "// from a/b"].map
        some).foldl CIncludeFinder.addGenerator
        (CIncludeFinder.construct emptyLoader)).tryIncludeGeneratorsRun 4 "a/b/c/x.glsl").map
      (fun run => (run.1.map (fun g => g.getPrefix), run.2.contents))
      = some (["a/b"], "// from a/b") := by
  refine ⟨?_, by decide, by decide, by decide⟩
  obtain ⟨_, _, consulted, result, _, _, _, _, hrun, _⟩ :=
    tryIncludeGenerators_longest_prefix_first (CIncludeFinder.construct emptyLoader) rfl
      [constantGenerator "a" "// from a", constantGenerator "a/b" ""] (by decide) 4
      (by decide)
  exact ⟨consulted, result, hrun⟩

/-- Example for claims C13 to C15: in `exampleFinder` the generator at `nbl` is consulted
for `nbl/common.glsl` and produces nothing, so the standard resolution returns what the
search path entry holds, with the digest of these contents as hash; the relative
resolution returns the same, and a name that nothing resolves comes back with empty
contents and the digest of the empty string. -/
theorem getIncludeStandard_resolution_order_witness :
    (∃ r, exampleFinder.getIncludeStandard lengthDigest 4 "src" "nbl/common.glsl" = some r) ∧
    (exampleFinder.tryIncludeGeneratorsRun 4 "nbl/common.glsl").map
      (fun run => (run.1.map (fun g => g.getPrefix), run.2.contents)) = some (["nbl"], "") ∧
    exampleFinder.getIncludeStandard lengthDigest 4 "src" "nbl/common.glsl"
      = some { absolutePath := "inc/nbl/common.glsl", contents := "// common", hash := 9 } ∧
    exampleFinder.getIncludeRelative lengthDigest "src" "nbl/common.glsl"
      = { absolutePath := "inc/nbl/common.glsl", contents := "// common", hash := 9 } ∧
    exampleFinder.getIncludeStandard lengthDigest 4 "src" "nbl/missing.glsl"
      = some { absolutePath := "", contents := "", hash := 0 } :=
  ⟨(getIncludeStandard_resolution_order lengthDigest 4 exampleFinder "src"
      "nbl/common.glsl").2.2 (by decide) (by decide),
    by decide, by decide, by decide, by decide⟩

/-! ## Properties of `IIncludeGenerator::getInclude` -/

/-- The scan of `getInclude` skips the pairs in front of the first one whose pattern matches
and whose producer answers with a non-empty text, and returns at that pair. -/
theorem getIncludeFrom_append_cons (includeName : String)
    (pre post : List ((String → Bool) × (String → String)))
    (pair : (String → Bool) × (String → String))
    (hpre : ∀ p ∈ pre, p.1 includeName = false ∨ p.2 includeName = "")
    (hmatch : pair.1 includeName = true) (hcontents : pair.2 includeName ≠ "") :
    IIncludeGenerator.getIncludeFrom includeName (pre ++ pair :: post) =
      { absolutePath := includeName, contents := pair.2 includeName, hash := 0 } := by
  induction pre with
  | nil => simp [IIncludeGenerator.getIncludeFrom, hmatch, hcontents]
  | cons p rest ih =>
    have hrest := ih (fun q hq => hpre q (List.mem_cons_of_mem _ hq))
    rcases hpre p (List.mem_cons_self _ _) with h | h
    · simp [IIncludeGenerator.getIncludeFrom, h, hrest]
    · simp [IIncludeGenerator.getIncludeFrom, h, hrest]

/-- The scan of `getInclude` ends in the not-found value exactly when no pair has a matching
pattern together with a non-empty product. -/
theorem getIncludeFrom_notFound_iff (includeName : String)
    (mapping : List ((String → Bool) × (String → String))) :
    IIncludeGenerator.getIncludeFrom includeName mapping = found_t.notFound ↔
      ∀ p ∈ mapping, p.1 includeName = false ∨ p.2 includeName = "" := by
  induction mapping with
  | nil => simp [IIncludeGenerator.getIncludeFrom]
  | cons p rest ih =>
    by_cases h1 : p.1 includeName = true
    · by_cases h2 : p.2 includeName = ""
      · simp [IIncludeGenerator.getIncludeFrom, h1, h2, ih]
      · simp [IIncludeGenerator.getIncludeFrom, h1, h2, found_t.notFound]
    · simp only [Bool.not_eq_true] at h1
      simp [IIncludeGenerator.getIncludeFrom, h1, ih]

/-- Claim C22. For every include name and every mapping, `IIncludeGenerator::getInclude`
returns the include name as resolved path and, as contents, the product of the first pair
in mapping order whose pattern matches the name and whose producer answers with a
non-empty text; pairs in front of it that do not match, or that match and produce the
empty text, are passed over. It returns the not-found value exactly when the mapping has
no pair that matches and produces a non-empty text. -/
theorem generator_getInclude_first_nonempty (g : IIncludeGenerator) (includeName : String) :
    (∀ (pre post : List ((String → Bool) × (String → String)))
        (pair : (String → Bool) × (String → String)),
      g.getBuiltinNamesToFunctionMapping = pre ++ pair :: post →
      (∀ p ∈ pre, p.1 includeName = false ∨ p.2 includeName = "") →
      pair.1 includeName = true → pair.2 includeName ≠ "" →
      g.getInclude includeName =
        { absolutePath := includeName, contents := pair.2 includeName, hash := 0 }) ∧
    (g.getInclude includeName = found_t.notFound ↔
      ∀ p ∈ g.getBuiltinNamesToFunctionMapping,
        p.1 includeName = false ∨ p.2 includeName = "") := by
  refine ⟨?_, ?_⟩
  · intro pre post pair hsplit hpre hmatch hcontents
    simp only [IIncludeGenerator.getInclude, hsplit]
    exact getIncludeFrom_append_cons includeName pre post pair hpre hmatch hcontents
  · exact getIncludeFrom_notFound_iff includeName g.getBuiltinNamesToFunctionMapping

/-! ## Properties of `matrix4SIMD::getTranslation` and `getTranslation3D` -/

/-- Claim C24. `matrix4SIMD::getTranslation` returns the `w` lanes of the rows in the
order 2, 3, 0, 1 and not in the order 0, 1, 2, 3 of the last column: for the matrix with
the last column (5, 6, 7, 1) it returns (7, 1, 5, 6). -/
theorem getTranslation_lanes :
    (∀ m : matrix4SIMD, m.getTranslation =
      ⟨(m.rows 2).w, (m.rows 3).w, (m.rows 0).w, (m.rows 1).w⟩) ∧
    exampleMatrix.getTranslation = ⟨7, 1, 5, 6⟩ ∧
    exampleMatrix.getTranslation ≠
      ⟨(exampleMatrix.rows 0).w, (exampleMatrix.rows 1).w, (exampleMatrix.rows 2).w,
        (exampleMatrix.rows 3).w⟩ := by
  refine ⟨fun m => rfl, by decide, by decide⟩

/-- Claim C25. `matrix4SIMD::getTranslation3D` returns the lanes
(`rows[2].w`, 0, `rows[0].w`, `rows[1].w`): its `w` lane is the `w` lane of the second row
and not 0, and the zero lane sits in `y`. For the matrix with the last column (5, 6, 7, 1)
it returns (7, 0, 5, 6), where the translation part is (5, 6, 7, 0). -/
theorem getTranslation3D_lanes :
    (∀ m : matrix4SIMD, m.getTranslation3D =
      ⟨(m.rows 2).w, 0, (m.rows 0).w, (m.rows 1).w⟩) ∧
    exampleMatrix.getTranslation3D = ⟨7, 0, 5, 6⟩ ∧
    exampleMatrix.getTranslation3D.w ≠ 0 ∧
    exampleMatrix.getTranslation3D ≠
      ⟨(exampleMatrix.rows 0).w, (exampleMatrix.rows 1).w, (exampleMatrix.rows 2).w, 0⟩ := by
  refine ⟨fun m => rfl, by decide, by decide, by decide⟩

/-! ## Properties of `CToneMapper::registerBuiltinGLSLIncludes` -/

/-- Once the latch is set, no sequence of further calls changes the state. -/
theorem foldl_register_of_latch (calls : List (Option Nat)) (st : ToneMapperState)
    (h : st.addedBuiltinHeader = true) :
    calls.foldl CToneMapper.registerBuiltinGLSLIncludes st = st := by
  induction calls with
  | nil => rfl
  | cons call rest ih =>
    simp only [List.foldl_cons]
    have hstep : CToneMapper.registerBuiltinGLSLIncludes st call = st := by
      simp [CToneMapper.registerBuiltinGLSLIncludes, h]
    rw [hstep, ih]

/-- Calls with a null compiler leave a state with an open latch as it is. -/
theorem foldl_register_of_null (calls : List (Option Nat)) (st : ToneMapperState)
    (h : ∀ call ∈ calls, call = none) :
    calls.foldl CToneMapper.registerBuiltinGLSLIncludes st = st := by
  induction calls with
  | nil => rfl
  | cons call rest ih =>
    simp only [List.foldl_cons]
    have hcall : call = none := h call (List.mem_cons_self _ _)
    have hstep : CToneMapper.registerBuiltinGLSLIncludes st call = st := by
      subst hcall
      by_cases hl : st.addedBuiltinHeader = true
      · simp [CToneMapper.registerBuiltinGLSLIncludes, hl]
      · simp [CToneMapper.registerBuiltinGLSLIncludes, hl]
    rw [hstep]
    exact ih (fun c hc => h c (List.mem_cons_of_mem _ hc))

/-- Claim C28. Over any sequence of calls of `registerBuiltinGLSLIncludes` from program
start, `addBuiltinIncludeLoader` is called at most once. When the sequence has a call with
a non-null compiler, the one call goes to the compiler of the first such call and the latch
is set, whatever calls follow; when it has none, no loader is added and the latch stays
open. A single call with a null compiler changes nothing, so it does not set the latch, and
a single call made with the latch set changes nothing. -/
theorem registerBuiltinGLSLIncludes_once :
    (∀ calls : List (Option Nat),
      (CToneMapper.afterCalls calls).addBuiltinIncludeLoaderCalls.length ≤ 1) ∧
    (∀ (pre post : List (Option Nat)) (compiler : Nat), (∀ call ∈ pre, call = none) →
      CToneMapper.afterCalls (pre ++ some compiler :: post) = ⟨true, [compiler]⟩) ∧
    (∀ calls : List (Option Nat), (∀ call ∈ calls, call = none) →
      CToneMapper.afterCalls calls = ⟨false, []⟩) ∧
    (∀ st : ToneMapperState, CToneMapper.registerBuiltinGLSLIncludes st none = st) ∧
    (∀ (st : ToneMapperState) (compiler : Option Nat), st.addedBuiltinHeader = true →
      CToneMapper.registerBuiltinGLSLIncludes st compiler = st) := by
  have hfirst : ∀ (pre post : List (Option Nat)) (compiler : Nat),
      (∀ call ∈ pre, call = none) →
      CToneMapper.afterCalls (pre ++ some compiler :: post) = ⟨true, [compiler]⟩ := by
    intro pre post compiler hpre
    simp only [CToneMapper.afterCalls, List.foldl_append, List.foldl_cons]
    rw [foldl_register_of_null pre _ hpre]
    exact foldl_register_of_latch post _ rfl
  have hnull : ∀ calls : List (Option Nat), (∀ call ∈ calls, call = none) →
      CToneMapper.afterCalls calls = ⟨false, []⟩ := by
    intro calls h
    exact foldl_register_of_null calls _ h
  refine ⟨?_, hfirst, hnull, ?_, ?_⟩
  · intro calls
    by_cases hall : ∀ call ∈ calls, call = none
    · rw [hnull calls hall]
      simp
    · have hsplit : ∃ (pre post : List (Option Nat)) (compiler : Nat),
          calls = pre ++ some compiler :: post ∧ ∀ call ∈ pre, call = none := by
        clear hfirst hnull
        induction calls with
        | nil => exact absurd (fun _ h => absurd h (List.not_mem_nil _)) hall
        | cons call rest ih =>
          cases call with
          | some compiler =>
            exact ⟨[], rest, compiler, rfl, fun _ h => absurd h (List.not_mem_nil _)⟩
          | none =>
            have hrest : ¬ ∀ call ∈ rest, call = none := by
              intro h
              apply hall
              intro c hc
              rcases List.mem_cons.mp hc with h1 | h1
              · exact h1
              · exact h c h1
            obtain ⟨pre, post, compiler, heq, hpre⟩ := ih hrest
            refine ⟨none :: pre, post, compiler, by rw [heq]; rfl, ?_⟩
            intro c hc
            rcases List.mem_cons.mp hc with h1 | h1
            · exact h1
            · exact hpre c h1
      obtain ⟨pre, post, compiler, heq, hpre⟩ := hsplit
      rw [heq, hfirst pre post compiler hpre]
      simp
  · intro st
    by_cases hl : st.addedBuiltinHeader = true
    · simp [CToneMapper.registerBuiltinGLSLIncludes, hl]
    · simp [CToneMapper.registerBuiltinGLSLIncludes, hl]
  · intro st compiler h
    simp [CToneMapper.registerBuiltinGLSLIncludes, h]

/-! ## Properties of `parseArgumentsFromPath` -/

/-- The loop of `parseArgumentsFromPath` yields no argument exactly when it is entered
between two calls of `getline` with the stream at its end. -/
theorem getlineLoop_eq_nil_iff (extracted : Bool) (arg ss : List Char) :
    getlineLoop extracted arg ss = [] ↔ extracted = false ∧ ss = [] := by
  induction ss generalizing extracted arg with
  | nil => cases extracted <;> simp [getlineLoop]
  | cons ch rest ih =>
    by_cases h : ch = '/'
    · simp [getlineLoop, h]
    · simp [getlineLoop, h, ih]

/-- No argument stored by the loop of `parseArgumentsFromPath` contains the delimiter. -/
theorem getlineLoop_no_delimiter (extracted : Bool) (arg ss : List Char)
    (harg : '/' ∉ arg) : ∀ s ∈ getlineLoop extracted arg ss, '/' ∉ s.toList := by
  induction ss generalizing extracted arg with
  | nil =>
    intro s hs
    cases extracted
    · simp [getlineLoop] at hs
    · simp only [getlineLoop, if_true, List.mem_singleton] at hs
      rw [hs]
      exact harg
  | cons ch rest ih =>
    intro s hs
    by_cases h : ch = '/'
    · simp only [getlineLoop, h, if_true, List.mem_cons] at hs
      rcases hs with hs | hs
      · rw [hs]
        exact harg
      · exact ih false [] (by simp) s hs
    · simp only [getlineLoop, h, if_false] at hs
      refine ih true (arg ++ [ch]) ?_ s hs
      simp only [List.mem_append, List.mem_singleton, not_or]
      exact ⟨harg, fun h' => h h'.symm⟩

/-- A character in front of a non-empty stream does not change which delimiter is the
final one. -/
theorem withoutFinalDelimiter_cons (ch : Char) (ss : List Char) (h : ss ≠ []) :
    withoutFinalDelimiter (ch :: ss) = ch :: withoutFinalDelimiter ss := by
  obtain ⟨c, rest, rfl⟩ := List.exists_cons_of_ne_nil h
  simp only [withoutFinalDelimiter, List.getLast?_cons_cons, List.dropLast_cons₂]
  split <;> rfl

/-- Characters in front of a non-empty stream do not change which delimiter is the final
one. -/
theorem withoutFinalDelimiter_append (arg ss : List Char) (h : ss ≠ []) :
    withoutFinalDelimiter (arg ++ ss) = arg ++ withoutFinalDelimiter ss := by
  induction arg with
  | nil => rfl
  | cons ch rest ih =>
    rw [List.cons_append, withoutFinalDelimiter_cons ch (rest ++ ss) (by simp [h]), ih]
    rfl

/-- Joining the arguments stored by the loop of `parseArgumentsFromPath` with the delimiter
gives the characters the running call of `getline` has stored, followed by the characters
left in the stream except for a delimiter at the very end of the stream. -/
theorem getlineLoop_intercalate (extracted : Bool) (arg ss : List Char)
    (harg : '/' ∉ arg) (hextracted : extracted = false → arg = []) :
    ['/'].intercalate ((getlineLoop extracted arg ss).map String.toList) =
      withoutFinalDelimiter (arg ++ ss) := by
  induction ss generalizing extracted arg with
  | nil =>
    have hlast : (arg ++ []).getLast? ≠ some '/' := by
      intro h
      rw [List.append_nil] at h
      exact harg (List.mem_of_getLast?_eq_some h)
    cases extracted
    · simp [getlineLoop, hextracted rfl, withoutFinalDelimiter, List.intercalate]
    · simp only [withoutFinalDelimiter, hlast, if_false]
      simp [getlineLoop, List.intercalate]
  | cons ch rest ih =>
    by_cases h : ch = '/'
    · subst h
      simp only [getlineLoop, if_true, List.map_cons]
      by_cases hrest : rest = []
      · subst hrest
        simp [getlineLoop, List.intercalate, withoutFinalDelimiter]
      · have hne : getlineLoop false [] rest ≠ [] := by
          intro hnil
          exact hrest ((getlineLoop_eq_nil_iff false [] rest).mp hnil).2
        obtain ⟨s, more, hs⟩ := List.exists_cons_of_ne_nil hne
        have ih' := ih false [] (by simp) (fun _ => rfl)
        rw [hs] at ih' ⊢
        simp only [List.nil_append] at ih'
        rw [withoutFinalDelimiter_append arg ('/' :: rest) (by simp),
          withoutFinalDelimiter_cons '/' rest hrest, ← ih']
        simp [List.intercalate]
    · simp only [getlineLoop, h, if_false]
      rw [ih true (arg ++ [ch]) ?_ (by simp)]
      · simp
      · simp only [List.mem_append, List.mem_singleton, not_or]
        exact ⟨harg, fun h' => h h'.symm⟩

/-- One call of `std::getline` in terms of the character-wise reading: the running call
stores the characters in front of the next delimiter behind what it has stored, and the
reading goes on behind that delimiter. -/
theorem getlineLoop_step (extracted : Bool) (arg ss : List Char)
    (h : extracted = true ∨ ss ≠ []) :
    getlineLoop extracted arg ss =
      String.mk (arg ++ ss.takeWhile (fun ch => ch != '/')) ::
        getlineLoop false [] ((ss.dropWhile (fun ch => ch != '/')).drop 1) := by
  induction ss generalizing extracted arg with
  | nil =>
    rcases h with h | h
    · simp [getlineLoop, h]
    · exact absurd rfl h
  | cons ch rest ih =>
    by_cases hch : ch = '/'
    · simp [getlineLoop, hch]
    · rw [getlineLoop, if_neg hch, ih true (arg ++ [ch]) (Or.inl rfl)]
      simp [hch]

/-- The loop of `parseArgumentsFromPath` finishes within one iteration per character left
in the stream and one more, and it appends to `args` the arguments of the character-wise
reading. -/
theorem parseArgumentsLoop_eq (fuel : Nat) (ss : List Char) (args : List String)
    (h : ss.length < fuel) :
    parseArgumentsLoop fuel ss args = some (args ++ getlineLoop false [] ss) := by
  induction fuel generalizing ss args with
  | zero => exact absurd h (Nat.not_lt_zero _)
  | succ n ih =>
    cases ss with
    | nil => simp [parseArgumentsLoop, std.getline, getlineLoop]
    | cons ch rest =>
      have hlen : (((ch :: rest).dropWhile (fun c => c != '/')).drop 1).length < n := by
        have h1 : ((ch :: rest).dropWhile (fun c => c != '/')).length ≤ (ch :: rest).length :=
          (List.dropWhile_suffix (fun c => c != '/') (l := ch :: rest)).length_le
        by_cases hch : ch = '/'
        · simp only [List.length_cons] at h
          simp [hch]
          omega
        · have h2 : ((ch :: rest).dropWhile (fun c => c != '/')).length ≤ rest.length := by
            rw [List.dropWhile_cons_of_pos (p := fun c => c != '/') (by simp [hch])]
            exact (List.dropWhile_suffix (fun c => c != '/') (l := rest)).length_le
          simp only [List.length_cons] at h
          simp only [List.length_drop]
          omega
      simp only [parseArgumentsLoop, std.getline]
      rw [ih _ _ hlen, getlineLoop_step false [] (ch :: rest) (Or.inr (by simp))]
      simp

/-- Claim C23, the reading that fails: on the path `a/` `parseArgumentsFromPath` returns
the one segment `a`, and joining it with the delimiter gives `a`, not `a/`; on the path `/`
it returns one empty segment, which joins to the empty string. -/
theorem parseArgumentsFromPath_drops_final_delimiter :
    IIncludeGenerator.parseArgumentsFromPath 3 "a/" = some ["a"] ∧
    ['/'].intercalate (["a"].map String.toList) ≠ "a/".toList ∧
    IIncludeGenerator.parseArgumentsFromPath 2 "/" = some [""] := by
  refine ⟨by decide, by decide, by decide⟩

/-- Claim C23, amended. For every path string, `parseArgumentsFromPath` returns, within one
iteration of its loop per character and one more, segments none of which contains `/`, and
joining the returned segments with `/` reproduces the path except for one `/` at its very
end, which is lost: a path that does not end in `/` is reproduced exactly. The path
`name.ext/512/64` yields `name.ext`, `512`, `64`. -/
theorem parseArgumentsFromPath_segments (fuel : Nat) (_path : String)
    (hfuel : _path.length < fuel) :
    ∃ args, IIncludeGenerator.parseArgumentsFromPath fuel _path = some args ∧
      (∀ s ∈ args, '/' ∉ s.toList) ∧
      ['/'].intercalate (args.map String.toList) =
        (if _path.toList.getLast? = some '/' then _path.toList.dropLast
          else _path.toList) ∧
      (_path.toList.getLast? ≠ some '/' →
        String.mk (['/'].intercalate (args.map String.toList)) = _path) := by
  have hjoin := getlineLoop_intercalate false [] _path.toList (by simp) (fun _ => rfl)
  simp only [List.nil_append, withoutFinalDelimiter] at hjoin
  refine ⟨getlineLoop false [] _path.toList, ?_,
    getlineLoop_no_delimiter false [] _path.toList (by simp), hjoin, ?_⟩
  · simp only [IIncludeGenerator.parseArgumentsFromPath]
    rw [parseArgumentsLoop_eq fuel _path.toList [] hfuel]
    rfl
  · intro h
    rw [hjoin, if_neg h]
    rfl

/-- Claim C23 at the path `name.ext/512/64`, which does not end in `/`: the segments are
`name.ext`, `512` and `64`, and they join to the path. -/
theorem parseArgumentsFromPath_segments_witness :
    IIncludeGenerator.parseArgumentsFromPath 16 "name.ext/512/64" =
      some ["name.ext", "512", "64"] ∧
    ∃ args, IIncludeGenerator.parseArgumentsFromPath 16 "name.ext/512/64" = some args ∧
      (∀ s ∈ args, '/' ∉ s.toList) ∧
      ['/'].intercalate (args.map String.toList) =
        (if "name.ext/512/64".toList.getLast? = some '/' then
          "name.ext/512/64".toList.dropLast
          else "name.ext/512/64".toList) ∧
      ("name.ext/512/64".toList.getLast? ≠ some '/' →
        String.mk (['/'].intercalate (args.map String.toList)) = "name.ext/512/64") :=
  ⟨by decide, parseArgumentsFromPath_segments 16 "name.ext/512/64" (by decide)⟩

/-! ## Properties of `CFileSystemIncludeLoader::getInclude` -/

/-- Claim C21. `CFileSystemIncludeLoader::getInclude` returns the not-found value when the
file at `searchPath / includeName` cannot be opened, that is when the wait on the request
fails or the file pointer obtained is null, and it returns the file name together with
exactly the bytes read when the file opens and the read of its `getSize()` bytes from
offset 0 succeeds. When the file opens and the read fails, it does not return the
not-found value: the `assert(success)` fails, and a build without assertions returns the
file name with the buffer as the read left it. On `unreadableSystem`, where `inc/a.glsl`
opens and its read fails, the result for `inc` and `a.glsl` is the failed assertion with
a buffer of three NUL characters. -/
theorem getInclude_failed_read_asserts (m_system : system.ISystem)
    (searchPath includeName : String) :
    (m_system.createFile
        (CFileSystemIncludeLoader.resolvedPath m_system searchPath includeName) = none →
      CFileSystemIncludeLoader.getInclude m_system searchPath includeName =
        .returned found_t.notFound) ∧
    (m_system.createFile
        (CFileSystemIncludeLoader.resolvedPath m_system searchPath includeName) = some none →
      CFileSystemIncludeLoader.getInclude m_system searchPath includeName =
        .returned found_t.notFound) ∧
    (∀ f : system.IFile,
      m_system.createFile
        (CFileSystemIncludeLoader.resolvedPath m_system searchPath includeName) =
          some (some f) →
      (f.read 0 f.getSize).1 = true →
      CFileSystemIncludeLoader.getInclude m_system searchPath includeName =
        .returned
          { absolutePath := f.getFileName, contents := (f.read 0 f.getSize).2, hash := 0 }) ∧
    (∀ f : system.IFile,
      m_system.createFile
        (CFileSystemIncludeLoader.resolvedPath m_system searchPath includeName) =
          some (some f) →
      (f.read 0 f.getSize).1 = false →
      CFileSystemIncludeLoader.getInclude m_system searchPath includeName =
          .assertionFailed
            { absolutePath := f.getFileName, contents := (f.read 0 f.getSize).2, hash := 0 } ∧
        CFileSystemIncludeLoader.getInclude m_system searchPath includeName ≠
          .returned found_t.notFound) ∧
    CFileSystemIncludeLoader.getInclude unreadableSystem "inc" "a.glsl" =
      .assertionFailed
        { absolutePath := "inc/a.glsl"
          contents := String.mk [Char.ofNat 0, Char.ofNat 0, Char.ofNat 0]
          hash := 0 } ∧
    CFileSystemIncludeLoader.getInclude unreadableSystem "inc" "a.glsl" ≠
      .returned found_t.notFound ∧
    CFileSystemIncludeLoader.getInclude readableSystem "inc" "a.glsl" =
      .returned { absolutePath := "inc/a.glsl", contents := "abc", hash := 0 } ∧
    CFileSystemIncludeLoader.getInclude readableSystem "inc" "b.glsl" =
      .returned found_t.notFound := by
  refine ⟨?_, ?_, ?_, ?_, by decide, by decide, by decide, by decide⟩
  · intro h
    simp only [CFileSystemIncludeLoader.getInclude, h]
  · intro h
    simp only [CFileSystemIncludeLoader.getInclude, h]
  · intro f h hread
    simp only [CFileSystemIncludeLoader.getInclude, h, hread, if_true]
  · intro f h hread
    simp [CFileSystemIncludeLoader.getInclude, h, hread]

/-! ## The path peeling walk on prefixes with a trailing separator and on absolute names -/

/-- Claim C26. A finder built by `addGenerator` from a generator with the prefix `nbl/`
and a generator with the prefix `nbl-ext` holds them in this order, which is descending
for the prefixes as registered and not for the prefixes with the trailing `/` removed. On
the name `nbl/x.glsl` `tryIncludeGenerators` visits the path `nbl` and consults no
generator, although the first generator has the stripped prefix `nbl` and produces a text
for the name. On the name `nbl-ext/x.glsl` it visits the path `nbl-ext` only and consults
the generator with the prefix `nbl/`, whose stripped prefix `nbl` is no peeled path of that
name, and returns its text. -/
theorem tryIncludeGenerators_trailing_separator :
    slashFinder.m_generators.map (fun g => g.getPrefix) = ["nbl/", "nbl-ext"] ∧
    system.path.parent_path (removeExtension "nbl/x.glsl") = "nbl" ∧
    (slashFinder.tryIncludeGeneratorsRun 3 "nbl/x.glsl").map
        (fun run => (run.1.map (fun g => g.getPrefix), run.2)) =
      some ([], found_t.notFound) ∧
    ((constantGenerator "nbl/" "// nbl").getInclude "nbl/x.glsl").contents = "// nbl" ∧
    system.path.parent_path (removeExtension "nbl-ext/x.glsl") = "nbl-ext" ∧
    system.path.parent_path "nbl-ext" = "" ∧
    (slashFinder.tryIncludeGeneratorsRun 3 "nbl-ext/x.glsl").map
        (fun run => (run.1.map (fun g => g.getPrefix), run.2)) =
      some (["nbl/"], ⟨"nbl-ext/x.glsl", "// nbl", 0⟩) := by
  refine ⟨by decide, by decide, by decide, by decide, by decide, by decide, by decide⟩

/-- With the one generator of `hiddenFinder`, the loop of `tryIncludeGenerators` that
is entered with the path `/` and the iterator `end` at the start of the list does not
finish within any number of iterations. -/
theorem peelLoop_root_none (includeName : String) (fuel : Nat)
    (consulted : List IIncludeGenerator) :
    peelLoop hiddenFinder.m_generators includeName fuel "/" 0 consulted = none := by
  induction fuel generalizing consulted with
  | zero => rfl
  | succ n ih =>
    have hgens : hiddenFinder.m_generators = [constantGenerator ".hidden" "// hidden"] := rfl
    have hparent : system.path.parent_path "/" = "/" := by decide
    have hcond : ("/" != "" && system.path.root_name "/" == "" &&
        0 != hiddenFinder.m_generators.length) = true := by decide
    have hbegin : lower_bound hiddenFinder.m_generators 0 hiddenFinder.m_generators.length "/"
        (fun generator value =>
          compareGt (standardizePrefix generator.getPrefix).toList value.toList) = 0 := by
      decide
    have hend : upper_bound hiddenFinder.m_generators 0 hiddenFinder.m_generators.length "/"
        (fun value generator =>
          compareGt value.toList (standardizePrefix generator.getPrefix).toList) = 0 := by
      decide
    rw [peelLoop]
    simp only [hcond, if_true, hbegin, hend]
    simp only [Nat.sub_self, List.take_zero, tryGeneratorRange, hparent, List.append_nil]
    exact ih consulted

/-- Claim C27. `tryIncludeGenerators` does not terminate on the absolute name
`/usr/x.glsl` for the finder with one generator at the prefix `.hidden`: the peeled path
goes from `/usr` to `/` and stays `/`, which is neither empty nor has a root name, and the
iterator `end` stays in front of the generator, so no number of iterations of the loop
brings a result. -/
theorem tryIncludeGenerators_absolute_name_diverges :
    system.path.parent_path (removeExtension "/usr/x.glsl") = "/usr" ∧
    system.path.parent_path "/usr" = "/" ∧
    system.path.parent_path "/" = "/" ∧
    system.path.root_name "/" = "" ∧
    ∀ fuel : Nat, hiddenFinder.tryIncludeGenerators fuel "/usr/x.glsl" = none := by
  refine ⟨by decide, by decide, by decide, rfl, ?_⟩
  intro fuel
  cases fuel with
  | zero => rfl
  | succ n =>
    have hpath : system.path.parent_path (removeExtension "/usr/x.glsl") = "/usr" := by decide
    have hparent : system.path.parent_path "/usr" = "/" := by decide
    have hcond : ("/usr" != "" && system.path.root_name "/usr" == "" &&
        0 != hiddenFinder.m_generators.length) = true := by decide
    have hbegin : lower_bound hiddenFinder.m_generators 0 hiddenFinder.m_generators.length
        "/usr"
        (fun generator value =>
          compareGt (standardizePrefix generator.getPrefix).toList value.toList) = 0 := by
      decide
    have hend : upper_bound hiddenFinder.m_generators 0 hiddenFinder.m_generators.length
        "/usr"
        (fun value generator =>
          compareGt value.toList (standardizePrefix generator.getPrefix).toList) = 0 := by
      decide
    simp only [CIncludeFinder.tryIncludeGenerators, CIncludeFinder.tryIncludeGeneratorsRun,
      hpath]
    rw [peelLoop]
    simp only [hcond, if_true, hbegin, hend]
    simp only [Nat.sub_self, List.take_zero, tryGeneratorRange, hparent, List.append_nil]
    rw [peelLoop_root_none]
    rfl

/-! ## The hash comparison of `CCache::find` under a finder that attaches the digest -/

/-- A result of `getIncludeStandard` carries the digest of its contents. -/
theorem getIncludeStandard_hash (XXHash_256 : String → Hash256) (fuel : Nat)
    (f : CIncludeFinder) (requestingSourceDir includeName : String) (r : found_t)
    (hr : f.getIncludeStandard XXHash_256 fuel requestingSourceDir includeName = some r) :
    r.hash = XXHash_256 r.contents := by
  simp only [CIncludeFinder.getIncludeStandard] at hr
  cases hg : f.tryIncludeGenerators fuel includeName with
  | none => simp [hg] at hr
  | some g =>
    simp only [hg, Option.some.injEq] at hr
    rw [← hr]

/-- The inner loop of `find` and its contents-only variant agree on a dependency list when
every re-resolved header that has the recorded contents also has the recorded hash. -/
theorem allDependenciesMatch_eq_contents (finder : IncludeResolver)
    (deps : List SPreprocessingDependency)
    (h : ∀ d ∈ deps,
      (if d.standardInclude then finder.getIncludeStandard d.requestingSourceDir d.identifier
        else finder.getIncludeRelative d.requestingSourceDir d.identifier).contents
          = d.contents →
      (if d.standardInclude then finder.getIncludeStandard d.requestingSourceDir d.identifier
        else finder.getIncludeRelative d.requestingSourceDir d.identifier).hash = d.hash) :
    allDependenciesMatch finder deps = allDependenciesMatchContents finder deps := by
  induction deps with
  | nil => rfl
  | cons d rest ih =>
    have hrest := ih (fun e he => h e (List.mem_cons_of_mem _ he))
    have hd := h d (List.mem_cons_self _ _)
    simp only [allDependenciesMatch, allDependenciesMatchContents, hrest]
    generalize (if d.standardInclude then
        finder.getIncludeStandard d.requestingSourceDir d.identifier
      else finder.getIncludeRelative d.requestingSourceDir d.identifier) = header at hd
    by_cases hc : header.contents = d.contents
    · simp [hc, hd hc]
    · simp [hc]

/-- The bucket loop of `find` and its contents-only variant agree when the inner loops agree
on every entry of the bucket. -/
theorem findEntry_eq_contents (finder : IncludeResolver) (bucket : List SEntry)
    (h : ∀ e ∈ bucket, allDependenciesMatch finder e.dependencies =
      allDependenciesMatchContents finder e.dependencies) :
    findEntry finder bucket = findEntryContents finder bucket := by
  induction bucket with
  | nil => rfl
  | cons e rest ih =>
    simp only [findEntry, findEntryContents, h e (List.mem_cons_self _ _),
      ih (fun e' he' => h e' (List.mem_cons_of_mem _ he'))]

/-- Claim C29. Let the resolver handed to `find` answer, on the recorded dependencies of
the cache, with what `getIncludeStandard` (which returns on them) and `getIncludeRelative`
of an include finder return, and let every recorded dependency of every entry carry the
digest of its recorded contents as hash. Then for every key `CCache::find` returns what the
variant that compares only the contents returns. -/
theorem find_hash_comparison_redundant (XXHash_256 : String → Hash256) (fuel : Nat)
    (f : CIncludeFinder) (finder : IncludeResolver) (c : CCache)
    (hstandard : ∀ e ∈ c.m_container, ∀ d ∈ e.dependencies, d.standardInclude = true →
      f.getIncludeStandard XXHash_256 fuel d.requestingSourceDir d.identifier =
        some (finder.getIncludeStandard d.requestingSourceDir d.identifier))
    (hrelative : ∀ e ∈ c.m_container, ∀ d ∈ e.dependencies, d.standardInclude = false →
      finder.getIncludeRelative d.requestingSourceDir d.identifier =
        f.getIncludeRelative XXHash_256 d.requestingSourceDir d.identifier)
    (hrecorded : ∀ e ∈ c.m_container, ∀ d ∈ e.dependencies, d.hash = XXHash_256 d.contents)
    (mainFile : CacheKey) :
    c.find mainFile finder = c.findComparingContents mainFile finder := by
  simp only [CCache.find, CCache.findComparingContents]
  rw [findEntry_eq_contents]
  intro e he
  have hmem : e ∈ c.m_container := ((mem_equal_range c mainFile e).mp he).1
  apply allDependenciesMatch_eq_contents
  intro d hd
  cases hs : d.standardInclude with
  | true =>
    simp only [if_true]
    intro hcontents
    rw [getIncludeStandard_hash XXHash_256 fuel f _ _ _ (hstandard e hmem d hd hs),
      hcontents, hrecorded e hmem d hd]
  | false =>
    simp only [Bool.false_eq_true, if_false]
    intro hcontents
    rw [hrelative e hmem d hd hs] at hcontents ⊢
    rw [hrecorded e hmem d hd, ← hcontents]
    rfl

/-- Claim C29 at the cache `commonCache`, whose line depends on `nbl/common.glsl`, and
the resolver of `exampleFinder`: `find` and the contents-only variant both return the
artifact of the line. -/
theorem find_hash_comparison_redundant_witness :
    commonCache.find exampleKey exampleResolver =
      commonCache.findComparingContents exampleKey exampleResolver ∧
    commonCache.find exampleKey exampleResolver = some shaderA :=
  ⟨find_hash_comparison_redundant lengthDigest 10 exampleFinder exampleResolver commonCache
    (by decide) (by decide) (by decide) exampleKey, by decide⟩

/-! ## The consultation order among generators of the same prefix -/

/-- The bisection returns an index inside the range it is given. -/
theorem bisect_bounds {α : Type} (goRight : α → Bool) (xs : List α) (fuel first len : Nat) :
    first ≤ bisect goRight xs fuel first len ∧
      bisect goRight xs fuel first len ≤ first + len := by
  induction fuel generalizing first len with
  | zero => simp [bisect]
  | succ n ih =>
    simp only [bisect]
    by_cases hlen : len = 0
    · simp [hlen]
    · simp only [hlen, if_false]
      cases hmid : xs[first + len / 2]? with
      | none => simp
      | some middle =>
        simp only
        by_cases hgo : goRight middle = true
        · simp only [hgo, if_true]
          have h := ih (first + len / 2 + 1) (len - len / 2 - 1)
          have hhalf : len / 2 < len := Nat.div_lt_self (Nat.pos_of_ne_zero hlen) (by omega)
          omega
        · simp only [hgo, if_false, Bool.false_eq_true]
          have h := ih first (len / 2)
          have hhalf : len / 2 ≤ len := Nat.div_le_self len 2
          omega

/-- The generators that the path peeling loop consults from some iteration on form a
subsequence of the generator list behind the iterator `end` of that iteration: the loop
moves forward through the list only. -/
theorem peelLoop_sublist (m_generators : List IIncludeGenerator) (includeName : String)
    (fuel : Nat) (path : String) (endIt : Nat) (consulted : List IIncludeGenerator)
    (run : List IIncludeGenerator × found_t)
    (hrun : peelLoop m_generators includeName fuel path endIt consulted = some run) :
    ∃ later, run.1 = consulted ++ later ∧ later.Sublist (m_generators.drop endIt) := by
  induction fuel generalizing path endIt consulted with
  | zero => simp [peelLoop] at hrun
  | succ n ih =>
    by_cases hcond : path = "" ∨ endIt = m_generators.length
    · rw [peelLoop_exit m_generators includeName n path endIt consulted hcond] at hrun
      simp only [Option.some.injEq] at hrun
      refine ⟨[], ?_, List.nil_sublist _⟩
      rw [← hrun]
      simp
    · simp only [not_or] at hcond
      have hb := (bisect_bounds
        (fun e : IIncludeGenerator =>
          compareGt (standardizePrefix e.getPrefix).toList path.toList)
        m_generators (m_generators.length - endIt) endIt (m_generators.length - endIt)).1
      generalize hbegin : lower_bound m_generators endIt m_generators.length path
        (fun generator value =>
          compareGt (standardizePrefix generator.getPrefix).toList value.toList) = begin
      have hbegin' : endIt ≤ begin := by
        rw [← hbegin]
        exact hb
      generalize hendNew : upper_bound m_generators begin m_generators.length path
        (fun value generator =>
          compareGt value.toList (standardizePrefix generator.getPrefix).toList) = endNew
      have he := (bisect_bounds
        (fun e : IIncludeGenerator =>
          !compareGt path.toList (standardizePrefix e.getPrefix).toList)
        m_generators (m_generators.length - begin) begin (m_generators.length - begin)).1
      have hendNew' : begin ≤ endNew := by
        rw [← hendNew]
        exact he
      rw [peelLoop_iteration m_generators includeName n path endIt consulted begin endNew _
        hcond.1 hcond.2 hbegin hendNew rfl] at hrun
      have hpre := tryGeneratorRange_isPrefix includeName
        ((m_generators.drop begin).take (endNew - begin))
      have hsplit : m_generators.drop begin =
          (m_generators.drop begin).take (endNew - begin) ++ m_generators.drop endNew := by
        conv_lhs => rw [← List.take_append_drop (endNew - begin) (m_generators.drop begin)]
        rw [List.drop_drop]
        congr 2
        omega
      have hdrop : (m_generators.drop begin).Sublist (m_generators.drop endIt) :=
        List.drop_sublist_drop_left m_generators hbegin'
      cases htry : tryGeneratorRange includeName
          ((m_generators.drop begin).take (endNew - begin)) with
      | mk called result =>
        rw [htry] at hrun hpre
        simp only at hpre
        cases result with
        | some contents =>
          simp only [Option.some.injEq] at hrun
          refine ⟨called, by rw [← hrun], ?_⟩
          exact (hpre.sublist.trans (List.take_sublist _ _)).trans hdrop
        | none =>
          simp only at hrun
          obtain ⟨later, hlater, hsub⟩ := ih _ _ _ hrun
          refine ⟨called ++ later, by rw [hlater, List.append_assoc], ?_⟩
          refine List.Sublist.trans ?_ hdrop
          rw [hsplit]
          exact List.Sublist.append hpre.sublist hsub

/-- In a list sorted in non-increasing order of the keys, the elements behind the leading
run of keys that `v` is not greater than have keys less than `v`. -/
theorem dropWhile_compareGt {α : Type} (key : α → List Char) (v : List Char)
    (xs : List α)
    (hsorted : xs.Pairwise (fun a b => compareGt (key b) (key a) = false)) :
    ∀ e ∈ xs.dropWhile (fun a => !compareGt v (key a)), compareGt v (key e) = true := by
  induction xs with
  | nil => simp
  | cons x rest ih =>
    rw [List.pairwise_cons] at hsorted
    by_cases hx : compareGt v (key x) = true
    · rw [List.dropWhile_cons_of_neg (p := fun a => !compareGt v (key a)) (by simp [hx])]
      intro e he
      rcases List.mem_cons.1 he with h | h
      · rw [h]
        exact hx
      · cases hev : compareGt v (key e) with
        | true => rfl
        | false =>
          have hgt := compareGt_of_not_gt v (key x) (key e) hx hev
          rw [hsorted.1 e h] at hgt
          exact absurd hgt (by simp)
    · rw [List.dropWhile_cons_of_pos (p := fun a => !compareGt v (key a)) (by simp [hx])]
      exact ih hsorted.2

/-- The index that the bisection returns is the start of its range or follows an element
that sent the bisection right, and it is the end of its range or holds an element that
sent the bisection left. -/
theorem bisect_boundary {α : Type} (goRight : α → Bool) (xs : List α)
    (fuel first len : Nat) (hfuel : len ≤ fuel) (hbound : first + len ≤ xs.length) :
    (bisect goRight xs fuel first len = first ∨
      ∃ j e, j + 1 = bisect goRight xs fuel first len ∧ xs[j]? = some e ∧
        goRight e = true) ∧
    (bisect goRight xs fuel first len = first + len ∨
      ∃ e, xs[bisect goRight xs fuel first len]? = some e ∧ goRight e = false) := by
  induction fuel generalizing first len with
  | zero =>
    have : len = 0 := by omega
    subst this
    simp [bisect]
  | succ n ih =>
    simp only [bisect]
    by_cases hlen : len = 0
    · simp [hlen]
    · simp only [hlen, if_false]
      have hhalf : len / 2 < len := Nat.div_lt_self (by omega) (by omega)
      have hmid : first + len / 2 < xs.length := by omega
      rw [List.getElem?_eq_getElem hmid]
      simp only
      by_cases hgo : goRight xs[first + len / 2] = true
      · simp only [hgo, if_true]
        obtain ⟨h1, h2⟩ := ih (first + len / 2 + 1) (len - len / 2 - 1) (by omega) (by omega)
        refine ⟨Or.inr ?_, ?_⟩
        · rcases h1 with h1 | ⟨j, e, hj, he, hg⟩
          · exact ⟨first + len / 2, _, by rw [h1], List.getElem?_eq_getElem hmid, hgo⟩
          · exact ⟨j, e, hj, he, hg⟩
        · rcases h2 with h2 | h2
          · left
            rw [h2]
            omega
          · exact Or.inr h2
      · simp only [hgo, if_false, Bool.false_eq_true]
        obtain ⟨h1, h2⟩ := ih first (len / 2) (by omega) (by omega)
        refine ⟨h1, ?_⟩
        rcases h2 with h2 | h2
        · right
          rw [h2]
          exact ⟨_, List.getElem?_eq_getElem hmid, by simpa using hgo⟩
        · exact Or.inr h2

/-- On a list `A ++ R ++ B` whose part `R` sends the bisection the same way throughout, a
bisection from an index that is not inside `R` up to the end of the list does not return
an index inside `R`. -/
theorem bisect_not_inside {α : Type} (goRight : α → Bool) (A R B : List α) (first : Nat)
    (hconst : ∀ x ∈ R, ∀ y ∈ R, goRight x = goRight y)
    (hfirst : first ≤ A.length ∨ A.length + R.length ≤ first)
    (hle : first ≤ (A ++ R ++ B).length) :
    bisect goRight (A ++ R ++ B) ((A ++ R ++ B).length - first) first
        ((A ++ R ++ B).length - first) ≤ A.length ∨
      A.length + R.length ≤ bisect goRight (A ++ R ++ B) ((A ++ R ++ B).length - first) first
        ((A ++ R ++ B).length - first) := by
  obtain ⟨h1, h2⟩ := bisect_boundary goRight (A ++ R ++ B) ((A ++ R ++ B).length - first) first
    ((A ++ R ++ B).length - first) (le_refl _) (by omega)
  generalize bisect goRight (A ++ R ++ B) ((A ++ R ++ B).length - first) first
    ((A ++ R ++ B).length - first) = b at h1 h2
  by_contra hin
  simp only [not_or, not_le] at hin
  obtain ⟨hin1, hin2⟩ := hin
  have hlen : (A ++ R ++ B).length = A.length + R.length + B.length := by
    simp only [List.length_append]
  have hmemR : ∀ (i : Nat) (e : α), A.length ≤ i → i < A.length + R.length →
      (A ++ R ++ B)[i]? = some e → e ∈ R := by
    intro i e hi1 hi2 he
    rw [List.append_assoc, List.getElem?_append_right hi1,
      List.getElem?_append_left (by omega)] at he
    exact List.getElem?_mem he
  rcases h1 with h1 | ⟨j, e, hj, he, hg⟩
  · omega
  · rcases h2 with h2 | ⟨e', he', hg'⟩
    · omega
    · have hx := hmemR j e (by omega) (by omega) he
      have hy := hmemR b e' (by omega) hin2 he'
      rw [hconst e hx e' hy, hg'] at hg
      exact absurd hg (by simp)

/-- A slice of `A ++ R ++ B` between two indices that are not inside `R`, filtered for a
property that all of `R` and nothing of `A` and `B` has, is `R` when the slice reaches
from `A` to `B` and empty otherwise. -/
theorem filter_slice {α : Type} (p : α → Bool) (A R B : List α)
    (hR : ∀ e ∈ R, p e = true) (hA : ∀ e ∈ A, p e = false) (hB : ∀ e ∈ B, p e = false)
    (b e : Nat) (hbe : b ≤ e)
    (hb : b ≤ A.length ∨ A.length + R.length ≤ b)
    (he : e ≤ A.length ∨ A.length + R.length ≤ e) :
    (((A ++ R ++ B).drop b).take (e - b)).filter p =
      if b ≤ A.length ∧ A.length + R.length ≤ e then R else [] := by
  have hnilA : ∀ l : List α, (∀ x ∈ l, x ∈ A) → l.filter p = [] := fun l hl =>
    List.filter_eq_nil_iff.mpr (fun x hx => by simp [hA x (hl x hx)])
  have hnilB : ∀ l : List α, (∀ x ∈ l, x ∈ B) → l.filter p = [] := fun l hl =>
    List.filter_eq_nil_iff.mpr (fun x hx => by simp [hB x (hl x hx)])
  have hfR : R.filter p = R := List.filter_eq_self.mpr hR
  by_cases hcase : b ≤ A.length ∧ A.length + R.length ≤ e
  · rw [if_pos hcase]
    obtain ⟨h1, h2⟩ := hcase
    rw [List.append_assoc, List.drop_append_of_le_length h1, List.take_append_eq_append_take,
      List.take_append_eq_append_take]
    have ht1 : (A.drop b).take (e - b) = A.drop b :=
      List.take_of_length_le (by simp only [List.length_drop]; omega)
    have ht2 : R.take (e - b - (A.drop b).length) = R :=
      List.take_of_length_le (by simp only [List.length_drop]; omega)
    rw [ht1, ht2, List.filter_append, List.filter_append, hfR,
      hnilA _ (fun x hx => List.mem_of_mem_drop hx),
      hnilB _ (fun x hx => List.mem_of_mem_take hx)]
    simp
  · rw [if_neg hcase]
    rcases hb with hb | hb
    · have he' : e ≤ A.length := by
        rcases he with he | he
        · exact he
        · exact absurd ⟨hb, he⟩ hcase
      rw [List.append_assoc, List.drop_append_of_le_length hb,
        List.take_append_of_le_length (by simp only [List.length_drop]; omega)]
      exact hnilA _ (fun x hx => List.mem_of_mem_drop (List.mem_of_mem_take hx))
    · have hdrop : (A ++ R ++ B).drop b = B.drop (b - (A.length + R.length)) := by
        have hb' : b = (A ++ R).length + (b - (A.length + R.length)) := by
          simp only [List.length_append]
          omega
        conv_lhs => rw [hb', List.drop_append]
      rw [hdrop]
      exact hnilB _ (fun x hx => List.mem_of_mem_drop (List.mem_of_mem_take hx))

/-- Let the generator list be `A ++ R ++ B`, where the generators of `R` have the prefix
`pfx` and no generator of `A` or `B` has it. Of the generators that the path peeling loop
consults from an iteration on whose iterator `end` is not inside `R`, those with the
prefix `pfx` are the generators of `R` from its first on, without a gap; none, when `end`
is behind `R`. -/
theorem peelLoop_filter_run (A R B : List IIncludeGenerator) (pfx : String)
    (hR : ∀ e ∈ R, e.getPrefix = pfx) (hA : ∀ e ∈ A, e.getPrefix ≠ pfx)
    (hB : ∀ e ∈ B, e.getPrefix ≠ pfx) (includeName : String) (fuel : Nat) (path : String)
    (endIt : Nat) (consulted : List IIncludeGenerator)
    (run : List IIncludeGenerator × found_t)
    (hend : endIt ≤ A.length ∨ A.length + R.length ≤ endIt)
    (hle : endIt ≤ (A ++ R ++ B).length)
    (hrun : peelLoop (A ++ R ++ B) includeName fuel path endIt consulted = some run) :
    ∃ later, run.1 = consulted ++ later ∧
      later.filter (fun e => e.getPrefix == pfx) <+: R ∧
      (A.length + R.length ≤ endIt → later.filter (fun e => e.getPrefix == pfx) = []) := by
  induction fuel generalizing path endIt consulted with
  | zero => simp [peelLoop] at hrun
  | succ n ih =>
    by_cases hcond : path = "" ∨ endIt = (A ++ R ++ B).length
    · rw [peelLoop_exit (A ++ R ++ B) includeName n path endIt consulted hcond] at hrun
      simp only [Option.some.injEq] at hrun
      refine ⟨[], ?_, by simp, fun _ => rfl⟩
      rw [← hrun]
      simp
    · simp only [not_or] at hcond
      have hpR : ∀ e ∈ R, (fun e : IIncludeGenerator => e.getPrefix == pfx) e = true :=
        fun e he => by simp [hR e he]
      have hpA : ∀ e ∈ A, (fun e : IIncludeGenerator => e.getPrefix == pfx) e = false :=
        fun e he => by simp [hA e he]
      have hpB : ∀ e ∈ B, (fun e : IIncludeGenerator => e.getPrefix == pfx) e = false :=
        fun e he => by simp [hB e he]
      have hb1 := (bisect_bounds
        (fun e : IIncludeGenerator =>
          compareGt (standardizePrefix e.getPrefix).toList path.toList)
        (A ++ R ++ B) ((A ++ R ++ B).length - endIt) endIt ((A ++ R ++ B).length - endIt))
      have hb2 := bisect_not_inside
        (fun e : IIncludeGenerator =>
          compareGt (standardizePrefix e.getPrefix).toList path.toList)
        A R B endIt (fun x hx y hy => by simp only [hR x hx, hR y hy]) hend hle
      generalize hbegin : lower_bound (A ++ R ++ B) endIt (A ++ R ++ B).length path
        (fun generator value =>
          compareGt (standardizePrefix generator.getPrefix).toList value.toList) = begin
      have hbegin1 : endIt ≤ begin ∧ begin ≤ (A ++ R ++ B).length := by
        rw [← hbegin]
        simp only [lower_bound]
        omega
      have hbegin2 : begin ≤ A.length ∨ A.length + R.length ≤ begin := by
        rw [← hbegin]
        exact hb2
      have he1 := (bisect_bounds
        (fun e : IIncludeGenerator =>
          !compareGt path.toList (standardizePrefix e.getPrefix).toList)
        (A ++ R ++ B) ((A ++ R ++ B).length - begin) begin ((A ++ R ++ B).length - begin))
      have he2 := bisect_not_inside
        (fun e : IIncludeGenerator =>
          !compareGt path.toList (standardizePrefix e.getPrefix).toList)
        A R B begin (fun x hx y hy => by simp only [hR x hx, hR y hy]) hbegin2 hbegin1.2
      generalize hendNew : upper_bound (A ++ R ++ B) begin (A ++ R ++ B).length path
        (fun value generator =>
          compareGt value.toList (standardizePrefix generator.getPrefix).toList) = endNew
      have hendNew1 : begin ≤ endNew ∧ endNew ≤ (A ++ R ++ B).length := by
        rw [← hendNew]
        simp only [upper_bound]
        omega
      have hendNew2 : endNew ≤ A.length ∨ A.length + R.length ≤ endNew := by
        rw [← hendNew]
        exact he2
      rw [peelLoop_iteration (A ++ R ++ B) includeName n path endIt consulted begin endNew _
        hcond.1 hcond.2 hbegin hendNew rfl] at hrun
      have hslice := filter_slice (fun e : IIncludeGenerator => e.getPrefix == pfx) A R B
        hpR hpA hpB begin endNew hendNew1.1 hbegin2 hendNew2
      have hpre := tryGeneratorRange_isPrefix includeName
        (((A ++ R ++ B).drop begin).take (endNew - begin))
      have hnone := (tryGeneratorRange_none_iff includeName
        (((A ++ R ++ B).drop begin).take (endNew - begin))).2.1
      have hpast : A.length + R.length ≤ endIt →
          ((((A ++ R ++ B).drop begin).take (endNew - begin)).filter
            (fun e => e.getPrefix == pfx)) = [] := by
        intro h
        rw [hslice]
        split
        · next hc =>
          have : R.length = 0 := by omega
          exact List.length_eq_zero.mp this
        · rfl
      cases htry : tryGeneratorRange includeName
          (((A ++ R ++ B).drop begin).take (endNew - begin)) with
      | mk called result =>
        rw [htry] at hrun hpre hnone
        simp only at hpre hnone
        have hcalled := hpre.filter (fun e : IIncludeGenerator => e.getPrefix == pfx)
        cases result with
        | some contents =>
          simp only [Option.some.injEq] at hrun
          refine ⟨called, by rw [← hrun], ?_, ?_⟩
          · rw [hslice] at hcalled
            split at hcalled
            · exact hcalled
            · rw [List.prefix_nil] at hcalled
              rw [hcalled]
              exact List.nil_prefix
          · intro h
            rw [hpast h] at hcalled
            exact List.prefix_nil.mp hcalled
        | none =>
          simp only at hrun
          have hall : called = ((A ++ R ++ B).drop begin).take (endNew - begin) := hnone rfl
          obtain ⟨later, hlater, hfilter, hbehind⟩ := ih _ _ _ hendNew2 hendNew1.2 hrun
          refine ⟨called ++ later, by rw [hlater, List.append_assoc], ?_, ?_⟩
          · rw [List.filter_append, hall, hslice]
            split
            · next hc =>
              rw [hbehind hc.2]
              simp
            · simpa using hfilter
          · intro h
            rw [List.filter_append, hall, hpast h, hbehind (by omega)]
            rfl

/-- Claim C30. In a generator list in non-increasing order of the prefixes, `addGenerator`
puts the new generator behind all generators with a greater prefix and directly in front
of the generators registered before it with the same prefix, which the generators with a
smaller prefix follow. For every include name, the generators that a call of
`tryIncludeGenerators` consults form, in the order of consultation, a subsequence of the
generator list, and those of them that have the prefix of the new generator are the new
generator followed by the earlier registered ones in list order, without a gap: whenever
a generator with that prefix is consulted, the new generator is the first of them to be
consulted, and an earlier registered one is consulted only after the new generator has
been consulted. -/
theorem addGenerator_newest_first (f : CIncludeFinder) (g : IIncludeGenerator)
    (hsorted : f.m_generators.Pairwise
      (fun a b => compareGt b.getPrefix.toList a.getPrefix.toList = false)) :
    ∃ greater equal smaller : List IIncludeGenerator,
      f.m_generators = greater ++ (equal ++ smaller) ∧
      (f.addGenerator (some g)).m_generators = greater ++ g :: (equal ++ smaller) ∧
      (∀ e ∈ greater, compareGt e.getPrefix.toList g.getPrefix.toList = true) ∧
      (∀ e ∈ equal, e.getPrefix = g.getPrefix) ∧
      (∀ e ∈ smaller, compareGt g.getPrefix.toList e.getPrefix.toList = true) ∧
      (∀ (fuel : Nat) (includeName : String) (run : List IIncludeGenerator × found_t),
        (f.addGenerator (some g)).tryIncludeGeneratorsRun fuel includeName = some run →
        run.1.Sublist (greater ++ g :: (equal ++ smaller)) ∧
        run.1.filter (fun e => e.getPrefix == g.getPrefix) <+: g :: equal ∧
        (∀ e ∈ run.1, e.getPrefix = g.getPrefix →
          (run.1.filter (fun e => e.getPrefix == g.getPrefix)).head? = some g) ∧
        (∀ (pre post : List IIncludeGenerator) (e : IIncludeGenerator),
          run.1 = pre ++ e :: post → e.getPrefix = g.getPrefix →
          g ∈ pre ∨ (e = g ∧ ∀ x ∈ pre, x.getPrefix ≠ g.getPrefix))) := by
  have hx := List.takeWhile_append_dropWhile
    (fun e : IIncludeGenerator => compareGt e.getPrefix.toList g.getPrefix.toList)
    f.m_generators
  have hgreater : ∀ e ∈ f.m_generators.takeWhile
      (fun e => compareGt e.getPrefix.toList g.getPrefix.toList),
      compareGt e.getPrefix.toList g.getPrefix.toList = true := fun e he =>
    List.mem_takeWhile_imp
      (p := fun e : IIncludeGenerator => compareGt e.getPrefix.toList g.getPrefix.toList) he
  have hothers := dropWhile_not_compareGt (fun e : IIncludeGenerator => e.getPrefix.toList)
    g.getPrefix.toList f.m_generators hsorted
  generalize hG : f.m_generators.takeWhile
    (fun e => compareGt e.getPrefix.toList g.getPrefix.toList) = greater at hx hgreater
  generalize hO : f.m_generators.dropWhile
    (fun e => compareGt e.getPrefix.toList g.getPrefix.toList) = others at hx hothers
  have hnew : (f.addGenerator (some g)).m_generators = greater ++ g :: others := by
    rw [addGenerator_some_eq f g hsorted, hG, hO]
  have hsortedOthers : others.Pairwise
      (fun a b => compareGt b.getPrefix.toList a.getPrefix.toList = false) := by
    rw [← hx, List.pairwise_append] at hsorted
    exact hsorted.2.1
  have hy := List.takeWhile_append_dropWhile
    (fun e : IIncludeGenerator => !compareGt g.getPrefix.toList e.getPrefix.toList) others
  have hsmaller := dropWhile_compareGt (fun e : IIncludeGenerator => e.getPrefix.toList)
    g.getPrefix.toList others hsortedOthers
  have hequal : ∀ e ∈ others.takeWhile
      (fun e => !compareGt g.getPrefix.toList e.getPrefix.toList),
      e.getPrefix = g.getPrefix := by
    intro e he
    have h1 := List.mem_takeWhile_imp
      (p := fun e : IIncludeGenerator => !compareGt g.getPrefix.toList e.getPrefix.toList) he
    simp only [Bool.not_eq_true'] at h1
    exact eq_of_not_compareGt e.getPrefix g.getPrefix
      (hothers e ((List.takeWhile_sublist _).subset he)) h1
  generalize hE : others.takeWhile
    (fun e => !compareGt g.getPrefix.toList e.getPrefix.toList) = equal at hy hequal
  generalize hS : others.dropWhile
    (fun e => !compareGt g.getPrefix.toList e.getPrefix.toList) = smaller at hy hsmaller
  refine ⟨greater, equal, smaller, by rw [hy, hx], by rw [hy, hnew], hgreater, hequal,
    hsmaller, ?_⟩
  intro fuel includeName run hrun
  have hlist : (f.addGenerator (some g)).m_generators = greater ++ (g :: equal) ++ smaller := by
    rw [hnew, ← hy]
    simp
  have hfilter : run.1.filter (fun e => e.getPrefix == g.getPrefix) <+: g :: equal := by
    simp only [CIncludeFinder.tryIncludeGeneratorsRun, hlist] at hrun
    obtain ⟨later, hlater, hpre, -⟩ := peelLoop_filter_run greater (g :: equal) smaller
      g.getPrefix
      (fun e he => by
        rcases List.mem_cons.mp he with h | h
        · rw [h]
        · exact hequal e h)
      (fun e he heq => by
        have h1 := hgreater e he
        rw [heq, compareGt_self] at h1
        exact absurd h1 (by simp))
      (fun e he heq => by
        have h1 := hsmaller e he
        simp only [heq, compareGt_self] at h1
        exact absurd h1 (by simp))
      includeName fuel _ 0 [] run (Or.inl (Nat.zero_le _)) (Nat.zero_le _) hrun
    rw [hlater]
    simpa using hpre
  refine ⟨?_, hfilter, ?_, ?_⟩
  · obtain ⟨later, hlater, hsub⟩ := peelLoop_sublist _ includeName fuel _ 0 [] run hrun
    rw [hnew] at hsub
    rw [hlater, hy]
    simpa using hsub
  rotate_left
  · intro pre post e hsplit heq
    obtain ⟨t, ht⟩ := hfilter
    have he : (fun x : IIncludeGenerator => x.getPrefix == g.getPrefix) e = true := by
      simp [heq]
    rw [hsplit, List.filter_append,
      List.filter_cons_of_pos (p := fun x : IIncludeGenerator => x.getPrefix == g.getPrefix)
        he] at ht
    cases hF : pre.filter (fun x => x.getPrefix == g.getPrefix) with
    | nil =>
      right
      rw [hF, List.nil_append, List.cons_append] at ht
      refine ⟨(List.cons.inj ht).1, ?_⟩
      intro x hx hxeq
      have hmem : x ∈ pre.filter (fun x => x.getPrefix == g.getPrefix) :=
        List.mem_filter.mpr ⟨hx, by simp [hxeq]⟩
      rw [hF] at hmem
      exact absurd hmem (List.not_mem_nil _)
    | cons x rest =>
      left
      rw [hF, List.cons_append, List.cons_append] at ht
      have hx : x ∈ pre.filter (fun x => x.getPrefix == g.getPrefix) := by
        rw [hF]
        exact List.mem_cons_self _ _
      rw [← (List.cons.inj ht).1]
      exact (List.mem_filter.mp hx).1
  · intro e he heq
    have hmem : e ∈ run.1.filter (fun e => e.getPrefix == g.getPrefix) :=
      List.mem_filter.mpr ⟨he, by simp [heq]⟩
    obtain ⟨t, ht⟩ := hfilter
    cases hF : run.1.filter (fun e => e.getPrefix == g.getPrefix) with
    | nil =>
      rw [hF] at hmem
      exact absurd hmem (List.not_mem_nil _)
    | cons x rest =>
      rw [hF, List.cons_append] at ht
      rw [List.head?_cons, (List.cons.inj ht).1]

/-- Claim C30 at finders with two generators of the prefix `nbl`. In `twiceFinder` the
generator added second stands first in the list, and `tryIncludeGenerators` returns its
text for `nbl/x.glsl` after consulting it alone. In `fallbackFinder` the generator added
second produces nothing: it is consulted first and the generator added first after it. -/
theorem addGenerator_newest_first_witness :
    (∃ greater equal smaller : List IIncludeGenerator,
      ((CIncludeFinder.construct emptyLoader).addGenerator
          (some (constantGenerator "nbl" "// first"))).m_generators =
        greater ++ (equal ++ smaller) ∧
      twiceFinder.m_generators =
        greater ++ constantGenerator "nbl" "// second" :: (equal ++ smaller) ∧
      (∀ e ∈ greater, compareGt e.getPrefix.toList "nbl".toList = true) ∧
      (∀ e ∈ equal, e.getPrefix = "nbl") ∧
      (∀ e ∈ smaller, compareGt "nbl".toList e.getPrefix.toList = true) ∧
      (∀ (fuel : Nat) (includeName : String) (run : List IIncludeGenerator × found_t),
        twiceFinder.tryIncludeGeneratorsRun fuel includeName = some run →
        run.1.Sublist
          (greater ++ constantGenerator "nbl" "// second" :: (equal ++ smaller)) ∧
        run.1.filter (fun e => e.getPrefix == "nbl") <+:
          constantGenerator "nbl" "// second" :: equal ∧
        (∀ e ∈ run.1, e.getPrefix = "nbl" →
          (run.1.filter (fun e => e.getPrefix == "nbl")).head? =
            some (constantGenerator "nbl" "// second")) ∧
        (∀ (pre post : List IIncludeGenerator) (e : IIncludeGenerator),
          run.1 = pre ++ e :: post → e.getPrefix = "nbl" →
          constantGenerator "nbl" "// second" ∈ pre ∨
            (e = constantGenerator "nbl" "// second" ∧ ∀ x ∈ pre, x.getPrefix ≠ "nbl")))) ∧
    twiceFinder.m_generators.map
        (fun e => (e.getInclude "nbl/x.glsl").contents) = ["// second", "// first"] ∧
    (twiceFinder.tryIncludeGeneratorsRun 3 "nbl/x.glsl").map
        (fun run => (run.1.map (fun e => (e.getInclude "nbl/x.glsl").contents), run.2)) =
      some (["// second"], ⟨"nbl/x.glsl", "// second", 0⟩) ∧
    fallbackFinder.m_generators.map
        (fun e => (e.getInclude "nbl/x.glsl").contents) = ["", "// first"] ∧
    (fallbackFinder.tryIncludeGeneratorsRun 3 "nbl/x.glsl").map
        (fun run => (run.1.map (fun e => (e.getInclude "nbl/x.glsl").contents), run.2)) =
      some (["", "// first"], ⟨"nbl/x.glsl", "// first", 0⟩) :=
  ⟨addGenerator_newest_first
    ((CIncludeFinder.construct emptyLoader).addGenerator
      (some (constantGenerator "nbl" "// first")))
    (constantGenerator "nbl" "// second") (by decide), by decide, by decide, by decide,
    by decide⟩

/-! ## Properties of `deserialize` on truncated buffers and unchecked ranges -/

/-- A read that stays inside a buffer returns the bytes of the buffer, whatever the memory
around the buffer holds. -/
theorem read_of_readBytes (s : ByteSpan) (buf : List Byte) (pos n : Nat) (bs : List Byte)
    (hlen : buf.length ≤ 2 ^ 64) (hmem : ∀ i (h : i < buf.length), s.memory i = buf[i])
    (h : readBytes buf pos n = some bs) : s.read pos n = bs := by
  simp only [readBytes] at h
  split at h
  · rename_i hfit
    simp only [Option.some.injEq] at h
    rw [← h]
    apply List.ext_getElem
    · simp only [ByteSpan.read, List.length_map, List.length_range, List.length_take,
        List.length_drop]
      omega
    · intro i h1 h2
      simp only [ByteSpan.read, List.length_map, List.length_range] at h1
      simp only [ByteSpan.read, List.getElem_map, List.getElem_range, List.getElem_take,
        List.getElem_drop]
      rw [Nat.mod_eq_of_lt (by omega), hmem (pos + i) (by omega)]
  · exact absurd h (by simp)

/-- Where the loop of `deserialize` stays inside the buffer and returns, the loop on the
memory returns the same cache. -/
theorem deserializeSpanLoop_of_ok (s : ByteSpan) (buf : List Byte) (L : Nat)
    (ps : List CPUShaderCreationParams) (entries : List SEntryJson) (i : Nat)
    (retVal c : CCache) (hlen : buf.length ≤ 2 ^ 64)
    (hmem : ∀ i (h : i < buf.length), s.memory i = buf[i])
    (h : deserializeLoop buf L ps i entries retVal = .ok c) :
    deserializeSpanLoop s L ps i entries retVal = .ok c := by
  induction entries generalizing i retVal with
  | nil => simpa [deserializeLoop, deserializeSpanLoop] using h
  | cons entry rest ih =>
    simp only [deserializeLoop] at h
    simp only [deserializeSpanLoop]
    cases hget : ps[i]? with
    | none => simp [hget] at h
    | some p =>
      simp only [hget] at h ⊢
      cases hread : readBytes buf (CONTAINER_JSON_SIZE_BYTES + L + p.offset) p.codeByteSize with
      | none => simp [hread] at h
      | some code =>
        simp only [hread] at h
        rw [read_of_readBytes s buf _ _ code hlen hmem hread]
        exact ih _ _ h

/-- Where `deserialize` stays inside the buffer and returns a cache, `deserialize` on a
memory that holds the buffer returns the same cache, whatever the size of the span. -/
theorem deserializeSpan_of_ok (codec : JsonCodec) (s : ByteSpan) (buf : List Byte)
    (c : CCache) (hlen : buf.length ≤ 2 ^ 64)
    (hmem : ∀ i (h : i < buf.length), s.memory i = buf[i])
    (h : CCache.deserialize codec buf = .ok c) : CCache.deserializeSpan codec s = .ok c := by
  simp only [CCache.deserialize] at h
  simp only [CCache.deserializeSpan]
  cases h8 : readBytes buf 0 CONTAINER_JSON_SIZE_BYTES with
  | none => simp [h8] at h
  | some cacheStart =>
    simp only [h8] at h
    rw [read_of_readBytes s buf _ _ cacheStart hlen hmem h8]
    cases hL : readBytes buf CONTAINER_JSON_SIZE_BYTES (readUint64 cacheStart) with
    | none => simp [hL] at h
    | some containerJsonString =>
      simp only [hL] at h
      rw [read_of_readBytes s buf _ _ containerJsonString hlen hmem hL]
      cases hparse : codec.parse containerJsonString with
      | none => simp [hparse] at h
      | some doc =>
        simp only [hparse] at h ⊢
        cases he : doc.entries.get_to with
        | none => simp [he] at h
        | some entries =>
          cases hp : doc.shaderCreationParams.get_to with
          | none => simp [he, hp] at h
          | some ps =>
            simp only [he, hp] at h ⊢
            exact deserializeSpanLoop_of_ok s buf _ ps entries 0 _ c hlen hmem h

set_option maxRecDepth 1000000 in
/-- Claim C4, the reading that fails: on a span of four bytes, and on a span of twelve bytes
whose length prefix declares more than the four bytes behind it, `deserialize` returns a
cache when the memory behind the span continues a serialization; on the same four bytes
followed by other memory it fails with the exception of the parser. The bytes outside the
span decide. -/
theorem deserializeSpan_truncated_counterexample :
    headSpan.size = 4 ∧
    CCache.deserializeSpan binCodec headSpan = .ok exampleCache ∧
    cutSpan.size = 12 ∧
    12 < 8 + readUint64 (cutSpan.read 0 8) ∧
    CCache.deserializeSpan binCodec cutSpan = .ok exampleCache ∧
    headSpanAlone.size = 4 ∧
    headSpanAlone.read 0 4 = headSpan.read 0 4 ∧
    CCache.deserializeSpan binCodec headSpanAlone = .jsonException := by
  refine ⟨by decide, by decide, by decide, by decide, by decide, by decide, by decide,
    by decide⟩

/-- The loop of `deserialize` on the memory gives the same result for every size of the
span. -/
theorem deserializeSpanLoop_size (memory : Nat → Byte) (size size' : Nat) (L : Nat)
    (ps : List CPUShaderCreationParams) (entries : List SEntryJson) (i : Nat)
    (retVal : CCache) :
    deserializeSpanLoop ⟨memory, size⟩ L ps i entries retVal =
      deserializeSpanLoop ⟨memory, size'⟩ L ps i entries retVal := by
  induction entries generalizing i retVal with
  | nil => rfl
  | cons entry rest ih =>
    simp only [deserializeSpanLoop]
    cases ps[i]? with
    | none => rfl
    | some p => exact ih _ _

/-- Claim C4, amended. `CCache::deserialize` never looks at the size of the span: spans of
any two sizes over the same memory give the same result. It takes `L` from the eight bytes
at the address of the buffer and hands the `L` bytes behind them to the parser, wherever
the buffer ends; on a buffer shorter than `8 + L` bytes these reads leave the buffer and
the bytes found behind it decide. The call fails with the exception of the parser when
the `L` bytes found do not parse, and it returns a cache when the memory at the address of
the buffer holds bytes on which a call that stays inside them returns that cache. -/
theorem deserializeSpan_ignores_size (codec : JsonCodec) (serializedCache : ByteSpan) :
    (∀ size : Nat,
      CCache.deserializeSpan codec ⟨serializedCache.memory, size⟩ =
        CCache.deserializeSpan codec serializedCache) ∧
    (codec.parse
        (serializedCache.read 8 (readUint64 (serializedCache.read 0 8))) = none →
      CCache.deserializeSpan codec serializedCache = .jsonException) ∧
    (∀ (valid : List Byte) (c : CCache), valid.length ≤ 2 ^ 64 →
      (∀ i (h : i < valid.length), serializedCache.memory i = valid[i]) →
      CCache.deserialize codec valid = .ok c →
      CCache.deserializeSpan codec serializedCache = .ok c) := by
  refine ⟨?_, ?_, ?_⟩
  · intro size
    obtain ⟨memory, size0⟩ := serializedCache
    simp only [CCache.deserializeSpan, ByteSpan.read,
      deserializeSpanLoop_size memory size size0]
  · intro h
    simp only [CCache.deserializeSpan, CONTAINER_JSON_SIZE_BYTES, h]
  · intro valid c hlen hmem hok
    exact deserializeSpan_of_ok codec serializedCache valid c hlen hmem hok

/-- The inner loop on an include finder answers `true` exactly when every recorded
dependency re-resolves, with the call returning, to the recorded hash and contents. -/
theorem allDependenciesMatchRun_true_iff (XXHash_256 : String → Hash256) (fuel : Nat)
    (finder : CIncludeFinder) (deps : List SPreprocessingDependency) :
    allDependenciesMatchRun XXHash_256 fuel finder deps = some true ↔
      ∀ d ∈ deps, ∃ header, reresolve XXHash_256 fuel finder d = some header ∧
        header.hash = d.hash ∧ header.contents = d.contents := by
  induction deps with
  | nil => simp [allDependenciesMatchRun]
  | cons d rest ih =>
    simp only [allDependenciesMatchRun, List.mem_cons, forall_eq_or_imp, ← ih]
    cases hres : reresolve XXHash_256 fuel finder d with
    | none => simp
    | some header =>
      by_cases h1 : header.hash = d.hash <;> by_cases h2 : header.contents = d.contents <;>
        simp [h1, h2]

/-- The inner loop on an include finder returns when every re-resolution returns. -/
theorem allDependenciesMatchRun_isSome (XXHash_256 : String → Hash256) (fuel : Nat)
    (finder : CIncludeFinder) (deps : List SPreprocessingDependency)
    (h : ∀ d ∈ deps, (reresolve XXHash_256 fuel finder d).isSome = true) :
    (allDependenciesMatchRun XXHash_256 fuel finder deps).isSome = true := by
  induction deps with
  | nil => rfl
  | cons d rest ih =>
    have hd := h d (List.mem_cons_self _ _)
    have hrest := ih (fun e he => h e (List.mem_cons_of_mem _ he))
    simp only [allDependenciesMatchRun]
    cases hres : reresolve XXHash_256 fuel finder d with
    | none => simp [hres] at hd
    | some header =>
      simp only
      split
      · rfl
      · exact hrest

/-- The entry at which the bucket loop on an include finder returns belongs to the bucket
and passed the inner loop. -/
theorem findEntryRun_some (XXHash_256 : String → Hash256) (fuel : Nat)
    (finder : CIncludeFinder) (bucket : List SEntry) (e : SEntry)
    (h : findEntryRun XXHash_256 fuel finder bucket = some (some e)) :
    e ∈ bucket ∧ allDependenciesMatchRun XXHash_256 fuel finder e.dependencies = some true := by
  induction bucket with
  | nil => simp [findEntryRun] at h
  | cons x rest ih =>
    simp only [findEntryRun] at h
    cases hx : allDependenciesMatchRun XXHash_256 fuel finder x.dependencies with
    | none => simp [hx] at h
    | some b =>
      cases b with
      | true =>
        simp only [hx, Option.some.injEq] at h
        subst h
        exact ⟨List.mem_cons_self _ _, hx⟩
      | false =>
        simp only [hx] at h
        exact ⟨List.mem_cons_of_mem _ (ih h).1, (ih h).2⟩

/-- When every re-resolution for the bucket returns, the bucket loop on an include finder
returns, and it returns an entry exactly when some entry of the bucket passes the inner
loop. -/
theorem findEntryRun_of_returns (XXHash_256 : String → Hash256) (fuel : Nat)
    (finder : CIncludeFinder) (bucket : List SEntry)
    (h : ∀ e ∈ bucket, ∀ d ∈ e.dependencies,
      (reresolve XXHash_256 fuel finder d).isSome = true) :
    (findEntryRun XXHash_256 fuel finder bucket).isSome = true ∧
    ((∃ e, findEntryRun XXHash_256 fuel finder bucket = some (some e)) ↔
      ∃ e ∈ bucket, allDependenciesMatchRun XXHash_256 fuel finder e.dependencies
        = some true) := by
  induction bucket with
  | nil => simp [findEntryRun]
  | cons x rest ih =>
    have hx := allDependenciesMatchRun_isSome XXHash_256 fuel finder x.dependencies
      (h x (List.mem_cons_self _ _))
    obtain ⟨ih1, ih2⟩ := ih (fun e he => h e (List.mem_cons_of_mem _ he))
    simp only [findEntryRun]
    cases hm : allDependenciesMatchRun XXHash_256 fuel finder x.dependencies with
    | none => simp [hm] at hx
    | some b =>
      cases b with
      | true =>
        simp only [Option.isSome_some, true_and]
        exact ⟨fun _ => ⟨x, List.mem_cons_self _ _, hm⟩, fun _ => ⟨x, rfl⟩⟩
      | false =>
        simp only
        refine ⟨ih1, ?_⟩
        rw [ih2]
        constructor
        · rintro ⟨e, he, hall⟩
          exact ⟨e, List.mem_cons_of_mem _ he, hall⟩
        · rintro ⟨e, he, hall⟩
          rcases List.mem_cons.mp he with h1 | h1
          · rw [h1, hm] at hall
            exact absurd hall (by simp)
          · exact ⟨e, h1, hall⟩

/-- With `hiddenFinder`, a call of `getIncludeStandard` for `/usr/x.glsl` does not return,
whatever the digest, the requesting directory and the number of iterations granted to the
path peeling loop: the peeled path goes from `/usr` to `/` and stays there. -/
theorem hiddenFinder_getIncludeStandard_none (XXHash_256 : String → Hash256) (fuel : Nat)
    (requestingSourceDir : String) :
    hiddenFinder.getIncludeStandard XXHash_256 fuel requestingSourceDir "/usr/x.glsl" =
      none := by
  have hgen : hiddenFinder.tryIncludeGenerators fuel "/usr/x.glsl" = none := by
    cases fuel with
    | zero => rfl
    | succ n =>
      have hpath : system.path.parent_path (removeExtension "/usr/x.glsl") = "/usr" := by
        decide
      have hparent : system.path.parent_path "/usr" = "/" := by decide
      have hcond : ("/usr" != "" && system.path.root_name "/usr" == "" &&
          0 != hiddenFinder.m_generators.length) = true := by decide
      have hbegin : lower_bound hiddenFinder.m_generators 0 hiddenFinder.m_generators.length
          "/usr"
          (fun generator value =>
            compareGt (standardizePrefix generator.getPrefix).toList value.toList) = 0 := by
        decide
      have hend : upper_bound hiddenFinder.m_generators 0 hiddenFinder.m_generators.length
          "/usr"
          (fun value generator =>
            compareGt value.toList (standardizePrefix generator.getPrefix).toList) = 0 := by
        decide
      simp only [CIncludeFinder.tryIncludeGenerators, CIncludeFinder.tryIncludeGeneratorsRun,
        hpath]
      rw [peelLoop]
      simp only [hcond, if_true, hbegin, hend]
      simp only [Nat.sub_self, List.take_zero, tryGeneratorRange, hparent, List.append_nil]
      rw [peelLoop_root_none]
      rfl
  simp only [CIncludeFinder.getIncludeStandard, hgen]

/-- With `hiddenFinder`, `find` for the key of `hangingCache` does not return, whatever
the digest and the number of iterations granted to the path peeling loop. -/
theorem hangingCache_findRun_none (XXHash_256 : String → Hash256) (fuel : Nat) :
    hangingCache.findRun exampleKey XXHash_256 fuel hiddenFinder = none := by
  have hbucket : hangingCache.equal_range exampleKey =
      [⟨exampleKey, [usrDependency], shaderA⟩, entryNoDeps] := by decide
  have hres : reresolve XXHash_256 fuel hiddenFinder usrDependency = none := by
    simp only [reresolve, usrDependency, if_true, hiddenFinder_getIncludeStandard_none]
  simp only [CCache.findRun, hbucket, findEntryRun, allDependenciesMatchRun, hres,
    Option.map_none']

/-- When every re-resolution returns, the inner loop on the include finder gives the value
of the inner loop on the finder's resolver. -/
theorem allDependenciesMatchRun_eq_resolver (XXHash_256 : String → Hash256) (fuel : Nat)
    (finder : CIncludeFinder) (deps : List SPreprocessingDependency)
    (h : ∀ d ∈ deps, (reresolve XXHash_256 fuel finder d).isSome = true) :
    allDependenciesMatchRun XXHash_256 fuel finder deps =
      some (allDependenciesMatch (finder.resolver XXHash_256 fuel) deps) := by
  induction deps with
  | nil => rfl
  | cons d rest ih =>
    have hd := h d (List.mem_cons_self _ _)
    have hrest := ih (fun e he => h e (List.mem_cons_of_mem _ he))
    simp only [allDependenciesMatchRun, allDependenciesMatch, hrest]
    cases hs : d.standardInclude with
    | true =>
      simp only [reresolve, hs, if_true] at hd ⊢
      cases hres : finder.getIncludeStandard XXHash_256 fuel d.requestingSourceDir
          d.identifier with
      | none => simp [hres] at hd
      | some header =>
        simp only [CIncludeFinder.resolver, hres, Option.getD_some]
        split <;> rfl
    | false =>
      simp only [reresolve, hs, Bool.false_eq_true, if_false, CIncludeFinder.resolver]
      split <;> rfl

/-- When every re-resolution for the bucket of the key returns, `find` on the include
finder returns what `find` on the finder's resolver gives. -/
theorem findRun_eq_find (XXHash_256 : String → Hash256) (fuel : Nat)
    (finder : CIncludeFinder) (c : CCache) (mainFile : CacheKey)
    (h : ∀ e ∈ c.equal_range mainFile, ∀ d ∈ e.dependencies,
      (reresolve XXHash_256 fuel finder d).isSome = true) :
    c.findRun mainFile XXHash_256 fuel finder =
      some (c.find mainFile (finder.resolver XXHash_256 fuel)) := by
  simp only [CCache.findRun, CCache.find]
  generalize c.equal_range mainFile = bucket at h
  induction bucket with
  | nil => rfl
  | cons x rest ih =>
    have hrest := ih (fun e he => h e (List.mem_cons_of_mem _ he))
    simp only [findEntryRun, findEntry,
      allDependenciesMatchRun_eq_resolver XXHash_256 fuel finder x.dependencies
        (h x (List.mem_cons_self _ _))]
    cases allDependenciesMatch (finder.resolver XXHash_256 fuel) x.dependencies with
    | true => rfl
    | false => simpa using hrest

/-- Claim C1. An artifact that `find` returns is the artifact of an entry of the key's
bucket all of whose recorded dependencies re-resolve to the recorded hash and contents;
`find` returns not-found on an empty bucket, in particular on an empty cache; and when
every re-resolution for the bucket returns, `find` returns, and it returns an artifact
exactly when some entry of the bucket has all its dependencies re-resolve as recorded.
But `find` need not return: for the cache whose bucket holds an entry that depends on the
standard include `/usr/x.glsl` in front of an entry without dependencies, and the finder
with one generator at the prefix `.hidden`, the bucket has an entry all of whose
dependencies re-resolve as recorded, and `find` returns nothing, because the first
re-resolution does not return. -/
theorem findRun_artifact_iff_entry_revalidates (XXHash_256 : String → Hash256) (fuel : Nat)
    (finder : CIncludeFinder) (c : CCache) (mainFile : CacheKey) :
    (∀ a, c.findRun mainFile XXHash_256 fuel finder = some (some a) →
      ∃ e ∈ c.equal_range mainFile, e.value = a ∧ ∀ d ∈ e.dependencies,
        ∃ header, reresolve XXHash_256 fuel finder d = some header ∧
          header.hash = d.hash ∧ header.contents = d.contents) ∧
    (c.equal_range mainFile = [] →
      c.findRun mainFile XXHash_256 fuel finder = some none) ∧
    CCache.empty.findRun mainFile XXHash_256 fuel finder = some none ∧
    ((∀ e ∈ c.equal_range mainFile, ∀ d ∈ e.dependencies,
        (reresolve XXHash_256 fuel finder d).isSome = true) →
      c.findRun mainFile XXHash_256 fuel finder ≠ none ∧
      ((∃ a, c.findRun mainFile XXHash_256 fuel finder = some (some a)) ↔
        ∃ e ∈ c.equal_range mainFile, ∀ d ∈ e.dependencies,
          ∃ header, reresolve XXHash_256 fuel finder d = some header ∧
            header.hash = d.hash ∧ header.contents = d.contents)) ∧
    ((∃ e ∈ hangingCache.equal_range exampleKey, ∀ d ∈ e.dependencies,
        ∃ header, reresolve XXHash_256 fuel hiddenFinder d = some header ∧
          header.hash = d.hash ∧ header.contents = d.contents) ∧
      ∀ fuel' : Nat, hangingCache.findRun exampleKey XXHash_256 fuel' hiddenFinder = none) := by
  refine ⟨?_, ?_, ?_, ?_, ?_, ?_⟩
  · intro a ha
    simp only [CCache.findRun, Option.map_eq_some'] at ha
    obtain ⟨found, hfound, hmap⟩ := ha
    cases found with
    | none => simp at hmap
    | some e =>
      have hvalue : e.value = a := by simpa using hmap
      obtain ⟨hmem, hall⟩ := findEntryRun_some XXHash_256 fuel finder _ e hfound
      exact ⟨e, hmem, hvalue,
        (allDependenciesMatchRun_true_iff XXHash_256 fuel finder _).1 hall⟩
  · intro hempty
    simp [CCache.findRun, hempty, findEntryRun]
  · simp [CCache.findRun, CCache.empty, CCache.equal_range, findEntryRun]
  · intro hreturns
    obtain ⟨h1, h2⟩ := findEntryRun_of_returns XXHash_256 fuel finder _ hreturns
    refine ⟨?_, ?_⟩
    · intro hnone
      simp only [CCache.findRun, Option.map_eq_none'] at hnone
      rw [hnone] at h1
      exact absurd h1 (by simp)
    · constructor
      · rintro ⟨a, ha⟩
        simp only [CCache.findRun, Option.map_eq_some'] at ha
        obtain ⟨found, hfound, hmap⟩ := ha
        cases found with
        | none => simp at hmap
        | some e =>
          obtain ⟨hmem, hall⟩ := findEntryRun_some XXHash_256 fuel finder _ e hfound
          exact ⟨e, hmem,
            (allDependenciesMatchRun_true_iff XXHash_256 fuel finder _).1 hall⟩
      · rintro ⟨e, hmem, hall⟩
        obtain ⟨e', he'⟩ := h2.2 ⟨e, hmem,
          (allDependenciesMatchRun_true_iff XXHash_256 fuel finder _).2 hall⟩
        exact ⟨e'.value, by simp [CCache.findRun, he']⟩
  · refine ⟨entryNoDeps, by decide, ?_⟩
    intro d hd
    exact absurd hd (by simp [entryNoDeps])
  · intro fuel'
    exact hangingCache_findRun_none XXHash_256 fuel'

/-- Claim C10. For an entry without recorded dependencies, `find` for its key returns the
artifact of the entry when the entry is the whole bucket of the key, whatever the finder;
and it returns an artifact when every re-resolution for the entries of the bucket returns.
But `find` need not return: in the cache whose bucket holds an entry that depends on the
standard include `/usr/x.glsl` in front of the entry without dependencies, and with the
finder with one generator at the prefix `.hidden`, `find` for the key returns nothing,
because the re-resolution for the entry in front does not return. -/
theorem findRun_entry_without_dependencies (XXHash_256 : String → Hash256) (fuel : Nat)
    (finder : CIncludeFinder) (c : CCache) (e : SEntry) :
    (e.dependencies = [] → c.equal_range e.key = [e] →
      c.findRun e.key XXHash_256 fuel finder = some (some e.value)) ∧
    (e ∈ c.m_container → e.dependencies = [] →
      (∀ e' ∈ c.equal_range e.key, ∀ d ∈ e'.dependencies,
        (reresolve XXHash_256 fuel finder d).isSome = true) →
      ∃ a, c.findRun e.key XXHash_256 fuel finder = some (some a)) ∧
    (entryNoDeps ∈ hangingCache.m_container ∧ entryNoDeps.dependencies = [] ∧
      entryNoDeps.key = exampleKey ∧
      ∀ fuel' : Nat, hangingCache.findRun exampleKey XXHash_256 fuel' hiddenFinder = none) := by
  refine ⟨?_, ?_, by decide, rfl, rfl, ?_⟩
  · intro hdeps hbucket
    simp [CCache.findRun, hbucket, findEntryRun, hdeps, allDependenciesMatchRun]
  · intro he hdeps hreturns
    obtain ⟨-, h2⟩ := findEntryRun_of_returns XXHash_256 fuel finder _ hreturns
    obtain ⟨e', he'⟩ := h2.2
      ⟨e, (mem_equal_range c e.key e).2 ⟨he, rfl⟩, by rw [hdeps]; rfl⟩
    exact ⟨e'.value, by simp [CCache.findRun, he']⟩
  · intro fuel'
    exact hangingCache_findRun_none XXHash_256 fuel'

end nbl.asset
